import Mathlib

/-!
Verification development for the wavefst FST (Fast Signal Trace) reader/writer.

The definitions below are shallow embeddings of the Rust sources:
machine integers (u8/u32/u64/usize) are modelled as Nat with explicit
wrap-around (mod 2^64 / mod 2^32 / mod 256) at the operations where the Rust
code can overflow, i64 is modelled as Int restricted to the i64 range, byte
buffers are List Nat (each element < 256 for well-formed data), f64 values
are carried as their IEEE-754 bit patterns (Nat), and fallible functions
return Except Err.
-/

namespace Wavefst

/-- Error kinds of the crate (src/error.rs): Io, InvalidData, Unsupported, Decode. -/
inductive Err where
  | ioErr : Err
  | invalid : String → Err
  | unsupported : String → Err
  | decodeErr : String → Err
deriving DecidableEq, Repr

/-! ## Varint codec (src/encoding/varint.rs, src/encoding/varint_signed.rs) -/

/-- Maximum number of bytes that a u64 varint can occupy (VARINT_MAX_LEN). -/
def VARINT_MAX_LEN : Nat := 10

/-- Loop of encode_varint, made structurally recursive on a fuel argument so
that the definition computes by kernel reduction; since value / 128 < value
for positive value, any fuel ≥ value runs the loop to completion, so the
fuel never alters the result (encode_varint_eq recovers the plain recursive
equation of the source loop). -/
def encode_varint_go : Nat → Nat → List Nat
  | 0, value => [value % 128]
  | fuel + 1, value =>
    if value / 128 = 0 then [value % 128]
    else (value % 128 ||| 128) :: encode_varint_go fuel (value / 128)

/-- Encodes the given value as an unsigned LEB128 varint (encode_varint): the
loop emits value & 0x7f, shifts by 7, sets the 0x80 continuation bit while
the remaining value is nonzero. -/
def encode_varint (value : Nat) : List Nat :=
  encode_varint_go value value

theorem encode_varint_go_congr :
    ∀ (value fuel fuel' : Nat), value ≤ fuel → value ≤ fuel' →
      encode_varint_go fuel value = encode_varint_go fuel' value := by
  intro value
  induction value using Nat.strong_induction_on with
  | _ value ih =>
    intro fuel fuel' hf hf'
    rcases value with _ | v
    · cases fuel <;> cases fuel' <;> simp [encode_varint_go]
    · obtain ⟨f, rfl⟩ : ∃ f, fuel = f + 1 := ⟨fuel - 1, by omega⟩
      obtain ⟨g, rfl⟩ : ∃ g, fuel' = g + 1 := ⟨fuel' - 1, by omega⟩
      by_cases hz : (v + 1) / 128 = 0
      · simp [encode_varint_go, hz]
      · simp only [encode_varint_go, hz, if_false]
        have hlt : (v + 1) / 128 < v + 1 := Nat.div_lt_self (by omega) (by omega)
        rw [ih ((v + 1) / 128) hlt f g (by omega) (by omega)]

/-- The recursive equation of the source encoding loop. -/
theorem encode_varint_eq (value : Nat) :
    encode_varint value =
      if value / 128 = 0 then [value % 128]
      else (value % 128 ||| 128) :: encode_varint (value / 128) := by
  unfold encode_varint
  rcases value with _ | v
  · simp [encode_varint_go]
  · show encode_varint_go (v + 1) (v + 1) = _
    by_cases hz : (v + 1) / 128 = 0
    · simp [encode_varint_go, hz]
    · simp only [encode_varint_go, hz, if_false]
      have hlt : (v + 1) / 128 < v + 1 := Nat.div_lt_self (by omega) (by omega)
      rw [encode_varint_go_congr ((v + 1) / 128) v ((v + 1) / 128) (by omega) (by omega)]

/-- Streaming-decoder loop of decode_varint: index i counts consumed bytes,
accumulating (byte & 0x7f) << (i * 7) into value (u64 arithmetic, hence the
mod 2^64), stopping on a clear continuation bit, and failing after
VARINT_MAX_LEN continuation bytes. -/
def decode_varint_go (i : Nat) (value : Nat) (input : List Nat) :
    Except Err (Nat × List Nat) :=
  if i < VARINT_MAX_LEN then
    match input with
    | [] => .error (.decodeErr "unexpected end of input while decoding varint")
    | b :: rest =>
      let value' := (value ||| ((b &&& 127) <<< (i * 7))) % 2 ^ 64
      if b &&& 128 = 0 then .ok (value', rest)
      else decode_varint_go (i + 1) value' rest
  else .error (.decodeErr "varint exceeds maximum length")

/-- Decodes a u64 varint from a byte slice, returning the value and the rest
of the slice (decode_varint advances the slice on success). -/
def decode_varint (input : List Nat) : Except Err (Nat × List Nat) :=
  decode_varint_go 0 0 input

/-- Loop of decode_varint_with_len: reads input[i] by index instead of
consuming the slice, returning the value and i + 1 as consumed length. The
source loop runs i over 0..VARINT_MAX_LEN; here the structurally decreasing
fuel argument counts the remaining iterations (fuel = VARINT_MAX_LEN - i),
and exhausting it is exactly falling off the end of the loop. -/
def decode_varint_with_len_go (input : List Nat) : Nat → Nat → Nat → Except Err (Nat × Nat)
  | 0, _, _ => .error (.decodeErr "varint exceeds maximum length")
  | fuel + 1, i, value =>
    if h : i < input.length then
      let b := input.get ⟨i, h⟩
      let value' := (value ||| ((b &&& 127) <<< (i * 7))) % 2 ^ 64
      if b &&& 128 = 0 then .ok (value', i + 1)
      else decode_varint_with_len_go input fuel (i + 1) value'
    else .error (.decodeErr "unexpected end of input while decoding varint")

/-- Decodes a u64 varint from a byte slice, returning the value and the number
of bytes consumed (decode_varint_with_len). -/
def decode_varint_with_len (input : List Nat) : Except Err (Nat × Nat) :=
  decode_varint_with_len_go input VARINT_MAX_LEN 0 0

/-- Two's-complement u64 bit pattern of an i64 value. -/
def i64ToU64 (v : Int) : Nat := (v % 2 ^ 64).toNat

/-- ZigZag bit pattern ((value << 1) ^ (value >> 63)) as u64 of encode_svarint:
the wrapping left shift contributes the pattern of 2 * value, and the
arithmetic right shift by 63 contributes all-ones exactly when value < 0. -/
def zigzag (value : Int) : Nat :=
  i64ToU64 (2 * value) ^^^ (if value < 0 then 2 ^ 64 - 1 else 0)

/-- Encodes a signed integer using ZigZag + varint encoding (encode_svarint). -/
def encode_svarint (value : Int) : List Nat :=
  encode_varint (zigzag value)

/-- Decodes a signed ZigZag/varint integer (decode_svarint): with
magnitude = (raw >> 1) as i64 (nonnegative since raw >> 1 < 2^63) and
sign = raw & 1, the result magnitude ^ -sign equals magnitude when the sign
bit is clear and -(magnitude + 1) when it is set. -/
def decode_svarint (input : List Nat) : Except Err (Int × List Nat) :=
  match decode_varint input with
  | .error e => .error e
  | .ok (raw, rest) =>
    if raw % 2 = 0 then .ok ((raw / 2 : Nat), rest)
    else .ok (-((raw / 2 : Nat) + 1), rest)

/-! ### Varint round-trip lemmas -/

theorem lor_shiftLeft_eq_add {a : Nat} (b k : Nat) (h : a < 2 ^ k) :
    a ||| (b <<< k) = 2 ^ k * b + a := by
  refine Nat.eq_of_testBit_eq fun j => ?_
  rw [Nat.testBit_or, Nat.testBit_shiftLeft, Nat.testBit_mul_pow_two_add b h j]
  by_cases hj : j < k
  · simp [hj, Nat.not_le_of_lt hj]
  · have hk : k ≤ j := Nat.le_of_not_lt hj
    have : a.testBit j = false := Nat.testBit_lt_two_pow (Nat.lt_of_lt_of_le h (Nat.pow_le_pow_right (by omega) hk))
    simp [hj, hk, this]

theorem and_127_of_lt {a : Nat} (h : a < 128) : a &&& 127 = a := by
  have : (127 : Nat) = 2 ^ 7 - 1 := by norm_num
  rw [this, Nat.and_pow_two_sub_one_eq_mod]
  omega

theorem and_128_of_lt {a : Nat} (h : a < 128) : a &&& 128 = 0 := by
  have h128 : (128 : Nat) = 2 ^ 7 := by norm_num
  rw [h128, Nat.and_two_pow]
  have : a.testBit 7 = false := Nat.testBit_lt_two_pow (by omega)
  simp [this]

theorem or_128_and_127 {a : Nat} (h : a < 128) : (a ||| 128) &&& 127 = a := by
  refine Nat.eq_of_testBit_eq fun j => ?_
  simp only [Nat.testBit_and, Nat.testBit_or]
  by_cases hj : j < 7
  · have h128 : Nat.testBit 128 j = false := by interval_cases j <;> decide
    have h127 : Nat.testBit 127 j = true := by interval_cases j <;> decide
    simp [h128, h127]
  · have hpow : (128 : Nat) ≤ 2 ^ j := by
      calc (128 : Nat) = 2 ^ 7 := by norm_num
        _ ≤ 2 ^ j := Nat.pow_le_pow_right (by norm_num) (by omega)
    have h127 : Nat.testBit 127 j = false :=
      Nat.testBit_lt_two_pow (by omega)
    have ha : a.testBit j = false :=
      Nat.testBit_lt_two_pow (by omega)
    simp [h127, ha]

theorem or_128_and_128 {a : Nat} (_h : a < 128) : (a ||| 128) &&& 128 ≠ 0 := by
  intro hz
  have hb := congrArg (fun n => Nat.testBit n 7) hz
  simp only [Nat.testBit_and, Nat.testBit_or, Nat.zero_testBit] at hb
  have h128 : Nat.testBit 128 7 = true := by decide
  rw [h128] at hb
  simp at hb

theorem decode_varint_go_encode :
    ∀ (v i acc : Nat) (rest : List Nat),
      acc < 2 ^ (i * 7) →
      acc + v * 2 ^ (i * 7) < 2 ^ 64 →
      (i = 0 ∨ 0 < v) →
      decode_varint_go i acc (encode_varint v ++ rest) =
        .ok (acc + v * 2 ^ (i * 7), rest) := by
  intro v
  induction v using Nat.strong_induction_on with
  | _ v ih =>
    intro i acc rest hacc hbound hiv
    have hi10 : i < 10 := by
      rcases hiv with h0 | hv
      · omega
      · by_contra hge
        have h7 : 64 ≤ i * 7 := by omega
        have : 2 ^ 64 ≤ 2 ^ (i * 7) := Nat.pow_le_pow_right (by omega) h7
        have : 2 ^ (i * 7) ≤ v * 2 ^ (i * 7) := Nat.le_mul_of_pos_left _ hv
        omega
    rw [encode_varint_eq]
    by_cases h : v / 128 = 0
    · have hv128 : v < 128 := by
        by_contra hge
        have : 0 < v / 128 := Nat.div_pos (by omega) (by omega)
        omega
      rw [if_pos h]
      have hmod : v % 128 = v := Nat.mod_eq_of_lt hv128
      rw [hmod]
      unfold decode_varint_go
      simp only [if_pos (show i < VARINT_MAX_LEN from hi10), List.cons_append]
      rw [and_127_of_lt hv128, and_128_of_lt hv128]
      simp only [if_pos rfl]
      rw [lor_shiftLeft_eq_add v (i * 7) hacc, Nat.mul_comm (2 ^ (i * 7)) v]
      rw [Nat.mod_eq_of_lt (show v * 2 ^ (i * 7) + acc < 2 ^ 64 by omega)]
      rw [Nat.add_comm acc (v * 2 ^ (i * 7))]
      simp
    · rw [if_neg h]
      have hmlt : v % 128 < 128 := Nat.mod_lt _ (by omega)
      unfold decode_varint_go
      simp only [if_pos (show i < VARINT_MAX_LEN from hi10), List.cons_append]
      rw [or_128_and_127 hmlt]
      simp only [if_neg (or_128_and_128 hmlt)]
      rw [lor_shiftLeft_eq_add (v % 128) (i * 7) hacc,
        Nat.mul_comm (2 ^ (i * 7)) (v % 128)]
      have hle : v % 128 * 2 ^ (i * 7) ≤ v * 2 ^ (i * 7) :=
        Nat.mul_le_mul_right _ (Nat.mod_le v 128)
      have hacc' : v % 128 * 2 ^ (i * 7) + acc < 2 ^ ((i + 1) * 7) := by
        have h1 : v % 128 * 2 ^ (i * 7) ≤ 127 * 2 ^ (i * 7) :=
          Nat.mul_le_mul_right _ (by omega)
        have h2 : (128 : Nat) * 2 ^ (i * 7) = 2 ^ ((i + 1) * 7) := by
          rw [show (i + 1) * 7 = i * 7 + 7 by ring, Nat.pow_add]
          ring
        omega
      have hsum : v % 128 * 2 ^ (i * 7) + acc + v / 128 * 2 ^ ((i + 1) * 7) =
          acc + v * 2 ^ (i * 7) := by
        rw [show (i + 1) * 7 = i * 7 + 7 by ring, Nat.pow_add]
        have hdm : v % 128 + 128 * (v / 128) = v := Nat.mod_add_div v 128
        nlinarith [hdm]
      rw [Nat.mod_eq_of_lt (show v % 128 * 2 ^ (i * 7) + acc < 2 ^ 64 by omega)]
      rw [ih (v / 128) (Nat.div_lt_self (by omega) (by omega)) (i + 1)
        (v % 128 * 2 ^ (i * 7) + acc) rest hacc' (by omega)
        (Or.inr (Nat.div_pos (by omega) (by omega)))]
      rw [hsum]

/-- Round trip for the streaming decoder at the top level. -/
theorem decode_varint_encode (v : Nat) (rest : List Nat) (hv : v < 2 ^ 64) :
    decode_varint (encode_varint v ++ rest) = .ok (v, rest) := by
  have := decode_varint_go_encode v 0 0 rest (by norm_num) (by simpa) (Or.inl rfl)
  simpa [decode_varint] using this

theorem decode_varint_with_len_go_eq_go (input : List Nat) :
    ∀ (k i acc : Nat), i + k = VARINT_MAX_LEN →
      decode_varint_with_len_go input k i acc =
        match decode_varint_go i acc (input.drop i) with
        | .ok (v, rest) => .ok (v, input.length - rest.length)
        | .error e => .error e := by
  intro k
  induction k with
  | zero =>
    intro i acc hk
    unfold decode_varint_with_len_go decode_varint_go
    simp [show ¬ i < VARINT_MAX_LEN by omega]
  | succ k ihk =>
    intro i acc hk
    have hi : i < VARINT_MAX_LEN := by omega
    unfold decode_varint_with_len_go decode_varint_go
    simp only [if_pos hi]
    by_cases h : i < input.length
    · have hdrop : input.drop i = input.get ⟨i, h⟩ :: input.drop (i + 1) := by
        rw [List.drop_eq_getElem_cons h]
        simp
      rw [hdrop]
      simp only [dif_pos h]
      by_cases hb : input.get ⟨i, h⟩ &&& 128 = 0
      · simp only [if_pos hb]
        have : input.length - (input.drop (i + 1)).length = i + 1 := by
          rw [List.length_drop]
          omega
        rw [this]
      · simp only [if_neg hb]
        exact ihk (i + 1) _ (by omega)
    · have hdrop : input.drop i = [] := List.drop_eq_nil_of_le (by omega)
      rw [hdrop]
      simp [h]

/-- Round trip for the sized decoder: it returns the value together with the
exact number of bytes the encoder produced. -/
theorem decode_varint_with_len_encode (v : Nat) (rest : List Nat) (hv : v < 2 ^ 64) :
    decode_varint_with_len (encode_varint v ++ rest) =
      .ok (v, (encode_varint v).length) := by
  unfold decode_varint_with_len
  rw [decode_varint_with_len_go_eq_go _ VARINT_MAX_LEN 0 0 (by omega)]
  have h := decode_varint_go_encode v 0 0 rest (by norm_num) (by simpa) (Or.inl rfl)
  simp only [List.drop_zero, h]
  simp [List.length_append]

theorem xor_ones {a n : Nat} (h : a < 2 ^ n) : a ^^^ (2 ^ n - 1) = 2 ^ n - (a + 1) := by
  refine Nat.eq_of_testBit_eq fun j => ?_
  rw [Nat.testBit_xor, Nat.testBit_two_pow_sub_one, Nat.testBit_two_pow_sub_succ h]
  by_cases hj : j < n
  · simp [hj]
  · have : a.testBit j = false :=
      Nat.testBit_lt_two_pow (Nat.lt_of_lt_of_le h (Nat.pow_le_pow_right (by omega) (by omega)))
    simp [hj, this]

theorem zigzag_nonneg {v : Int} (h0 : 0 ≤ v) (h : v < 2 ^ 63) :
    zigzag v = (2 * v).toNat := by
  unfold zigzag i64ToU64
  rw [if_neg (by omega)]
  rw [Int.emod_eq_of_lt (by omega) (by push_cast; omega)]
  simp

theorem zigzag_neg {v : Int} (hlo : -2 ^ 63 ≤ v) (h : v < 0) :
    zigzag v = (-2 * v - 1).toNat := by
  unfold zigzag i64ToU64
  rw [if_pos h]
  have hmod : 2 * v % 2 ^ 64 = 2 ^ 64 + 2 * v := by
    rw [show (2:Int) * v % 2 ^ 64 = (2 * v + 2 ^ 64) % 2 ^ 64 by omega]
    rw [Int.emod_eq_of_lt (by push_cast; omega) (by push_cast; omega)]
    omega
  rw [hmod]
  have htn : ((2:Int) ^ 64 + 2 * v).toNat < 2 ^ 64 := by
    push_cast
    omega
  rw [xor_ones htn]
  push_cast
  omega

/-- C7: for every n in the u64 range, decoding the bytes appended by
encode_varint returns n and consumes exactly those bytes (the untouched
remainder of the slice is returned); for every i64 value, decode_svarint
inverts encode_svarint. -/
theorem varint_and_svarint_roundtrip :
    (∀ (n : Nat) (rest : List Nat), n < 2 ^ 64 →
      decode_varint (encode_varint n ++ rest) = .ok (n, rest)) ∧
    (∀ (v : Int) (rest : List Nat), -2 ^ 63 ≤ v → v < 2 ^ 63 →
      decode_svarint (encode_svarint v ++ rest) = .ok (v, rest)) := by
  constructor
  · exact fun n rest h => decode_varint_encode n rest h
  · intro v rest hlo hhi
    unfold decode_svarint encode_svarint
    by_cases hv : 0 ≤ v
    · rw [zigzag_nonneg hv hhi]
      rw [decode_varint_encode _ rest (by push_cast; omega)]
      have heven : (2 * v).toNat % 2 = 0 := by omega
      simp only [heven, if_pos]
      have : (((2 * v).toNat / 2 : Nat) : Int) = v := by push_cast; omega
      rw [this]
    · rw [zigzag_neg hlo (by omega)]
      rw [decode_varint_encode _ rest (by push_cast; omega)]
      have hodd : ¬ (-2 * v - 1).toNat % 2 = 0 := by omega
      simp only [hodd, if_neg, if_false]
      have : -((((-2 * v - 1).toNat / 2 : Nat) : Int) + 1) = v := by push_cast; omega
      rw [this]

/-- Witness for C7 at n = 300 and v = -5. -/
theorem varint_and_svarint_roundtrip_witness :
    decode_varint (encode_varint 300 ++ [7]) = .ok (300, [7]) ∧
    decode_svarint (encode_svarint (-5) ++ [9]) = .ok (-5, [9]) :=
  ⟨varint_and_svarint_roundtrip.1 300 [7] (by norm_num),
   varint_and_svarint_roundtrip.2 (-5) [9] (by norm_num) (by norm_num)⟩

/-! ## Compression markers and backends (src/types/enums.rs, src/compression) -/

/-- Compression marker used inside value-change blocks (PackType). -/
inductive PackType where
  | None : PackType
  | Zlib : PackType
  | FastLz : PackType
  | Lz4 : PackType
deriving DecidableEq, Repr

/-- Converts the on-disk marker byte into a PackType (PackType::from_marker):
b'Z', b'!' and b'^' mean Zlib, b'F' FastLz, b'4' Lz4, 0 None. -/
def PackType.from_marker (marker : Nat) : Option PackType :=
  if marker = 90 ∨ marker = 33 ∨ marker = 94 then some .Zlib
  else if marker = 70 then some .FastLz
  else if marker = 52 then some .Lz4
  else if marker = 0 then some .None
  else none

/-- Returns the marker byte used in value-change blocks (PackType::marker). -/
def PackType.marker : PackType → Nat
  | .None => 0
  | .Zlib => 90
  | .FastLz => 70
  | .Lz4 => 52

/-- The compression backends (flate2 zlib/gzip, lz4_flex, fastlz_sys) are
external crates; this structure abstracts their compress/decompress entry
points as pure byte-list functions so the surrounding code of this crate can
be embedded faithfully.  The decompressors used by the reader take the
expected uncompressed length where the backend requires it. -/
structure Codec where
  zlibCompress : List Nat → List Nat
  lz4Compress : List Nat → List Nat
  fastlzCompress : List Nat → List Nat
  gzipCompress : List Nat → List Nat
  zlibDecompress : List Nat → List Nat
  lz4Decompress : List Nat → Nat → List Nat
  fastlzDecompress : List Nat → Nat → List Nat
  gzipDecompress : List Nat → List Nat

/-- Identity backend: a self-consistent instantiation in which a compressor
never shrinks its input (so every fallback-to-raw branch is taken). -/
def idCodec : Codec where
  zlibCompress := id
  lz4Compress := id
  fastlzCompress := id
  gzipCompress := id
  zlibDecompress := id
  lz4Decompress := fun b _ => b
  fastlzDecompress := fun b _ => b
  gzipDecompress := id

/-- Encodes an individual chain payload according to the selected compression
marker (encode_chain_payload, src/block/vc.rs): empty data and PackType::None
are stored raw with stored_len 0; otherwise the backend's compressor runs and
its output is kept only when strictly smaller than the input, else the raw
input is kept with stored_len 0. -/
def encode_chain_payload (codec : Codec) (pack_type : PackType) (data : List Nat) :
    Except Err (Nat × List Nat) :=
  let raw_len := data.length
  if data = [] then .ok (0, data)
  else
    match pack_type with
    | .None => .ok (0, data)
    | .Zlib =>
      let compressed := codec.zlibCompress data
      if compressed.length < data.length then .ok (raw_len, compressed)
      else .ok (0, data)
    | .Lz4 =>
      let compressed := codec.lz4Compress data
      if compressed.length < data.length then .ok (raw_len, compressed)
      else .ok (0, data)
    | .FastLz =>
      let compressed := codec.fastlzCompress data
      if compressed.length < data.length then .ok (raw_len, compressed)
      else .ok (0, data)

/-- The compressor selected by a pack type (identity for PackType::None). -/
def chainCompress (codec : Codec) : PackType → List Nat → List Nat
  | .None => id
  | .Zlib => codec.zlibCompress
  | .Lz4 => codec.lz4Compress
  | .FastLz => codec.fastlzCompress

/-- C8: for every non-empty chain payload and every pack type whose backend is
available (abstracted by the codec), encode_chain_payload returns
(raw_len, compressed) exactly when the compressed output is strictly smaller
than the input and (0, input) otherwise; it never returns an error. -/
theorem encode_chain_payload_fallback (codec : Codec) (pack_type : PackType)
    (data : List Nat) (h : data ≠ []) :
    encode_chain_payload codec pack_type data =
      .ok (if (chainCompress codec pack_type data).length < data.length
           then (data.length, chainCompress codec pack_type data)
           else (0, data)) := by
  cases pack_type <;>
    simp only [encode_chain_payload, chainCompress, if_neg h, id] <;>
    (split <;> simp_all)

/-- Witness for C8 at a concrete non-empty payload. -/
theorem encode_chain_payload_fallback_witness :
    encode_chain_payload idCodec .Zlib [1, 2, 3] =
      .ok (if (chainCompress idCodec .Zlib [1, 2, 3]).length < ([1, 2, 3] : List Nat).length
           then (([1, 2, 3] : List Nat).length, chainCompress idCodec .Zlib [1, 2, 3])
           else (0, [1, 2, 3])) :=
  encode_chain_payload_fallback idCodec .Zlib [1, 2, 3] (by simp)

/-! ## Data model (src/block/geom.rs, src/types/value.rs, src/writer/mod.rs)

Characters are carried as their code points, strings as their UTF-8 bytes,
and f64 values as their IEEE-754 bit patterns.  The host is modelled as
little-endian (the cfg(target_endian) branches taken on x86-64). -/

/-- Per-handle geometry entry (GeomEntry). -/
inductive GeomEntry where
  | Fixed : Nat → GeomEntry
  | Real : GeomEntry
  | Variable : GeomEntry
deriving DecidableEq, Repr

/-- Logical signal value (SignalValue); Vector carries the UTF-8 bytes of the
ASCII string, Real the IEEE-754 bit pattern. -/
inductive SignalValue where
  | Bit : Nat → SignalValue
  | Vector : List Nat → SignalValue
  | PackedBits : Nat → List Nat → SignalValue
  | Real : Nat → SignalValue
  | Bytes : List Nat → SignalValue
deriving DecidableEq, Repr

/-- The canonical 8-char special table (SPECIAL_BIT_CHARS = b"xzhuwl-?"). -/
def SPECIAL_BIT_CHARS : List Nat := [120, 122, 104, 117, 119, 108, 45, 63]

/-- Internal single-bit state of the writer (BitValue). -/
inductive BitValue where
  | Zero : BitValue
  | One : BitValue
  | Special : Nat → BitValue
deriving DecidableEq, Repr

/-- Rust char::to_ascii_lowercase: adds 32 to ASCII uppercase letters only. -/
def asciiLowercase (ch : Nat) : Nat :=
  if 65 ≤ ch ∧ ch ≤ 90 then ch + 32 else ch

/-- BitValue::from_char: '0' and '1' map to Zero/One; anything else is
lowercased and looked up in the special table, failing with Unsupported when
absent. -/
def BitValue.from_char (ch : Nat) : Except Err BitValue :=
  if ch = 48 then .ok .Zero
  else if ch = 49 then .ok .One
  else
    match SPECIAL_BIT_CHARS.findIdx? (fun c => c = asciiLowercase ch) with
    | some idx => .ok (.Special idx)
    | none => .error (.unsupported "bit state is not supported for writing")

/-- BitValue::to_char. -/
def BitValue.to_char : BitValue → Nat
  | .Zero => 48
  | .One => 49
  | .Special index => SPECIAL_BIT_CHARS.getD index 0

/-- Owned value held in the writer's pending-change buffer (OwnedValue). -/
inductive OwnedValue where
  | Bit : BitValue → OwnedValue
  | Vector : Nat → List Nat → Option (List Nat) → OwnedValue
  | Real : Nat → OwnedValue
  | VarLen : List Nat → OwnedValue
deriving DecidableEq, Repr

/-- Number of packed bytes of a width-w vector (packed_len):
ceil(width / 8) with a floor of 1. -/
def packed_len (width : Nat) : Nat := ((width + 7) / 8).max 1

/-- Scalar bit packer (pack_ascii_bits_scalar): returns none when any byte is
not ASCII '0'/'1'; otherwise sets, MSB-first, one bit per '1' byte.  The simd
wrapper pack_ascii_bits delegates here on builds without the simd feature. -/
def pack_ascii_bits_scalar (data : List Nat) (len : Nat) : Option (List Nat) :=
  if data.any (fun b => b ≠ 48 ∧ b ≠ 49) then none
  else
    some ((List.range len).map (fun byte_index =>
      (List.range 8).foldl (fun acc bit_index =>
        if data.getD (byte_index * 8 + bit_index) 48 = 49 then
          acc ||| (1 <<< (7 - bit_index))
        else acc) 0))

/-- pack_ascii_bits for a non-simd build. -/
def pack_ascii_bits (data : List Nat) (width : Nat) : Option (List Nat) :=
  pack_ascii_bits_scalar data (packed_len width)

/-- Masking step of normalize_packed_bits: when the width is not a byte
multiple, clear the padding bits of the final byte with the u8 mask
(!0u8) << (8 - remainder) (wrapping shift, hence mod 256). -/
def mask_final_byte (width : Nat) (out : List Nat) : List Nat :=
  if width % 8 ≠ 0 then
    let remainder := width % 8
    let mask := (255 <<< (8 - remainder)) % 256
    match out.getLast? with
    | some last => out.dropLast ++ [last &&& mask]
    | none => out
  else out

/-- Normalizes a packed-bit payload (normalize_packed_bits): requires at least
packed_len width bytes, masks the padding bits of the final significant byte
to zero when the width is not a byte multiple, and rejects surplus bytes
unless they are all zero. -/
def normalize_packed_bits (width : Nat) (bits : List Nat) : Except Err (List Nat) :=
  let len := packed_len width
  if bits.length < len then
    .error (.invalid "packed bit payload shorter than required length")
  else
    let out := mask_final_byte width (bits.take len)
    if bits.length > len ∧ (bits.drop len).any (fun b => b ≠ 0) then
      .error (.invalid "packed bit payload longer than required length")
    else .ok out

/-- Expands packed bits back into ASCII '0'/'1' bytes (unpack_packed_bits). -/
def unpack_packed_bits (width : Nat) (bits : List Nat) : Except Err (List Nat) :=
  let len := packed_len width
  if bits.length < len then
    .error (.invalid "packed bit payload shorter than required length")
  else
    .ok ((List.range width).map (fun idx =>
      if (bits.getD (idx / 8) 0 >>> (7 - idx % 8)) &&& 1 = 1 then 49 else 48))

/-- Little-endian byte-list to integer conversion (u64/f64 from_le_bytes). -/
def leBytesToNat : List Nat → Nat
  | [] => 0
  | b :: rest => b + 256 * leBytesToNat rest

/-- FstWriter::convert_value: checks a SignalValue against the handle's
geometry and converts it into the writer's OwnedValue form. -/
def convert_value (value : SignalValue) (geom : GeomEntry) : Except Err OwnedValue :=
  match geom with
  | .Fixed 1 =>
    match value with
    | .Bit bit => (BitValue.from_char bit).map .Bit
    | .Vector v =>
      if v.length = 1 then
        (BitValue.from_char (v.getD 0 0)).map .Bit
      else .error (.unsupported "value type is not compatible with single-bit geometry")
    | .Bytes bytes =>
      if bytes.length = 1 then
        (BitValue.from_char (bytes.getD 0 0)).map .Bit
      else .error (.unsupported "value type is not compatible with single-bit geometry")
    | .PackedBits 1 bits =>
      match bits.head? with
      | some byte =>
        (BitValue.from_char (if byte &&& 128 ≠ 0 then 49 else 48)).map .Bit
      | none => .error (.invalid "packed bit payload is empty")
    | _ => .error (.unsupported "value type is not compatible with single-bit geometry")
  | .Fixed width =>
    if width = 0 then .error (.invalid "zero-width fixed geometry encountered")
    else
      match value with
      | .Vector text =>
        if text.length ≠ width then
          .error (.invalid "vector value length does not match geometry width")
        else
          .ok (.Vector width text (pack_ascii_bits text width))
      | .Bytes bytes =>
        if bytes.length ≠ width then
          .error (.invalid "byte value length does not match geometry width")
        else
          .ok (.Vector width bytes (pack_ascii_bits bytes width))
      | .PackedBits w bits =>
        if w ≠ width then
          .error (.invalid "packed bit vector width does not match geometry width")
        else
          match normalize_packed_bits width bits with
          | .error e => .error e
          | .ok normalized =>
            match unpack_packed_bits width normalized with
            | .error e => .error e
            | .ok unpacked => .ok (.Vector width unpacked (some normalized))
      | _ => .error (.unsupported "value type is not yet supported for fixed-width vectors")
  | .Real =>
    match value with
    | .Real real => .ok (.Real real)
    | .Bytes bytes =>
      if bytes.length ≠ 8 then
        .error (.invalid "real signal expects 8 bytes")
      else .ok (.Real (leBytesToNat bytes))
    | _ => .error (.unsupported "value type is not compatible with real-valued geometry")
  | .Variable =>
    match value with
    | .Bytes bytes => .ok (.VarLen bytes)
    | .Vector text => .ok (.VarLen text)
    | .Bit bit => .ok (.VarLen [bit % 256])
    | _ => .error (.unsupported "value type is not compatible with variable-length geometry")

/-! ### Packed-bit padding lemmas (claim C10) -/

/-- Logical bit i (MSB-first within each byte) of a packed byte list. -/
def packedBitAt (bits : List Nat) (i : Nat) : Bool :=
  (bits.getD (i / 8) 0).testBit (7 - i % 8)

theorem packed_len_pos (w : Nat) : 1 ≤ packed_len w := by
  simp [packed_len]

theorem packed_len_eq {w : Nat} (hw : 1 ≤ w) : packed_len w = (w + 7) / 8 := by
  unfold packed_len
  exact Nat.max_eq_left (by omega)

theorem getLast?_eq_getD {l : List Nat} (h : l ≠ []) :
    l.getLast? = some (l.getD (l.length - 1) 0) := by
  have hpos : 0 < l.length := List.length_pos.mpr h
  rw [List.getLast?_eq_getElem?, List.getElem?_eq_getElem (by omega),
    List.getD_eq_getElem _ _ (by omega)]

theorem byte_eq_of_testBit_agree {x y : Nat} (hx : x < 256) (hy : y < 256)
    (h : ∀ k, k < 8 → x.testBit k = y.testBit k) : x = y := by
  refine Nat.eq_of_testBit_eq fun k => ?_
  by_cases hk : k < 8
  · exact h k hk
  · have hpow : (256 : Nat) ≤ 2 ^ k := by
      calc (256 : Nat) = 2 ^ 8 := by norm_num
        _ ≤ 2 ^ k := Nat.pow_le_pow_right (by norm_num) (by omega)
    rw [Nat.testBit_lt_two_pow (by omega), Nat.testBit_lt_two_pow (by omega)]

theorem mask_testBit {r k : Nat} (_hr : 1 ≤ r) (_hr8 : r ≤ 7) (hk : k < 8) :
    ((255 <<< (8 - r)) % 256).testBit k = decide (8 - r ≤ k) := by
  have h256 : (256 : Nat) = 2 ^ 8 := by norm_num
  rw [h256, Nat.testBit_mod_two_pow, Nat.testBit_shiftLeft]
  have h255 : (255 : Nat) = 2 ^ 8 - 1 := by norm_num
  by_cases hge : 8 - r ≤ k
  · have : Nat.testBit 255 (k - (8 - r)) = true := by
      rw [h255, Nat.testBit_two_pow_sub_one]
      simp only [decide_eq_true_eq]
      omega
    simp [hk, hge, this]
  · simp [hk, hge]

/-- Evaluation of normalize_packed_bits on an exact-length payload: only the
masking step remains. -/
theorem normalize_packed_bits_at_len {w : Nat} {bits : List Nat}
    (hlen : bits.length = packed_len w) :
    normalize_packed_bits w bits = .ok (mask_final_byte w bits) := by
  simp only [normalize_packed_bits]
  rw [if_neg (by omega)]
  rw [show bits.take (packed_len w) = bits by rw [← hlen, List.take_length]]
  rw [if_neg (by rintro ⟨h1, -⟩; omega)]

/-- Identical logical bits below the width produce identical masked payloads:
the masking of the final byte erases every padding bit. -/
theorem mask_final_byte_eq_of_agree {w : Nat} (hw : 1 ≤ w)
    {bits bits' : List Nat}
    (hlen : bits.length = packed_len w) (hlen' : bits'.length = packed_len w)
    (hb : ∀ b ∈ bits, b < 256) (hb' : ∀ b ∈ bits', b < 256)
    (hagree : ∀ i, i < w → packedBitAt bits i = packedBitAt bits' i) :
    mask_final_byte w bits = mask_final_byte w bits' := by
  have hlenpos : 1 ≤ packed_len w := packed_len_pos w
  have hbj : ∀ j, j < packed_len w → bits.getD j 0 < 256 := by
    intro j hj
    rw [List.getD_eq_getElem _ _ (by omega)]
    exact hb _ (List.getElem_mem _)
  have hbj' : ∀ j, j < packed_len w → bits'.getD j 0 < 256 := by
    intro j hj
    rw [List.getD_eq_getElem _ _ (by omega)]
    exact hb' _ (List.getElem_mem _)
  have hfull : ∀ j, 8 * (j + 1) ≤ w → bits.getD j 0 = bits'.getD j 0 := by
    intro j hj
    refine byte_eq_of_testBit_agree (hbj j (by rw [packed_len_eq hw]; omega))
      (hbj' j (by rw [packed_len_eq hw]; omega)) ?_
    intro k hk
    have hlog := hagree (8 * j + (7 - k)) (by omega)
    unfold packedBitAt at hlog
    have hdiv : (8 * j + (7 - k)) / 8 = j := by omega
    have hmod : (8 * j + (7 - k)) % 8 = 7 - k := by omega
    rw [hdiv, hmod] at hlog
    have h7 : 7 - (7 - k) = k := by omega
    rw [h7] at hlog
    exact hlog
  by_cases hr : w % 8 ≠ 0
  · have hside : ∀ l : List Nat, l ≠ [] →
        mask_final_byte w l =
          l.dropLast ++ [l.getD (l.length - 1) 0 &&& (255 <<< (8 - w % 8)) % 256] := by
      intro l hne
      unfold mask_final_byte
      rw [if_pos hr, getLast?_eq_getD hne]
    have hne : bits ≠ [] := by
      intro hnil
      rw [hnil] at hlen
      simp at hlen
      omega
    have hne' : bits' ≠ [] := by
      intro hnil
      rw [hnil] at hlen'
      simp at hlen'
      omega
    rw [hside bits hne, hside bits' hne', hlen, hlen']
    have hlen8 : packed_len w = w / 8 + 1 := by
      rw [packed_len_eq hw]
      omega
    congr 1
    · apply List.ext_getElem
      · simp [hlen, hlen']
      · intro j hj hj'
        have hjlt : j < packed_len w - 1 := by
          have := List.length_dropLast bits
          omega
        rw [List.getElem_dropLast, List.getElem_dropLast]
        have heq := hfull j (by omega)
        rw [List.getD_eq_getElem bits 0 (by omega),
          List.getD_eq_getElem bits' 0 (by omega)] at heq
        exact heq
    · congr 1
      set r := w % 8 with hrdef
      have hrle : r ≤ 7 := by omega
      have hrge : 1 ≤ r := by omega
      refine byte_eq_of_testBit_agree ?_ ?_ ?_
      · have h1 := hbj (packed_len w - 1) (by omega)
        have hand : bits.getD (packed_len w - 1) 0 &&& (255 <<< (8 - r)) % 256 ≤
            bits.getD (packed_len w - 1) 0 := Nat.and_le_left
        omega
      · have h1 := hbj' (packed_len w - 1) (by omega)
        have hand : bits'.getD (packed_len w - 1) 0 &&& (255 <<< (8 - r)) % 256 ≤
            bits'.getD (packed_len w - 1) 0 := Nat.and_le_left
        omega
      · intro k hk
        rw [Nat.testBit_and, Nat.testBit_and, mask_testBit hrge hrle hk]
        by_cases hmk : 8 - r ≤ k
        · have hlog := hagree (8 * (packed_len w - 1) + (7 - k)) (by omega)
          unfold packedBitAt at hlog
          have hdiv : (8 * (packed_len w - 1) + (7 - k)) / 8 = packed_len w - 1 := by
            omega
          have hmod : (8 * (packed_len w - 1) + (7 - k)) % 8 = 7 - k := by omega
          rw [hdiv, hmod] at hlog
          have h7 : 7 - (7 - k) = k := by omega
          rw [h7] at hlog
          rw [hlog]
        · simp [hmk]
  · unfold mask_final_byte
    rw [if_neg hr, if_neg hr]
    push_neg at hr
    apply List.ext_getElem
    · omega
    · intro j hj hj'
      have heq := hfull j (by
        rw [hlen, packed_len_eq hw] at hj
        omega)
      rw [List.getD_eq_getElem bits 0 (by omega),
        List.getD_eq_getElem bits' 0 (by omega)] at heq
      exact heq

theorem mask_final_byte_length (w : Nat) (l : List Nat) :
    (mask_final_byte w l).length = l.length := by
  unfold mask_final_byte
  split
  · cases hL : l.getLast? with
    | none => simp
    | some last =>
      have hne : l ≠ [] := by
        intro hnil
        rw [hnil] at hL
        simp at hL
      have hpos : 0 < l.length := List.length_pos.mpr hne
      simp [List.length_dropLast]
      omega
  · rfl

/-- Evaluation of convert_value for a PackedBits value against Fixed(w) with
w at least 2 (so neither the single-bit nor the zero-width arm applies). -/
theorem convert_value_packedBits_fixed {w : Nat} (hw : 2 ≤ w)
    (w' : Nat) (bits : List Nat) :
    convert_value (.PackedBits w' bits) (.Fixed w) =
      if w' ≠ w then
        .error (.invalid "packed bit vector width does not match geometry width")
      else
        match normalize_packed_bits w bits with
        | .error e => .error e
        | .ok normalized =>
          match unpack_packed_bits w normalized with
          | .error e => .error e
          | .ok unpacked => .ok (.Vector w unpacked (some normalized)) := by
  obtain ⟨m, rfl⟩ : ∃ m, w = m + 2 := ⟨w - 2, by omega⟩
  rfl

/-- C10: for emit_change of a PackedBits value on a Fixed(w>1) handle of
matching width, padding bits beyond w in the final significant byte are
silently masked to zero, so two exact-length inputs that agree on every
logical bit below w convert identically; an input shorter than ceil(w/8)
bytes fails with InvalidData; an input with surplus trailing bytes fails
with InvalidData exactly when some surplus byte is nonzero. -/
theorem convert_value_packed_bits (w : Nat) (hw : 2 ≤ w) :
    (∀ bits bits' : List Nat,
      bits.length = packed_len w → bits'.length = packed_len w →
      (∀ b ∈ bits, b < 256) → (∀ b ∈ bits', b < 256) →
      (∀ i, i < w → packedBitAt bits i = packedBitAt bits' i) →
      convert_value (.PackedBits w bits) (.Fixed w) =
        convert_value (.PackedBits w bits') (.Fixed w)) ∧
    (∀ bits : List Nat, bits.length < packed_len w →
      convert_value (.PackedBits w bits) (.Fixed w) =
        .error (.invalid "packed bit payload shorter than required length")) ∧
    (∀ bits : List Nat, packed_len w < bits.length →
      (convert_value (.PackedBits w bits) (.Fixed w) =
          .error (.invalid "packed bit payload longer than required length")
        ↔ (bits.drop (packed_len w)).any (fun b => b ≠ 0) = true)) := by
  refine ⟨?_, ?_, ?_⟩
  · intro bits bits' hlen hlen' hb hb' hagree
    rw [convert_value_packedBits_fixed hw w bits,
      convert_value_packedBits_fixed hw w bits']
    rw [normalize_packed_bits_at_len hlen, normalize_packed_bits_at_len hlen']
    rw [mask_final_byte_eq_of_agree (by omega) hlen hlen' hb hb' hagree]
  · intro bits hshort
    rw [convert_value_packedBits_fixed hw w bits,
      if_neg (show ¬ (w ≠ w) by simp)]
    have hnorm : normalize_packed_bits w bits =
        .error (.invalid "packed bit payload shorter than required length") := by
      unfold normalize_packed_bits
      rw [if_pos hshort]
    rw [hnorm]
  · intro bits hlong
    rw [convert_value_packedBits_fixed hw w bits,
      if_neg (show ¬ (w ≠ w) by simp)]
    by_cases hany : (bits.drop (packed_len w)).any (fun b => b ≠ 0) = true
    · have hnorm : normalize_packed_bits w bits =
          .error (.invalid "packed bit payload longer than required length") := by
        unfold normalize_packed_bits
        rw [if_neg (by omega), if_pos ⟨by omega, hany⟩]
      rw [hnorm]
      exact iff_of_true rfl hany
    · set N := mask_final_byte w (bits.take (packed_len w)) with hN
      have hlenmask : N.length = packed_len w := by
        rw [hN, mask_final_byte_length, List.length_take]
        omega
      have hnorm : normalize_packed_bits w bits = .ok N := by
        unfold normalize_packed_bits
        rw [if_neg (by omega), if_neg (by rintro ⟨-, h2⟩; exact hany h2)]
      have hunpack : unpack_packed_bits w N =
          .ok ((List.range w).map (fun idx =>
            if (N.getD (idx / 8) 0 >>> (7 - idx % 8)) &&& 1 = 1 then 49 else 48)) := by
        unfold unpack_packed_bits
        rw [if_neg (by omega)]
      rw [hnorm]
      show (match unpack_packed_bits w N with
        | .error e => .error e
        | .ok unpacked => Except.ok (OwnedValue.Vector w unpacked (some N))) =
          Except.error (Err.invalid "packed bit payload longer than required length")
        ↔ (bits.drop (packed_len w)).any (fun b => b ≠ 0) = true
      rw [hunpack]
      exact iff_of_false (fun hcontra => Except.noConfusion hcontra)
        (fun hcontra => hany hcontra)

/-- Witness for C10 at w = 4: bits 0x5F and 0x50 differ only in the low
padding nibble and convert identically; an empty payload is rejected, and a
surplus zero byte is accepted while a surplus nonzero byte is rejected. -/
theorem convert_value_packed_bits_witness :
    (convert_value (.PackedBits 4 [95]) (.Fixed 4) =
      convert_value (.PackedBits 4 [80]) (.Fixed 4)) ∧
    (convert_value (.PackedBits 4 []) (.Fixed 4) =
      .error (.invalid "packed bit payload shorter than required length")) ∧
    (convert_value (.PackedBits 4 [80, 3]) (.Fixed 4) =
        .error (.invalid "packed bit payload longer than required length")
      ↔ (([80, 3] : List Nat).drop (packed_len 4)).any (fun b => b ≠ 0) = true) :=
  ⟨(convert_value_packed_bits 4 (by norm_num)).1 [95] [80] (by decide) (by decide)
      (by decide) (by decide) (by decide),
   (convert_value_packed_bits 4 (by norm_num)).2.1 [] (by decide),
   (convert_value_packed_bits 4 (by norm_num)).2.2 [80, 3] (by decide)⟩

/-! ## Chain cursor (src/reader/change.rs) -/

/-- Special bit table used on decode (FST_RCV_STR = "xzhuwl-?"). -/
def FST_RCV_STR : List Nat := [120, 122, 104, 117, 119, 108, 45, 63]

/-- Per-handle signal kind derived from geometry (SignalKind). -/
inductive SignalKind where
  | Bit : SignalKind
  | Vector : Nat → SignalKind
  | VarLen : SignalKind
  | Real : SignalKind
deriving DecidableEq, Repr

/-- SignalKind::from_geom: zero-width fixed entries are rejected; width 1 is
Bit, larger widths Vector; Real and Variable map directly. -/
def SignalKind.from_geom (entry : GeomEntry) : Except Err SignalKind :=
  match entry with
  | .Fixed width =>
    if width = 0 then .error (.invalid "handle has zero-width fixed geometry")
    else if width = 1 then .ok .Bit
    else .ok (.Vector width)
  | .Real => .ok .Real
  | .Variable => .ok .VarLen

/-- Decoding cursor over one handle's expanded chain bytes (ChainCursor). -/
structure ChainCursor where
  handle : Nat
  kind : SignalKind
  data : List Nat
  offset : Nat
  current_time_index : Nat
deriving Repr

/-- Modelled from the spec: validity as checked by Rust std str::from_utf8
(std is outside this repository).  Standard UTF-8 well-formedness: ASCII,
2-byte sequences C2-DF, 3-byte sequences E0/E1-EC/ED/EE-EF with their
overlong- and surrogate-excluding lead ranges, 4-byte sequences F0/F1-F3/F4
with their range restrictions, continuation bytes 80-BF. -/
def validUtf8 : List Nat → Bool
  | [] => true
  | b :: rest =>
    if b ≤ 127 then validUtf8 rest
    else if 194 ≤ b ∧ b ≤ 223 then
      match rest with
      | c1 :: rest' => decide (128 ≤ c1 ∧ c1 ≤ 191) && validUtf8 rest'
      | [] => false
    else if b = 224 then
      match rest with
      | c1 :: c2 :: rest' =>
        decide (160 ≤ c1 ∧ c1 ≤ 191) && decide (128 ≤ c2 ∧ c2 ≤ 191) && validUtf8 rest'
      | _ => false
    else if (225 ≤ b ∧ b ≤ 236) ∨ (238 ≤ b ∧ b ≤ 239) then
      match rest with
      | c1 :: c2 :: rest' =>
        decide (128 ≤ c1 ∧ c1 ≤ 191) && decide (128 ≤ c2 ∧ c2 ≤ 191) && validUtf8 rest'
      | _ => false
    else if b = 237 then
      match rest with
      | c1 :: c2 :: rest' =>
        decide (128 ≤ c1 ∧ c1 ≤ 159) && decide (128 ≤ c2 ∧ c2 ≤ 191) && validUtf8 rest'
      | _ => false
    else if b = 240 then
      match rest with
      | c1 :: c2 :: c3 :: rest' =>
        decide (144 ≤ c1 ∧ c1 ≤ 191) && decide (128 ≤ c2 ∧ c2 ≤ 191) &&
          decide (128 ≤ c3 ∧ c3 ≤ 191) && validUtf8 rest'
      | _ => false
    else if 241 ≤ b ∧ b ≤ 243 then
      match rest with
      | c1 :: c2 :: c3 :: rest' =>
        decide (128 ≤ c1 ∧ c1 ≤ 191) && decide (128 ≤ c2 ∧ c2 ≤ 191) &&
          decide (128 ≤ c3 ∧ c3 ≤ 191) && validUtf8 rest'
      | _ => false
    else if b = 244 then
      match rest with
      | c1 :: c2 :: c3 :: rest' =>
        decide (128 ≤ c1 ∧ c1 ≤ 143) && decide (128 ≤ c2 ∧ c2 ≤ 191) &&
          decide (128 ≤ c3 ∧ c3 ≤ 191) && validUtf8 rest'
      | _ => false
    else false

/-- Delta extraction from a marker (ChainCursor::compute_delta): single-bit
chains shift by 2 << (marker & 1), all other kinds by 1. -/
def compute_delta (kind : SignalKind) (marker : Nat) : Nat :=
  match kind with
  | .Bit =>
    let flag := marker &&& 1
    let shift := 2 <<< flag
    marker >>> shift
  | .Vector _ | .VarLen | .Real => marker >>> 1

/-- ChainCursor::peek_delta: reads the next marker without consuming it. -/
def ChainCursor.peek_delta (c : ChainCursor) : Except Err (Option Nat) :=
  if c.offset ≥ c.data.length then .ok none
  else
    match decode_varint_with_len (c.data.drop c.offset) with
    | .error e => .error e
    | .ok (marker, _) => .ok (some (compute_delta c.kind marker))

/-- ChainCursor::read_value: decodes one event at the cursor, enforcing the
scheduler's expected time index, and returns the decoded value together with
the advanced cursor. -/
def ChainCursor.read_value (c : ChainCursor) (expected_time_index : Nat) :
    Except Err (Option SignalValue × ChainCursor) :=
  if c.offset ≥ c.data.length then .ok (none, c)
  else
    match decode_varint_with_len (c.data.drop c.offset) with
    | .error e => .error e
    | .ok (marker, consumed) =>
      let offset1 := c.offset + consumed
      let delta := compute_delta c.kind marker
      let new_time := c.current_time_index + delta
      if new_time ≠ expected_time_index then
        .error (.decodeErr "chain scheduling mismatch")
      else
        match c.kind with
        | .Bit =>
          if marker &&& 1 = 0 then
            let bit := (marker >>> 1) &&& 1
            .ok (some (.Bit (48 + bit)),
              { c with offset := offset1, current_time_index := new_time })
          else
            let idx := (marker >>> 1) &&& 7
            match FST_RCV_STR.get? idx with
            | some ch => .ok (some (.Bit ch),
                { c with offset := offset1, current_time_index := new_time })
            | none => .error (.decodeErr "invalid packed bit marker")
        | .VarLen =>
          match decode_varint_with_len (c.data.drop offset1) with
          | .error e => .error e
          | .ok (len, consumed_len) =>
            let offset2 := offset1 + consumed_len
            let endPos := offset2 + len
            if endPos > c.data.length then
              .error (.decodeErr "variable-length payload exceeds chain bounds")
            else
              .ok (some (.Bytes ((c.data.drop offset2).take len)),
                { c with offset := endPos, current_time_index := new_time })
        | .Vector width =>
          if width = 0 then .error (.decodeErr "vector width may not be zero")
          else if marker &&& 1 = 0 then
            let plen := packed_len width
            let endPos := offset1 + plen
            if endPos > c.data.length then
              .error (.decodeErr "packed vector payload exceeds chain bounds")
            else
              .ok (some (.PackedBits width ((c.data.drop offset1).take plen)),
                { c with offset := endPos, current_time_index := new_time })
          else
            let endPos := offset1 + width
            if endPos > c.data.length then
              .error (.decodeErr "vector payload exceeds chain bounds")
            else
              let bytes := (c.data.drop offset1).take width
              if validUtf8 bytes then
                .ok (some (.Vector bytes),
                  { c with offset := endPos, current_time_index := new_time })
              else
                .ok (some (.Bytes bytes),
                  { c with offset := endPos, current_time_index := new_time })
        | .Real =>
          if marker &&& 1 = 0 then
            let endPos := offset1 + 1
            if endPos > c.data.length then
              .error (.decodeErr "packed real payload exceeds chain bounds")
            else
              .ok (some (.PackedBits 8 ((c.data.drop offset1).take 1)),
                { c with offset := endPos, current_time_index := new_time })
          else
            let endPos := offset1 + 8
            if endPos > c.data.length then
              .error (.decodeErr "real payload exceeds chain bounds")
            else
              .ok (some (.Real (leBytesToNat ((c.data.drop offset1).take 8))),
                { c with offset := endPos, current_time_index := new_time })

/-- C9: a Fixed(w>1) chain event in literal ASCII form (marker low bit 1)
whose w payload bytes are not valid UTF-8 is returned as SignalValue::Bytes
borrowing those bytes instead of failing; valid UTF-8 payloads are returned
as SignalValue::Vector. -/
theorem read_value_literal_utf8_fallback (w handle marker : Nat)
    (payload rest : List Nat) (hw : 2 ≤ w) (hm : marker < 2 ^ 64)
    (hodd : marker % 2 = 1) (hlen : payload.length = w) :
    ChainCursor.read_value
      ⟨handle, .Vector w, encode_varint marker ++ (payload ++ rest), 0, 0⟩
      (marker >>> 1) =
      .ok (some (if validUtf8 payload then .Vector payload else .Bytes payload),
        ⟨handle, .Vector w, encode_varint marker ++ (payload ++ rest),
          (encode_varint marker).length + w, marker >>> 1⟩) := by
  have henc : 1 ≤ (encode_varint marker).length := by
    rw [encode_varint_eq]
    split <;> simp
  unfold ChainCursor.read_value
  have hdlen : (encode_varint marker ++ (payload ++ rest)).length =
      (encode_varint marker).length + (payload.length + rest.length) := by
    simp
  rw [if_neg (by simp only [hdlen]; omega)]
  rw [List.drop_zero, decode_varint_with_len_encode marker (payload ++ rest) hm]
  simp only
  have hand1 : marker &&& 1 = 1 := by
    have h1 : (1 : Nat) = 2 ^ 1 - 1 := by norm_num
    rw [h1, Nat.and_pow_two_sub_one_eq_mod]
    omega
  rw [if_neg (by
    show ¬ (0 + compute_delta (.Vector w) marker ≠ marker >>> 1)
    simp [compute_delta])]
  rw [if_neg (show ¬ w = 0 by omega)]
  rw [if_neg (show ¬ marker &&& 1 = 0 by omega)]
  have hdrop : ((encode_varint marker ++ (payload ++ rest)).drop
      (0 + (encode_varint marker).length)) = payload ++ rest := by
    rw [Nat.zero_add, List.drop_left]
  rw [hdrop]
  have htake : (payload ++ rest).take w = payload := by
    rw [← hlen, List.take_left]
  rw [if_neg (by simp only [hdlen, ← hlen]; omega), htake]
  have hnt : 0 + compute_delta (.Vector w) marker = marker >>> 1 := by
    simp [compute_delta]
  by_cases hv : validUtf8 payload
  · rw [if_pos hv, if_pos hv]
    simp [hnt]
  · rw [if_neg hv, if_neg hv]
    simp [hnt]

/-- Witness for C9: a two-byte payload 0xFF 0x30 is not UTF-8 and decodes as
Bytes; the same shape with "01" decodes as Vector. -/
theorem read_value_literal_utf8_fallback_witness :
    ChainCursor.read_value
      ⟨7, .Vector 2, encode_varint 5 ++ ([255, 48] ++ []), 0, 0⟩ (5 >>> 1) =
      .ok (some (if validUtf8 [255, 48] then .Vector [255, 48] else .Bytes [255, 48]),
        ⟨7, .Vector 2, encode_varint 5 ++ ([255, 48] ++ []),
          (encode_varint 5).length + 2, 5 >>> 1⟩) ∧
    ChainCursor.read_value
      ⟨7, .Vector 2, encode_varint 5 ++ ([48, 49] ++ []), 0, 0⟩ (5 >>> 1) =
      .ok (some (if validUtf8 [48, 49] then .Vector [48, 49] else .Bytes [48, 49]),
        ⟨7, .Vector 2, encode_varint 5 ++ ([48, 49] ++ []),
          (encode_varint 5).length + 2, 5 >>> 1⟩) :=
  ⟨read_value_literal_utf8_fallback 2 7 5 [255, 48] [] (by norm_num) (by norm_num)
      (by norm_num) (by decide),
   read_value_literal_utf8_fallback 2 7 5 [48, 49] [] (by norm_num) (by norm_num)
      (by norm_num) (by decide)⟩

/-- High level block identifiers (BlockType, src/types/enums.rs). -/
inductive BlockType where
  | Header : BlockType
  | VcData : BlockType
  | Blackout : BlockType
  | Geometry : BlockType
  | Hierarchy : BlockType
  | VcDataDynAlias : BlockType
  | HierarchyLz4 : BlockType
  | HierarchyLz4Duo : BlockType
  | VcDataDynAlias2 : BlockType
  | ZWrapper : BlockType
  | Skip : BlockType
deriving DecidableEq, Repr

/-- The repr(u8) discriminants of BlockType. -/
def BlockType.toNat : BlockType → Nat
  | .Header => 0
  | .VcData => 1
  | .Blackout => 2
  | .Geometry => 3
  | .Hierarchy => 4
  | .VcDataDynAlias => 5
  | .HierarchyLz4 => 6
  | .HierarchyLz4Duo => 7
  | .VcDataDynAlias2 => 8
  | .ZWrapper => 254
  | .Skip => 255

/-- BlockType::try_from(u8) (num_enum TryFromPrimitive). -/
def BlockType.from_u8 (b : Nat) : Option BlockType :=
  if b = 0 then some .Header
  else if b = 1 then some .VcData
  else if b = 2 then some .Blackout
  else if b = 3 then some .Geometry
  else if b = 4 then some .Hierarchy
  else if b = 5 then some .VcDataDynAlias
  else if b = 6 then some .HierarchyLz4
  else if b = 7 then some .HierarchyLz4Duo
  else if b = 8 then some .VcDataDynAlias2
  else if b = 254 then some .ZWrapper
  else if b = 255 then some .Skip
  else none

/-! ## Writer (src/writer/mod.rs)

The writer's output backend is modelled as the list of bytes written so far;
the wrapped (gzip-envelope) backend buffers the same bytes and applies the
envelope in into_inner. -/

/-- Big-endian u64 byte encoding (to_be_bytes). -/
def be64 (v : Nat) : List Nat :=
  (List.range 8).map (fun i => v % 2 ^ 64 / 256 ^ (7 - i) % 256)

/-- Little-endian byte encoding of an n-byte integer (to_le_bytes). -/
def natToLeBytes (n v : Nat) : List Nat :=
  (List.range n).map (fun i => v / 256 ^ i % 256)

/-- IEEE-754 bit pattern of f64 consts E, written in the header's
endian-test field. -/
def E_BITS : Nat := 0x4005BF0A8B145769

/-- IEEE-754 bit pattern of f64 NAN, the frame default for Real handles. -/
def NAN_BITS : Nat := 0x7ff8000000000000

/-- Compression choice for per-handle chains (ChainCompression). -/
inductive ChainCompression where
  | Raw : ChainCompression
  | Zlib : ChainCompression
  | Lz4 : ChainCompression
  | FastLz : ChainCompression
deriving DecidableEq, Repr

/-- Compression choice for the block time table (TimeCompression). -/
inductive TimeCompression where
  | Raw : TimeCompression
  | Zlib : TimeCompression
deriving DecidableEq, Repr

/-- Options controlling FstWriter behaviour (WriterOptions). -/
structure WriterOptions where
  timescale_exponent : Int
  chain_compression : ChainCompression
  time_compression : TimeCompression
  wrap_zlib : Bool
deriving Repr

/-- FstWriter::chain_pack_type. -/
def chain_pack_type (options : WriterOptions) : PackType :=
  match options.chain_compression with
  | .Raw => .None
  | .Zlib => .Zlib
  | .Lz4 => .Lz4
  | .FastLz => .FastLz

/-- In-memory FST header (block/header.rs Header); strings are byte lists. -/
structure HeaderW where
  section_length : Nat
  start_time : Nat
  end_time : Nat
  memory_used : Nat
  scope_count : Nat
  var_count : Nat
  max_handle : Nat
  vc_section_count : Nat
  timescale_exponent : Int
  version : List Nat
  date : List Nat
  file_type : Nat
  time_zero : Nat
deriving DecidableEq, Repr

/-- Header::default(). -/
def HeaderW.default : HeaderW where
  section_length := 329
  start_time := 0
  end_time := 0
  memory_used := 0
  scope_count := 0
  var_count := 0
  max_handle := 0
  vc_section_count := 0
  timescale_exponent := -9
  version := [102, 115, 116, 45, 102, 111, 114, 109, 97, 116]
  date := []
  file_type := 0
  time_zero := 0

/-- Scope metadata kept by the writer (ScopeEntry; parent index omitted from
serialization and unused by emit_stream). -/
structure ScopeEntryW where
  scope_type : Nat
  name : List Nat
  component : Option (List Nat)
  parent : Option Nat
deriving DecidableEq, Repr

/-- Variable metadata kept by the writer (VarEntry). -/
structure VarEntryW where
  var_type : Nat
  direction : Nat
  name : List Nat
  length : Option Nat
  handle : Nat
  alias_of : Option Nat
  is_alias : Bool
deriving DecidableEq, Repr

/-- Hierarchy token (HierarchyItem). -/
inductive HierItemW where
  | ScopeBegin : Nat → HierItemW
  | ScopeEnd : HierItemW
  | AttributeBegin : Nat → HierItemW
  | AttributeEnd : HierItemW
  | Var : Nat → HierItemW
deriving DecidableEq, Repr

/-- Pending value change buffered by the writer (PendingChange). -/
structure PendingChange where
  timestamp : Nat
  handle : Nat
  value : OwnedValue
deriving DecidableEq, Repr

/-- Frame slot contents (FrameValue). -/
inductive FrameValue where
  | Bit : BitValue → FrameValue
  | Vector : List Nat → FrameValue
  | Real : Nat → FrameValue
deriving DecidableEq, Repr

/-- FrameValue::as_bit_char. -/
def FrameValue.as_bit_char : FrameValue → Nat
  | .Bit bit => bit.to_char
  | .Vector _ => 120
  | .Real _ => 120

/-- FrameValue::as_vector_bytes. -/
def FrameValue.as_vector_bytes : FrameValue → Option (List Nat)
  | .Vector data => some data
  | _ => none

/-- FrameValue::as_real. -/
def FrameValue.as_real : FrameValue → Option Nat
  | .Real v => some v
  | _ => none

/-- Grows the frame-entry list with None slots up to n (Vec::resize). -/
def frameResize (entries : List (Option FrameValue)) (n : Nat) :
    List (Option FrameValue) :=
  if entries.length < n then entries ++ List.replicate (n - entries.length) none
  else entries

/-- FrameState::register_handle: reserve the slot and seed the geometry's
default (Fixed(w>1) all-x vector, Real NaN; single-bit and variable handles
get no initial value). -/
def frame_register_handle (entries : List (Option FrameValue)) (handle : Nat)
    (geom : GeomEntry) : List (Option FrameValue) :=
  let entries := frameResize entries handle
  match geom with
  | .Fixed 1 => entries
  | .Fixed len =>
    match entries.get? (handle - 1) with
    | some none => entries.set (handle - 1) (some (.Vector (List.replicate len 120)))
    | _ => entries
  | .Real =>
    match entries.get? (handle - 1) with
    | some none => entries.set (handle - 1) (some (.Real NAN_BITS))
    | _ => entries
  | .Variable => entries

/-- FrameState::update: replace the slot with the latest value (variable-
length values do not participate). -/
def frame_update (entries : List (Option FrameValue)) (handle : Nat)
    (value : OwnedValue) : List (Option FrameValue) :=
  let entries := frameResize entries handle
  match value with
  | .Bit bit => entries.set (handle - 1) (some (.Bit bit))
  | .Vector _ data _ => entries.set (handle - 1) (some (.Vector data))
  | .Real v => entries.set (handle - 1) (some (.Real v))
  | .VarLen _ => entries

/-- FrameState::clone_from: initialise an alias slot from its canonical. -/
def frame_clone_from (entries : List (Option FrameValue)) (source target : Nat) :
    Except Err (List (Option FrameValue)) :=
  if source = 0 ∨ target = 0 then .error (.invalid "frame handles must be non-zero")
  else
    let entries := frameResize entries target
    .ok (entries.set (target - 1) ((entries.get? (source - 1)).getD none))

/-- FrameState::build_frame_bytes: per-handle snapshot in handle order. -/
def build_frame_bytes (entries : List (Option FrameValue))
    (geometry : List GeomEntry) (max_handle : Nat) : Except Err (List Nat) :=
  if max_handle = 0 then .ok []
  else
    (List.range max_handle).foldlM (fun buf idx =>
      match geometry.get? idx with
      | none => .error (.invalid "missing geometry entry for handle")
      | some geom =>
        let entry := (entries.get? idx).getD none
        match geom with
        | .Fixed 1 =>
          .ok (buf ++ [(entry.map FrameValue.as_bit_char).getD 120])
        | .Fixed len =>
          match entry.bind FrameValue.as_vector_bytes with
          | some data =>
            if data.length = len then .ok (buf ++ data)
            else .ok (buf ++ List.replicate len 120)
          | none => .ok (buf ++ List.replicate len 120)
        | .Real =>
          .ok (buf ++ natToLeBytes 8 ((entry.bind FrameValue.as_real).getD NAN_BITS))
        | .Variable => .ok buf) []

/-- Encoded frame payload with header metadata (FrameEncoding). -/
structure FrameEncoding where
  payload : List Nat
  uncompressed_len : Nat
  compressed_len : Nat
deriving DecidableEq, Repr

/-- encode_frame_section for a gzip-enabled build: attempt zlib compression
and keep it only when strictly smaller. -/
def encode_frame_section (codec : Codec) (frame_raw : List Nat) : FrameEncoding :=
  if frame_raw = [] then ⟨[], 0, 0⟩
  else
    let compressed := codec.zlibCompress frame_raw
    if compressed.length < frame_raw.length then
      ⟨compressed, frame_raw.length, compressed.length⟩
    else ⟨frame_raw, frame_raw.length, frame_raw.length⟩

/-- Encoded time section (TimeEncoding). -/
structure TimeEncoding where
  payload : List Nat
  uncompressed_len : Nat
  compressed_len : Nat
  item_count : Nat
deriving DecidableEq, Repr

/-- encode_time_section for a gzip-enabled build. -/
def encode_time_section (codec : Codec) (time_raw : List Nat) (item_count : Nat)
    (compress : Bool) : TimeEncoding :=
  if time_raw = [] then ⟨[], 0, 0, item_count⟩
  else if compress then
    let compressed := codec.zlibCompress time_raw
    if compressed.length < time_raw.length then
      ⟨compressed, time_raw.length, compressed.length, item_count⟩
    else ⟨time_raw, time_raw.length, time_raw.length, item_count⟩
  else ⟨time_raw, time_raw.length, time_raw.length, item_count⟩

/-- Entry describing the chain index layout for a single handle
(ChainIndexEntry, src/block/vc.rs). -/
inductive ChainIndexEntry where
  | Empty : ChainIndexEntry
  | Data : Nat → ChainIndexEntry
  | Alias : Nat → ChainIndexEntry
deriving DecidableEq, Repr

/-- Loop of encode_chain_index threading the pending empty run, the last
1-based absolute offset, and whether a Data entry was seen. -/
def encode_chain_index_go (entries : List ChainIndexEntry)
    (empty_run last_offset : Nat) (seen_data : Bool) : Except Err (List Nat) :=
  match entries with
  | [] => .ok (if empty_run > 0 then encode_varint (empty_run <<< 1) else [])
  | .Empty :: rest => encode_chain_index_go rest (empty_run + 1) last_offset seen_data
  | .Data offset :: rest =>
    let flushed := if empty_run > 0 then encode_varint (empty_run <<< 1) else []
    let absolute := 1 + offset
    if seen_data ∧ absolute < last_offset then
      .error (.invalid "chain offsets must be non-decreasing")
    else
      let delta := if seen_data then absolute - last_offset else absolute
      match encode_chain_index_go rest 0 absolute true with
      | .error e => .error e
      | .ok tail => .ok (flushed ++ encode_varint ((delta <<< 1) ||| 1) ++ tail)
  | .Alias target :: rest =>
    if target = 0 then .error (.invalid "alias handle must be greater than zero")
    else
      let flushed := if empty_run > 0 then encode_varint (empty_run <<< 1) else []
      match encode_chain_index_go rest 0 last_offset seen_data with
      | .error e => .error e
      | .ok tail => .ok (flushed ++ encode_varint 0 ++ encode_varint target ++ tail)

/-- Serializes the chain index table (encode_chain_index): empty runs are
length-coded with a clear low bit, Data entries carry the delta from the
previous 1-based absolute offset with the low bit set, Alias entries are a
zero varint followed by the 1-based target handle. -/
def encode_chain_index (entries : List ChainIndexEntry) : Except Err (List Nat) :=
  encode_chain_index_go entries 0 0 false

/-- Streaming writer state (FstWriter): outBytes is the byte stream written
to the backend so far. -/
structure WriterState where
  options : WriterOptions
  header_written : Bool
  metadata_written : Bool
  frame_state : List (Option FrameValue)
  scopes : List ScopeEntryW
  vars : List VarEntryW
  hierarchy_items : List HierItemW
  scope_stack : List Nat
  geometry : List GeomEntry
  alias_of : List (Option Nat)
  alias_children : List (List Nat)
  next_handle : Nat
  header : Option HeaderW
  pending_changes : List PendingChange
  vc_blocks_written : Nat
  outBytes : List Nat
deriving Repr

/-- FstWriter::with_backend for validated options. -/
def WriterState.init (options : WriterOptions) : WriterState where
  options := options
  header_written := false
  metadata_written := false
  frame_state := []
  scopes := []
  vars := []
  hierarchy_items := []
  scope_stack := []
  geometry := []
  alias_of := []
  alias_children := []
  next_handle := 1
  header := none
  pending_changes := []
  vc_blocks_written := 0
  outBytes := []

/-- FstWriter::ensure_metadata_mutable. -/
def ensure_metadata_mutable (s : WriterState) : Except Err Unit :=
  if s.metadata_written then
    .error (.unsupported "metadata definitions must occur before writing the header")
  else .ok ()

/-- FstWriter::begin_scope. -/
def begin_scope (s : WriterState) (scope_type : Nat) (name : List Nat)
    (component : Option (List Nat)) : Except Err WriterState :=
  match ensure_metadata_mutable s with
  | .error e => .error e
  | .ok _ =>
    let parent := s.scope_stack.getLast?
    let scope : ScopeEntryW := ⟨scope_type, name, component, parent⟩
    let scopes := s.scopes ++ [scope]
    let index := scopes.length - 1
    .ok { s with
      scopes := scopes
      hierarchy_items := s.hierarchy_items ++ [.ScopeBegin index]
      scope_stack := s.scope_stack ++ [index] }

/-- FstWriter::end_scope. -/
def end_scope (s : WriterState) : Except Err WriterState :=
  match ensure_metadata_mutable s with
  | .error e => .error e
  | .ok _ =>
    if s.scope_stack = [] then .error (.invalid "scope stack underflow")
    else .ok { s with
      scope_stack := s.scope_stack.dropLast
      hierarchy_items := s.hierarchy_items ++ [.ScopeEnd] }

/-- FstWriter::add_variable. -/
def add_variable (s : WriterState) (var_type direction : Nat) (name : List Nat)
    (geometry : GeomEntry) : Except Err (Nat × WriterState) :=
  match ensure_metadata_mutable s with
  | .error e => .error e
  | .ok _ =>
    match s.scope_stack.getLast? with
    | none => .error (.invalid "variables require an active scope")
    | some _ =>
      let handle := s.next_handle
      if handle + 1 ≥ 2 ^ 32 then .error (.invalid "handle counter overflow")
      else
        let length := match geometry with
          | .Fixed bytes => some bytes
          | .Real | .Variable => none
        let var : VarEntryW := ⟨var_type, direction, name, length, handle, none, false⟩
        let vars' := s.vars ++ [var]
        .ok (handle, { s with
          next_handle := handle + 1
          geometry := s.geometry ++ [geometry]
          alias_of := s.alias_of ++ [none]
          alias_children := s.alias_children ++ [[]]
          vars := vars'
          hierarchy_items := s.hierarchy_items ++ [.Var (vars'.length - 1)]
          frame_state := frame_register_handle s.frame_state handle geometry })

/-- Loop of FstWriter::resolve_canonical_handle, bounded by next_handle. -/
def resolve_canonical_go (alias_of : List (Option Nat)) :
    Nat → Nat → Except Err Nat
  | 0, _ => .error (.invalid "alias resolution cycle detected")
  | fuel + 1, handle =>
    match (alias_of.get? (handle - 1)).getD none with
    | some target =>
      if target ≠ handle then resolve_canonical_go alias_of fuel target
      else .error (.invalid "alias handle cannot refer to itself")
    | none => .ok handle

/-- FstWriter::resolve_canonical_handle. -/
def resolve_canonical_handle (s : WriterState) (handle : Nat) : Except Err Nat :=
  if handle = 0 ∨ handle ≥ s.next_handle then
    .error (.invalid "handle is out of range")
  else resolve_canonical_go s.alias_of s.next_handle handle

/-- FstWriter::add_alias. -/
def add_alias (s : WriterState) (var_type direction : Nat) (name : List Nat)
    (target_handle : Nat) : Except Err (Nat × WriterState) :=
  match ensure_metadata_mutable s with
  | .error e => .error e
  | .ok _ =>
    if target_handle = 0 ∨ target_handle ≥ s.next_handle then
      .error (.invalid "alias target handle is out of range")
    else
      match s.scope_stack.getLast? with
      | none => .error (.invalid "aliases require an active scope")
      | some _ =>
        match resolve_canonical_handle s target_handle with
        | .error e => .error e
        | .ok canonical =>
          match s.geometry.get? (canonical - 1) with
          | none => .error (.invalid "no geometry recorded for canonical handle")
          | some geometry =>
            let handle := s.next_handle
            if handle + 1 ≥ 2 ^ 32 then .error (.invalid "handle counter overflow")
            else
              let length := match geometry with
                | .Fixed bytes => some bytes
                | .Real | .Variable => none
              let var : VarEntryW :=
                ⟨var_type, direction, name, length, handle, some canonical, true⟩
              let vars' := s.vars ++ [var]
              let alias_children :=
                (s.alias_children ++ [[]]).modify
                  (fun children => children ++ [handle]) (canonical - 1)
              let frame1 := frame_register_handle s.frame_state handle geometry
              match frame_clone_from frame1 canonical handle with
              | .error e => .error e
              | .ok frame2 =>
                .ok (handle, { s with
                  next_handle := handle + 1
                  geometry := s.geometry ++ [geometry]
                  alias_of := s.alias_of ++ [some canonical]
                  alias_children := alias_children
                  vars := vars'
                  hierarchy_items := s.hierarchy_items ++ [.Var (vars'.length - 1)]
                  frame_state := frame2 })

/-- FstWriter::emit_change: validates the header has been written, the
handle is in range, resolves aliases to the canonical handle, converts the
value against the canonical geometry, buffers the pending change, and
updates the running frame state (propagating to alias children). -/
def emit_change (s : WriterState) (timestamp : Nat) (handle : Nat)
    (value : SignalValue) : Except Err WriterState :=
  if ¬ s.header_written then
    .error (.invalid "value changes cannot be emitted before the header is written")
  else if handle = 0 ∨ handle ≥ s.next_handle then
    .error (.invalid "handle is out of range")
  else
    match resolve_canonical_handle s handle with
    | .error e => .error e
    | .ok canonical =>
      match s.geometry.get? (canonical - 1) with
      | none => .error (.invalid "no geometry recorded for canonical handle")
      | some geom_entry =>
        match convert_value value geom_entry with
        | .error e => .error e
        | .ok owned_value =>
          let frame1 := frame_update s.frame_state canonical owned_value
          let frame2 := ((s.alias_children.get? (canonical - 1)).getD []).foldl
            (fun entries aliasH => frame_update entries aliasH owned_value) frame1
          .ok { s with
            pending_changes := s.pending_changes ++ [⟨timestamp, canonical, owned_value⟩]
            frame_state := frame2 }

/-- Fixed 329-byte header block including the leading tag byte
(FstWriter::write_header_block); i8 timescale is written as its u8 pattern. -/
def header_block_bytes (header : HeaderW) : List Nat :=
  let cstringField := fun (size : Nat) (text : List Nat) =>
    let len := Nat.min text.length (size - 1)
    text.take len ++ List.replicate (size - len) 0
  [BlockType.Header.toNat] ++ be64 header.section_length ++ be64 header.start_time ++
    be64 header.end_time ++ be64 E_BITS ++ be64 header.memory_used ++
    be64 header.scope_count ++ be64 header.var_count ++ be64 header.max_handle ++
    be64 header.vc_section_count ++ [((header.timescale_exponent % 256).toNat)] ++
    cstringField 128 header.version ++ cstringField 119 header.date ++
    [header.file_type] ++ be64 header.time_zero

/-- GeomEntry::to_raw. -/
def GeomEntry.to_raw : GeomEntry → Nat
  | .Fixed len => len
  | .Real => 0
  | .Variable => 0xFFFFFFFF

/-- Geometry block bytes (FstWriter::write_geometry_block with
compress = false followed by EncodedGeometry::write_to): tag 3, section
length raw + 24, uncompressed length, max handle, varint table. -/
def geometry_block_bytes (geometry : List GeomEntry) : List Nat :=
  let raw := geometry.foldl (fun acc entry => acc ++ encode_varint entry.to_raw) []
  [BlockType.Geometry.toNat] ++ be64 (raw.length + 24) ++ be64 raw.length ++ be64 geometry.length ++ raw

/-- Hierarchy token stream (HierarchyBlock::emit_stream): VcdScope = 254,
VcdUpscope = 255, GenAttrBegin = 252, GenAttrEnd = 253; names are
NUL-terminated. -/
def emit_stream (items : List HierItemW) (scopes : List ScopeEntryW)
    (vars : List VarEntryW) : Except Err (List Nat) :=
  items.foldlM (fun out item =>
    match item with
    | .ScopeBegin scope_index =>
      match scopes.get? scope_index with
      | none => .error (.invalid "hierarchy item references out-of-range scope index")
      | some scope =>
        .ok (out ++ [254, scope.scope_type] ++ scope.name ++ [0] ++
          (scope.component.getD []) ++ [0])
    | .ScopeEnd => .ok (out ++ [255])
    | .AttributeBegin _ =>
      .error (.invalid "hierarchy item references out-of-range attribute index")
    | .AttributeEnd => .ok (out ++ [253])
    | .Var var_index =>
      match vars.get? var_index with
      | none => .error (.invalid "hierarchy item references out-of-range variable index")
      | some var =>
        .ok (out ++ [var.var_type, var.direction] ++ var.name ++ [0] ++
          encode_varint (var.length.getD 0) ++
          encode_varint (var.alias_of.getD 0))) []

/-- Hierarchy block bytes for HierarchyCompression::Raw (encode_block then
write_to, preceded by the block-type byte): tag 4 (Hierarchy), section
length raw + 16, uncompressed length, raw token stream. -/
def hierarchy_block_bytes (items : List HierItemW) (scopes : List ScopeEntryW)
    (vars : List VarEntryW) : Except Err (List Nat) :=
  match emit_stream items scopes vars with
  | .error e => .error e
  | .ok raw =>
    .ok ([BlockType.Hierarchy.toNat] ++ be64 (raw.length + 16) ++ be64 raw.length ++ raw)

/-- FstWriter::write_header: fills the derived header fields, then writes the
header block, the uncompressed geometry block, and the raw hierarchy block,
freezing the metadata. -/
def write_header (s : WriterState) (header : HeaderW) : Except Err WriterState :=
  if s.header_written then .error (.unsupported "header already written")
  else if s.scope_stack ≠ [] then
    .error (.invalid "cannot write header while scopes remain open")
  else
    let header := { header with
      scope_count := s.scopes.length
      var_count := s.vars.length
      max_handle := s.next_handle - 1
      timescale_exponent := s.options.timescale_exponent
      section_length := 329 }
    match hierarchy_block_bytes s.hierarchy_items s.scopes s.vars with
    | .error e => .error e
    | .ok hier_bytes =>
      .ok { s with
        outBytes := s.outBytes ++ header_block_bytes header ++
          geometry_block_bytes s.geometry ++ hier_bytes
        header_written := true
        metadata_written := true
        header := some header }

/-- One handle's chain bytes (the per-event encoding loop in
FstWriter::build_vc_block): markers carry the time-index delta, single-bit
values are packed into the marker, vectors choose the packed or ASCII form,
reals append 8 host-endian bytes, and variable-length payloads carry a
length varint. -/
def encode_chain_events (events : List (Nat × OwnedValue)) : Except Err (List Nat) :=
  (events.foldlM (fun (st : List Nat × Option Nat) ev =>
    let (chain_bytes, previous_index) := st
    let (time_idx, value) := ev
    match previous_index with
    | some prev =>
      if time_idx < prev then
        (Except.error (.invalid "time indices must be non-decreasing") :
          Except Err (List Nat × Option Nat))
      else (encode_one_event chain_bytes (time_idx - prev) value).map
        (fun bytes => (bytes, some time_idx))
    | none =>
      (encode_one_event chain_bytes time_idx value).map
        (fun bytes => (bytes, some time_idx))) ([], none)).map Prod.fst
where
  encode_one_event (chain_bytes : List Nat) (delta : Nat) (value : OwnedValue) :
      Except Err (List Nat) :=
    match value with
    | .Bit bit =>
      match bit with
      | .Zero => .ok (chain_bytes ++ encode_varint (delta <<< 2))
      | .One => .ok (chain_bytes ++ encode_varint ((delta <<< 2) ||| 2))
      | .Special index =>
        .ok (chain_bytes ++ encode_varint ((delta <<< 4) ||| (1 ||| (index <<< 1))))
    | .Vector width data packed =>
      match packed with
      | some bits =>
        if bits.length ≠ packed_len width then
          .error (.invalid "packed vector payload length mismatch")
        else .ok (chain_bytes ++ encode_varint (delta <<< 1) ++ bits)
      | none =>
        if data.length ≠ width then
          .error (.invalid "vector payload length mismatch with geometry")
        else .ok (chain_bytes ++ encode_varint ((delta <<< 1) ||| 1) ++ data)
    | .Real v =>
      .ok (chain_bytes ++ encode_varint ((delta <<< 1) ||| 1) ++ natToLeBytes 8 v)
    | .VarLen bytes =>
      .ok (chain_bytes ++ encode_varint (delta <<< 1) ++
        encode_varint bytes.length ++ bytes)

/-- Insertion step of a stable insertion sort: x is placed before the first
element y with le x y, so an element never crosses one it compares equal to. -/
def insertSorted {α : Type} (le : α → α → Bool) (x : α) : List α → List α
  | [] => [x]
  | y :: ys => if le x y then x :: y :: ys else y :: insertSorted le x ys

/-- Stable insertion sort; for a total preorder this computes the unique
stable sort, hence agrees with the stable slice sort_by used by the writer. -/
def stableSort {α : Type} (le : α → α → Bool) : List α → List α
  | [] => []
  | x :: xs => insertSorted le x (stableSort le xs)

/-- FstWriter::build_vc_block: stable-sorts the pending changes by
(timestamp, handle), builds the time-point list, the frame section, the
per-handle chains and the chain buffer, the chain index, and the delta-coded
time table, and concatenates the block payload. -/
def build_vc_block (codec : Codec) (s : WriterState)
    (changes : List PendingChange) : Except Err (List Nat) :=
  if changes = [] then
    .error (.invalid "attempted to build a value-change block with no pending changes")
  else
    let changes := stableSort (fun a b =>
      decide (a.timestamp < b.timestamp ∨
        (a.timestamp = b.timestamp ∧ a.handle ≤ b.handle))) changes
    let max_handle := s.next_handle - 1
    if max_handle = 0 then
      .error (.invalid "no handles defined; unable to encode value-change block")
    else
      let time_points := changes.foldl (fun pts c =>
        if pts.getLast? = some c.timestamp then pts else pts ++ [c.timestamp]) []
      if time_points = [] then
        .error (.invalid "value-change block requires at least one timestamp")
      else
        match build_frame_bytes s.frame_state s.geometry max_handle with
        | .error e => .error e
        | .ok frame_bytes =>
          let frame_encoding := encode_frame_section codec frame_bytes
          let frame_max_handle :=
            if frame_encoding.uncompressed_len > 0 then max_handle else 0
          let per_handle := (List.range max_handle).map (fun handle_idx =>
            changes.filterMap (fun c =>
              if c.handle - 1 = handle_idx then
                some (time_points.indexOf c.timestamp, c.value)
              else none))
          let pack_type := chain_pack_type s.options
          match (List.range max_handle).foldlM
            (fun (st : Nat × List Nat × List (Option Nat)) handle_idx =>
              let (required_memory, chain_buffer, chain_offsets) := st
              let events := per_handle.getD handle_idx []
              if events = [] then
                (Except.ok st : Except Err (Nat × List Nat × List (Option Nat)))
              else
                match encode_chain_events events with
                | .error e => .error e
                | .ok chain_bytes =>
                  match encode_chain_payload codec pack_type chain_bytes with
                  | .error e => .error e
                  | .ok (stored_len, payload_bytes) =>
                    let offset := chain_buffer.length
                    .ok (required_memory + chain_bytes.length,
                      chain_buffer ++ encode_varint stored_len ++ payload_bytes,
                      chain_offsets.set handle_idx (some offset)))
            (frame_encoding.uncompressed_len, [],
              List.replicate max_handle (none : Option Nat)) with
          | .error e => .error e
          | .ok (required_memory, chain_buffer, chain_offsets) =>
            let index_entries := (List.range max_handle).map (fun handle_idx =>
              match (s.alias_of.get? handle_idx).getD none with
              | some target => ChainIndexEntry.Alias target
              | none =>
                match (chain_offsets.get? handle_idx).getD none with
                | some offset => ChainIndexEntry.Data offset
                | none => ChainIndexEntry.Empty)
            match encode_chain_index index_entries with
            | .error e => .error e
            | .ok index_bytes =>
              match time_points.foldlM
                (fun (st : List Nat × Nat × Bool) ts =>
                  let (time_data, prev_time, started) := st
                  if ¬ started then
                    (Except.ok (time_data ++ encode_varint ts, ts, true) :
                      Except Err (List Nat × Nat × Bool))
                  else if ts < prev_time then
                    .error (.invalid "timestamps must be non-decreasing")
                  else
                    .ok (time_data ++ encode_varint (ts - prev_time), ts, true))
                ([], 0, false) with
              | .error e => .error e
              | .ok (time_data, _, _) =>
                let time_encoding := encode_time_section codec time_data
                  time_points.length (s.options.time_compression = .Zlib)
                let begin_time := time_points.headD 0
                let end_time := time_points.getLastD 0
                .ok (be64 begin_time ++ be64 end_time ++ be64 required_memory ++
                  encode_varint frame_encoding.uncompressed_len ++
                  encode_varint frame_encoding.compressed_len ++
                  encode_varint frame_max_handle ++
                  frame_encoding.payload ++
                  encode_varint max_handle ++
                  [pack_type.marker] ++
                  chain_buffer ++
                  index_bytes ++
                  be64 index_bytes.length ++
                  time_encoding.payload ++
                  be64 time_encoding.uncompressed_len ++
                  be64 time_encoding.compressed_len ++
                  be64 time_encoding.item_count)

/-- FstWriter::flush_value_changes: a no-op without pending changes,
otherwise takes the pending buffer, builds one block payload and writes the
BlockType::VcData tag byte, the big-endian section length (payload + its own
8 length bytes), and the payload. -/
def flush_value_changes (codec : Codec) (s : WriterState) : Except Err WriterState :=
  if s.pending_changes = [] then .ok s
  else
    match build_vc_block codec { s with pending_changes := [] } s.pending_changes with
    | .error e => .error e
    | .ok payload =>
      .ok { s with
        pending_changes := []
        outBytes := s.outBytes ++ [BlockType.VcData.toNat] ++
          be64 (payload.length + 8) ++ payload
        vc_blocks_written := s.vc_blocks_written + 1 }

/-- OutputBackend::into_inner for the wrapped backend: gzip the buffered
inner bytes and emit the ZWrapper block (tag 254, section length,
uncompressed length, compressed length, gzip bytes). -/
def wrap_file (codec : Codec) (inner : List Nat) : List Nat :=
  let compressed := codec.gzipCompress inner
  let payload := be64 inner.length ++ be64 compressed.length ++ compressed
  [BlockType.ZWrapper.toNat] ++ be64 (payload.length + 8) ++ payload

/-- FstWriter::finish: flush pending changes then hand the sink back,
applying the gzip envelope when the writer was configured with wrap_zlib. -/
def finish (codec : Codec) (s : WriterState) : Except Err (List Nat) :=
  match flush_value_changes codec s with
  | .error e => .error e
  | .ok s' =>
    if s'.options.wrap_zlib then .ok (wrap_file codec s'.outBytes)
    else .ok s'.outBytes

/-! ### Claim C4: validation performed by emit_change -/

/-- Evaluation of convert_value for a Vector value against Fixed(w), w at
least 2. -/
theorem convert_value_vector_fixed {w : Nat} (hw : 2 ≤ w) (text : List Nat) :
    convert_value (.Vector text) (.Fixed w) =
      if text.length ≠ w then
        .error (.invalid "vector value length does not match geometry width")
      else .ok (.Vector w text (pack_ascii_bits text w)) := by
  obtain ⟨m, rfl⟩ : ∃ m, w = m + 2 := ⟨w - 2, by omega⟩
  rfl

/-- C4 (amended): emit_change validates the handle range and the geometry
conformance of the value, and performs no timestamp validation at all: its
success or failure never depends on the timestamp argument. -/
theorem emit_change_validation :
    (∀ (s : WriterState) (t t' h : Nat) (v : SignalValue),
      (emit_change s t h v).isOk = (emit_change s t' h v).isOk) ∧
    (∀ (s : WriterState) (t h : Nat) (v : SignalValue),
      s.header_written = true → (h = 0 ∨ s.next_handle ≤ h) →
      emit_change s t h v = .error (.invalid "handle is out of range")) ∧
    (∀ (s : WriterState) (t h w : Nat) (text : List Nat),
      s.header_written = true → h ≠ 0 → h < s.next_handle →
      (s.alias_of.get? (h - 1)).getD none = none →
      s.geometry.get? (h - 1) = some (.Fixed w) → 2 ≤ w → text.length ≠ w →
      emit_change s t h (.Vector text) =
        .error (.invalid "vector value length does not match geometry width")) := by
  refine ⟨?_, ?_, ?_⟩
  · intro s t t' h v
    unfold emit_change
    by_cases h1 : s.header_written
    · simp only [h1, not_true_eq_false, if_neg, if_false]
      by_cases h2 : h = 0 ∨ h ≥ s.next_handle
      · simp [h2]
      · simp only [h2, if_false]
        cases hr : resolve_canonical_handle s h with
        | error e => simp [hr]
        | ok c =>
          simp only [hr]
          cases hg : s.geometry.get? (c - 1) with
          | none => simp [hg]
          | some g =>
            simp only [hg]
            cases hc : convert_value v g with
            | error e => simp [hc]
            | ok ov => simp only [hc]; rfl
    · simp [h1]
  · intro s t h v hw hrange
    unfold emit_change
    rw [if_neg (by simp [hw]), if_pos (by omega)]
  · intro s t h w text hw h0 hlt halias hgeom h2w hlen
    unfold emit_change
    rw [if_neg (by simp [hw]), if_neg (by omega)]
    have hres : resolve_canonical_handle s h = .ok h := by
      unfold resolve_canonical_handle
      rw [if_neg (by omega)]
      obtain ⟨m, hm⟩ : ∃ m, s.next_handle = m + 1 := ⟨s.next_handle - 1, by omega⟩
      rw [hm]
      unfold resolve_canonical_go
      rw [halias]
    rw [hres]
    simp only
    rw [hgeom]
    simp only
    rw [convert_value_vector_fixed h2w text, if_pos hlen]

/-- Test-harness writer state: scope with a Fixed(1) variable (handle 1) and
a Fixed(4) vector (handle 2), header written, Raw compression. -/
def c4State : WriterState :=
  (do
    let s1 ← begin_scope (WriterState.init ⟨-9, .Raw, .Raw, false⟩)
      0 [116, 111, 112] none
    let (_, s2) ← add_variable s1 16 0 [97] (.Fixed 1)
    let (_, s3) ← add_variable s2 16 0 [98, 117, 115] (.Fixed 4)
    let s4 ← end_scope s3
    write_header s4 { HeaderW.default with end_time := 10, vc_section_count := 1 }
  ).toOption.getD (WriterState.init ⟨-9, .Raw, .Raw, false⟩)

/-- Test-harness writer state after emitting a change at timestamp 10. -/
def c4State10 : WriterState :=
  (emit_change c4State 10 1 (.Bit 49)).toOption.getD c4State

/-- C4 counterexample: after a change at timestamp 10 has been emitted,
emit_change accepts a change at the earlier timestamp 5 on the same handle
instead of reporting a monotonicity error. -/
theorem emit_change_nonmonotonic_accepted :
    c4State10.pending_changes.map (fun c => c.timestamp) = [10] ∧
    (emit_change c4State10 5 1 (.Bit 48)).isOk = true := by
  constructor <;> rfl

/-- Witness for the amended C4 theorem at concrete inputs. -/
theorem emit_change_validation_witness :
    ((emit_change c4State 3 1 (.Bit 48)).isOk = (emit_change c4State 99 1 (.Bit 48)).isOk) ∧
    (emit_change c4State 3 0 (.Bit 48) = .error (.invalid "handle is out of range")) ∧
    (emit_change c4State 3 2 (.Vector [48, 49]) =
      .error (.invalid "vector value length does not match geometry width")) :=
  ⟨emit_change_validation.1 c4State 3 99 1 (.Bit 48),
   emit_change_validation.2.1 c4State 3 0 (.Bit 48) (by rfl) (Or.inl rfl),
   emit_change_validation.2.2 c4State 3 2 4 [48, 49] (by rfl) (by decide)
     (by decide) (by decide) (by decide) (by decide) (by decide)⟩

/-! ### Claim C3: block tag and payload layout written by flush -/

/-- Writer state after the concrete flush used as the C3 counterexample. -/
def c3Flushed : WriterState :=
  (flush_value_changes idCodec c4State10).toOption.getD c4State10

set_option maxRecDepth 100000 in
/-- C3 counterexample: the first byte of the value-change block written by a
concrete flush is BlockType::VcData (1), not the claimed
BlockType::VcDataDynAlias tag (5). -/
theorem flush_block_tag_counterexample :
    (flush_value_changes idCodec c4State10).isOk = true ∧
    c3Flushed.outBytes.get? c4State10.outBytes.length = some BlockType.VcData.toNat ∧
    BlockType.VcData.toNat = 1 ∧ BlockType.VcDataDynAlias.toNat = 5 := by
  refine ⟨by rfl, by rfl, rfl, rfl⟩

/-- C3 (amended): every flush with at least one pending change appends
exactly one value-change block: the BlockType::VcData tag byte (1, not the
VcDataDynAlias tag 5), the big-endian u64 section length counting the payload
plus the 8 length bytes themselves, and then a payload laid out as the three
big-endian header words, the frame varints and bytes, the vc_max_handle
varint, the pack marker byte, the chain buffer, the chain index, the
big-endian index length, the time-table bytes, and the three big-endian time
trailer words. -/
theorem flush_value_changes_layout (codec : Codec) (s : WriterState)
    (payload : List Nat) (hpend : s.pending_changes ≠ [])
    (hbuild : build_vc_block codec { s with pending_changes := [] }
      s.pending_changes = .ok payload) :
    flush_value_changes codec s = .ok { s with
      pending_changes := []
      outBytes := s.outBytes ++ [BlockType.VcData.toNat] ++
        be64 (payload.length + 8) ++ payload
      vc_blocks_written := s.vc_blocks_written + 1 } ∧
    BlockType.VcData.toNat = 1 ∧
    ∃ (begin_time end_time required_memory : Nat) (frame : FrameEncoding)
      (frame_max_handle vc_max_handle : Nat) (chain_buffer index_bytes : List Nat)
      (te : TimeEncoding),
      payload = be64 begin_time ++ be64 end_time ++ be64 required_memory ++
        encode_varint frame.uncompressed_len ++ encode_varint frame.compressed_len ++
        encode_varint frame_max_handle ++ frame.payload ++
        encode_varint vc_max_handle ++ [(chain_pack_type s.options).marker] ++
        chain_buffer ++ index_bytes ++ be64 index_bytes.length ++
        te.payload ++ be64 te.uncompressed_len ++ be64 te.compressed_len ++
        be64 te.item_count := by
  refine ⟨?_, rfl, ?_⟩
  · unfold flush_value_changes
    rw [if_neg hpend, hbuild]
  · simp only [build_vc_block] at hbuild
    split at hbuild
    · cases hbuild
    · split at hbuild
      · cases hbuild
      · split at hbuild
        · cases hbuild
        · split at hbuild
          · cases hbuild
          · split at hbuild
            · cases hbuild
            · split at hbuild
              · cases hbuild
              · split at hbuild
                · cases hbuild
                · exact ⟨_, _, _, _, _, _, _, _, _, (Except.ok.inj hbuild).symm⟩

/-- Witness for the amended C3 theorem at the concrete flush. -/
theorem flush_value_changes_layout_witness :
    flush_value_changes idCodec c4State10 = .ok { c4State10 with
      pending_changes := []
      outBytes := c4State10.outBytes ++ [BlockType.VcData.toNat] ++
        be64 (((build_vc_block idCodec { c4State10 with pending_changes := [] }
          c4State10.pending_changes).toOption.getD []).length + 8) ++
        ((build_vc_block idCodec { c4State10 with pending_changes := [] }
          c4State10.pending_changes).toOption.getD [])
      vc_blocks_written := c4State10.vc_blocks_written + 1 } :=
  (flush_value_changes_layout idCodec c4State10
    ((build_vc_block idCodec { c4State10 with pending_changes := [] }
      c4State10.pending_changes).toOption.getD [])
    (by decide) (by rfl)).1

/-! ## Chain-index decoding (src/src/reader/vc.rs) -/

/-- Offset/length pair describing where compressed chain data resides for a
handle (ChainSlot): offset is absolute in the stream, alias_of is the 1-based
canonical handle for resolved alias slots. -/
structure ChainSlot where
  offset : Nat
  length : Nat
  alias_of : Option Nat
deriving DecidableEq, Repr

/-- Wrapping u64 subtraction `a - b` (release-mode semantics, operands in the
u64 range). -/
def u64_wrapping_sub (a b : Nat) : Nat := (a + 2 ^ 64 - b) % 2 ^ 64

/-- Truncating `as u32` cast of a u64 value. -/
def u32_of_u64 (a : Nat) : Nat := a % 2 ^ 32

/-- Intermediate per-handle entry decoded from the chain index stream
(EntryTmp in decode_chain_index). -/
inductive EntryTmp where
  | Empty : EntryTmp
  | Data : Nat → EntryTmp
  | Alias : Nat → EntryTmp
deriving DecidableEq, Repr

/-- Entry-parsing loop of decode_chain_index. The source loop runs while the
byte slice is nonempty and every iteration consumes at least one byte, so
fuel equal to the initial slice length always suffices and the fuel-exhausted
error is unreachable from decode_chain_index, which passes fuel =
bytes.length. `is2` is the `block_type == BlockType::VcDataDynAlias2` test
guarding the signed-varint entry form. -/
def parse_chain_entries (is2 : Bool) :
    Nat → List Nat → Nat → Option Nat → Except Err (List EntryTmp)
  | 0, slice, _, _ =>
    if slice = [] then .ok []
    else .error (.decodeErr "chain index loop fuel exhausted")
  | fuel + 1, slice, last_offset, last_alias_target =>
    match slice with
    | [] => .ok []
    | b :: _ =>
      if is2 ∧ b &&& 1 ≠ 0 then
        match decode_svarint slice with
        | .error e => .error e
        | .ok (raw, rest) =>
          let shval : Int := Int.ediv raw 2
          if 0 < shval then
            if last_offset + shval.toNat < 2 ^ 64 then
              match parse_chain_entries is2 fuel rest (last_offset + shval.toNat) none with
              | .error e => .error e
              | .ok tail => .ok (.Data (last_offset + shval.toNat) :: tail)
            else .error (.decodeErr "chain index overflow")
          else if shval < 0 then
            if (-shval).toNat = 0 then .error (.decodeErr "invalid alias target")
            else
              match parse_chain_entries is2 fuel rest last_offset
                (some ((-shval).toNat - 1)) with
              | .error e => .error e
              | .ok tail => .ok (.Alias ((-shval).toNat - 1) :: tail)
          else
            match last_alias_target with
            | some target =>
              match parse_chain_entries is2 fuel rest last_offset (some target) with
              | .error e => .error e
              | .ok tail => .ok (.Alias target :: tail)
            | none =>
              match parse_chain_entries is2 fuel rest last_offset none with
              | .error e => .error e
              | .ok tail => .ok (.Empty :: tail)
      else
        match decode_varint_with_len slice with
        | .error e => .error e
        | .ok (value, consumed) =>
          let rest := slice.drop consumed
          if value = 0 then
            match decode_varint_with_len rest with
            | .error e => .error e
            | .ok (aliasV, alias_consumed) =>
              let rest2 := rest.drop alias_consumed
              if aliasV = 0 then
                match parse_chain_entries is2 fuel rest2 last_offset none with
                | .error e => .error e
                | .ok tail => .ok (.Empty :: tail)
              else
                match parse_chain_entries is2 fuel rest2 last_offset (some (aliasV - 1)) with
                | .error e => .error e
                | .ok tail => .ok (.Alias (aliasV - 1) :: tail)
          else if value &&& 1 = 0 then
            match parse_chain_entries is2 fuel rest last_offset last_alias_target with
            | .error e => .error e
            | .ok tail => .ok (List.replicate (value >>> 1) .Empty ++ tail)
          else
            if last_offset + (value >>> 1) < 2 ^ 64 then
              match parse_chain_entries is2 fuel rest (last_offset + (value >>> 1)) none with
              | .error e => .error e
              | .ok tail => .ok (.Data (last_offset + (value >>> 1)) :: tail)
            else .error (.decodeErr "chain index overflow")

/-- Memoizing alias resolver of decode_chain_index (fn resolve): returns the
offset/length pair of idx, following alias targets recursively while marking
nodes on the recursion path in `visiting`, and caches resolved pairs back
into the offsets/lengths arrays. The recursion path only holds unvisited
nodes, so its depth never exceeds the array length and fuel =
offsets.length + 1 runs the source recursion to completion. -/
def resolve_slot (alias_targets : List (Option Nat)) :
    Nat → Nat → List (Option Nat) → List (Option Nat) → List Bool →
    Option (Nat × Nat) × List (Option Nat) × List (Option Nat) × List Bool
  | 0, _, offsets, lengths, visiting => (none, offsets, lengths, visiting)
  | fuel + 1, idx, offsets, lengths, visiting =>
    match offsets.getD idx none, lengths.getD idx none with
    | some off, some len => (some (off, len), offsets, lengths, visiting)
    | _, _ =>
      if visiting.getD idx false then (none, offsets, lengths, visiting)
      else
        let visiting1 := visiting.set idx true
        match alias_targets.getD idx none with
        | some target =>
          if target < offsets.length then
            let r := resolve_slot alias_targets fuel target offsets lengths visiting1
            match r.1 with
            | some ol =>
              (some ol, r.2.1.set idx (some ol.1), r.2.2.1.set idx (some ol.2),
                r.2.2.2.set idx false)
            | none => (none, r.2.1, r.2.2.1, r.2.2.2.set idx false)
          else (none, offsets, lengths, visiting1.set idx false)
        | none => (none, offsets, lengths, visiting1.set idx false)

/-- Memoized canonical-handle resolver of decode_chain_index
(fn resolve_canonical): the canonical index of idx is idx itself when it has
payload, otherwise the canonical index of its alias target; a node revisited
while on the recursion path (a cycle) resolves to none and the result is
memoized. fuel = alias_targets.length + 1 runs the source recursion to
completion for the same reason as resolve_slot. -/
def resolve_canonical (alias_targets : List (Option Nat)) (has_payload : List Bool) :
    Nat → Nat → List (Option (Option Nat)) → List Bool →
    Option Nat × List (Option (Option Nat)) × List Bool
  | 0, _, memo, visiting => (none, memo, visiting)
  | fuel + 1, idx, memo, visiting =>
    match memo.getD idx none with
    | some cached => (cached, memo, visiting)
    | none =>
      if visiting.getD idx false then (none, memo.set idx (some none), visiting)
      else
        let visiting1 := visiting.set idx true
        let r :=
          if has_payload.getD idx false then (some idx, memo, visiting1)
          else
            match alias_targets.getD idx none with
            | some target =>
              if target < alias_targets.length then
                resolve_canonical alias_targets has_payload fuel target memo visiting1
              else (none, memo, visiting1)
            | none => (none, memo, visiting1)
        (r.1, r.2.1.set idx (some r.1), r.2.2.set idx false)

/-- Pairwise-differencing pass of decode_chain_index: walking the handles in
order, each Data slot's length is set when the next Data offset appears, and
the final fix-up gives the last Data slot the span to the end of the chain
buffer (total_chain_len). -/
def fill_lengths (offsets : List (Option Nat)) (total_chain_len : Nat) :
    List (Option Nat) :=
  let st := (List.range offsets.length).foldl
    (fun (st : List (Option Nat) × Option Nat) idx =>
      match offsets.getD idx none with
      | some off =>
        ((match st.2 with
          | some prev =>
            match offsets.getD prev none with
            | some prev_off =>
              st.1.set prev (some (u32_of_u64 (u64_wrapping_sub off prev_off)))
            | none => st.1
          | none => st.1), some idx)
      | none => st) (List.replicate offsets.length none, none)
  match st.2 with
  | some last_idx =>
    match offsets.getD last_idx none with
    | some last_off =>
      st.1.set last_idx (some (u32_of_u64 (u64_wrapping_sub total_chain_len last_off)))
    | none => st.1
  | none => st.1

/-- Memoizing alias-resolution pass of decode_chain_index: every handle whose
offset is still unresolved runs the resolver, which caches resolved
offset/length pairs back into the arrays. -/
def resolve_pass (alias_targets offsets lengths : List (Option Nat)) :
    List (Option Nat) × List (Option Nat) :=
  let r := (List.range offsets.length).foldl
    (fun (acc : List (Option Nat) × List (Option Nat) × List Bool) idx =>
      if (acc.1.getD idx none).isNone then
        let r := resolve_slot alias_targets (acc.1.length + 1) idx acc.1 acc.2.1 acc.2.2
        (r.2.1, r.2.2.1, r.2.2.2)
      else acc)
    (offsets, lengths, List.replicate offsets.length false)
  (r.1, r.2.1)

/-- Canonical-handle pass of decode_chain_index: resolves every handle's
canonical index with the shared memo table. -/
def canonical_pass (alias_targets : List (Option Nat)) (has_payload : List Bool) :
    List (Option Nat) :=
  ((List.range alias_targets.length).foldl
    (fun (acc : List (Option Nat) × List (Option (Option Nat)) × List Bool) idx =>
      let r := resolve_canonical alias_targets has_payload
        (alias_targets.length + 1) idx acc.2.1 acc.2.2
      (acc.1 ++ [r.1], r.2.1, r.2.2))
    ([], List.replicate alias_targets.length none,
      List.replicate alias_targets.length false)).1

/-- Slot-assembly loop of decode_chain_index: offsets become absolute
(chain_start + offset, checked against u64 overflow), and resolved alias
slots record their 1-based canonical handle (checked against u32 range). -/
def assemble_slots (offsetsR lengthsR : List (Option Nat)) (has_payload : List Bool)
    (canonical : List (Option Nat)) (chain_start : Nat) :
    Except Err (List (Option ChainSlot)) :=
  (List.range offsetsR.length).mapM (fun idx =>
    match offsetsR.getD idx none, lengthsR.getD idx none with
    | some off, some len =>
      if chain_start + off < 2 ^ 64 then
        if has_payload.getD idx false then
          (.ok (some ⟨chain_start + off, len, none⟩) : Except Err (Option ChainSlot))
        else
          match canonical.getD idx none with
          | some canon_idx =>
            if canon_idx + 1 < 2 ^ 32 then
              .ok (some ⟨chain_start + off, len, some (canon_idx + 1)⟩)
            else .error (.invalid "alias target exceeds u32 range")
          | none => .ok (some ⟨chain_start + off, len, none⟩)
      else .error (.invalid "chain offset overflow")
    | _, _ => (.ok none : Except Err (Option ChainSlot)))

/-- decode_chain_index (src/src/reader/vc.rs) on the index bytes: parses the
byte stream into per-handle entries, removes the +1 base prefix from Data
offsets, derives Data lengths by pairwise differencing in handle order with
the last Data slot spanning to the end of the chain buffer, resolves aliases
transitively with cycle detection, assembles absolute per-handle slots, and
pads the slot table with none up to max_handle_hint + 1 entries. -/
def decode_chain_index (block_type : BlockType) (bytes : List Nat)
    (max_handle_hint : Nat) (chain_start chain_end : Nat) :
    Except Err (List (Option ChainSlot)) :=
  match parse_chain_entries (block_type = BlockType.VcDataDynAlias2)
    bytes.length bytes 0 none with
  | .error e => .error e
  | .ok entries =>
    if chain_start > chain_end then .error (.invalid "negative chain range")
    else
      let total_chain_len := chain_end - chain_start
      let alias_targets := entries.map (fun e => match e with
        | .Alias t => some t
        | _ => none)
      let has_payload := entries.map (fun e => match e with
        | .Data _ => true
        | _ => false)
      match (entries.map (fun e => match e with
          | .Data off => some off
          | _ => none)).mapM (fun o => match o with
        | some off =>
          if off < 1 then
            (.error (.decodeErr "chain offset precedes pack marker") :
              Except Err (Option Nat))
          else .ok (some (off - 1))
        | none => (.ok none : Except Err (Option Nat))) with
      | .error e => .error e
      | .ok offsets =>
        let lengths := fill_lengths offsets total_chain_len
        let resolved := resolve_pass alias_targets offsets lengths
        let canonical := canonical_pass alias_targets has_payload
        match assemble_slots resolved.1 resolved.2 has_payload canonical chain_start with
        | .error e => .error e
        | .ok slots =>
          .ok (if slots.length < max_handle_hint + 1 then
            slots ++ List.replicate (max_handle_hint + 1 - slots.length) none
          else slots)

/-! ### Chain-index round trip (claim C6): parse-loop inversion -/

/-- The intermediate entry list the decoder's parse loop recovers from an
encoded index: Data entries still carry the +1 base prefix, Alias targets are
already converted to 0-based indices. -/
def entriesTmpOf : List ChainIndexEntry → List EntryTmp
  | [] => []
  | .Empty :: rest => .Empty :: entriesTmpOf rest
  | .Data o :: rest => .Data (1 + o) :: entriesTmpOf rest
  | .Alias t :: rest => .Alias (t - 1) :: entriesTmpOf rest

theorem encode_varint_ne_nil (v : Nat) : encode_varint v ≠ [] := by
  rw [encode_varint_eq]
  split <;> simp

theorem shiftLeft_one_and_one (k : Nat) : (k <<< 1) &&& 1 = 0 := by
  rw [Nat.shiftLeft_eq, Nat.and_one_is_mod]
  omega

theorem shiftLeft_one_or_one (d : Nat) : (d <<< 1) ||| 1 = 2 * d + 1 := by
  rw [Nat.lor_comm, lor_shiftLeft_eq_add d 1 (by omega)]
  ring

theorem shiftLeft_one_shiftRight_one (k : Nat) : (k <<< 1) >>> 1 = k := by
  rw [Nat.shiftLeft_eq, Nat.shiftRight_eq_div_pow]
  omega

theorem or_one_shiftRight_one (d : Nat) : ((d <<< 1) ||| 1) >>> 1 = d := by
  rw [shiftLeft_one_or_one, Nat.shiftRight_eq_div_pow]
  omega

theorem or_one_and_one (d : Nat) : ((d <<< 1) ||| 1) &&& 1 = 1 := by
  rw [shiftLeft_one_or_one, Nat.and_one_is_mod]
  omega

/-- Parse step for a flushed empty run: a varint with clear low bit expands
into value >>> 1 Empty entries. -/
theorem parse_step_run (k : Nat) (bs : List Nat) (lo : Nat) (lat : Option Nat)
    (f : Nat) (hk : 0 < k) (hk63 : k < 2 ^ 63) :
    parse_chain_entries false (f + 1) (encode_varint (k <<< 1) ++ bs) lo lat =
      match parse_chain_entries false f bs lo lat with
      | .ok l => .ok (List.replicate k .Empty ++ l)
      | .error e => .error e := by
  obtain ⟨b, rest', hb⟩ : ∃ b rest', encode_varint (k <<< 1) ++ bs = b :: rest' := by
    cases h : encode_varint (k <<< 1) with
    | nil => exact absurd h (encode_varint_ne_nil _)
    | cons x xs => exact ⟨x, xs ++ bs, by simp [h]⟩
  rw [hb]
  simp only [parse_chain_entries, Bool.false_eq_true, false_and, if_false]
  rw [← hb, decode_varint_with_len_encode (k <<< 1) bs
    (by rw [Nat.shiftLeft_eq]; omega)]
  simp only
  rw [if_neg (by rw [Nat.shiftLeft_eq]; omega)]
  rw [if_pos (shiftLeft_one_and_one k), List.drop_left]
  rw [shiftLeft_one_shiftRight_one]
  cases parse_chain_entries false f bs lo lat <;> rfl

/-- Parse step for a Data entry: a varint with set low bit advances the
running offset by its upper bits. -/
theorem parse_step_data (delta : Nat) (bs : List Nat) (lo : Nat) (lat : Option Nat)
    (f : Nat) (hd : delta < 2 ^ 63) (hlo : lo + delta < 2 ^ 64) :
    parse_chain_entries false (f + 1) (encode_varint ((delta <<< 1) ||| 1) ++ bs) lo lat =
      match parse_chain_entries false f bs (lo + delta) none with
      | .ok l => .ok (.Data (lo + delta) :: l)
      | .error e => .error e := by
  obtain ⟨b, rest', hb⟩ : ∃ b rest',
      encode_varint ((delta <<< 1) ||| 1) ++ bs = b :: rest' := by
    cases h : encode_varint ((delta <<< 1) ||| 1) with
    | nil => exact absurd h (encode_varint_ne_nil _)
    | cons x xs => exact ⟨x, xs ++ bs, by simp [h]⟩
  rw [hb]
  simp only [parse_chain_entries, Bool.false_eq_true, false_and, if_false]
  rw [← hb, decode_varint_with_len_encode ((delta <<< 1) ||| 1) bs
    (by rw [shiftLeft_one_or_one]; omega)]
  simp only
  rw [if_neg (by rw [shiftLeft_one_or_one]; omega)]
  rw [if_neg (by rw [or_one_and_one]; omega)]
  rw [or_one_shiftRight_one, if_pos hlo, List.drop_left]
  cases parse_chain_entries false f bs (lo + delta) none <;> rfl

/-- Parse step for an Alias entry: a zero varint followed by the 1-based
target handle. -/
theorem parse_step_alias (t : Nat) (bs : List Nat) (lo : Nat) (lat : Option Nat)
    (f : Nat) (ht : 1 ≤ t) (ht64 : t < 2 ^ 64) :
    parse_chain_entries false (f + 1) (encode_varint 0 ++ (encode_varint t ++ bs)) lo lat =
      match parse_chain_entries false f bs lo (some (t - 1)) with
      | .ok l => .ok (.Alias (t - 1) :: l)
      | .error e => .error e := by
  have h0 : encode_varint 0 = [0] := rfl
  rw [h0]
  simp only [parse_chain_entries, Bool.false_eq_true, false_and, if_false,
    List.cons_append, List.nil_append]
  have hdec : decode_varint_with_len ((0 : Nat) :: (encode_varint t ++ bs)) =
      .ok (0, 1) := by
    have := decode_varint_with_len_encode 0 (encode_varint t ++ bs) (by norm_num)
    simpa [h0] using this
  rw [hdec]
  simp only
  rw [if_pos trivial, List.drop_one, List.tail_cons]
  rw [decode_varint_with_len_encode t bs ht64]
  simp only
  rw [if_neg (by omega), List.drop_left]
  cases parse_chain_entries false f bs lo (some (t - 1)) <;> rfl

theorem encode_varint_length_pos (v : Nat) : 1 ≤ (encode_varint v).length := by
  cases h : encode_varint v with
  | nil => exact absurd h (encode_varint_ne_nil v)
  | cons x xs => simp

/-- The v1 parse loop of decode_chain_index inverts encode_chain_index_go:
the encoded bytes parse back into the buffered empty run followed by the
intermediate entry forms, for any fuel at least the byte count. -/
theorem parse_encode_chain_go :
    ∀ (entries : List ChainIndexEntry) (run lo : Nat) (seen : Bool) (bytes : List Nat)
      (lat : Option Nat),
      encode_chain_index_go entries run lo seen = .ok bytes →
      (seen = false → lo = 0) →
      lo < 2 ^ 63 →
      run + entries.length < 2 ^ 63 →
      (∀ o, ChainIndexEntry.Data o ∈ entries → 1 + o < 2 ^ 63) →
      (∀ t, ChainIndexEntry.Alias t ∈ entries → t < 2 ^ 64) →
      ∀ fuel, bytes.length ≤ fuel →
        parse_chain_entries false fuel bytes lo lat =
          .ok (List.replicate run .Empty ++ entriesTmpOf entries) := by
  intro entries
  induction entries with
  | nil =>
    intro run lo seen bytes lat henc hseen hlo hrun hdata halias fuel hfuel
    have hbytes := (Except.ok.inj henc).symm
    by_cases hr : run > 0
    · rw [if_pos hr] at hbytes
      subst hbytes
      obtain ⟨f, rfl⟩ : ∃ f, fuel = f + 1 :=
        ⟨fuel - 1, by have := encode_varint_length_pos (run <<< 1); omega⟩
      have hstep := parse_step_run run [] lo lat f hr (by omega)
      rw [List.append_nil] at hstep
      rw [hstep]
      have hnil : parse_chain_entries false f [] lo lat = .ok [] := by
        cases f <;> simp [parse_chain_entries]
      rw [hnil]
      simp [entriesTmpOf]
    · rw [if_neg hr] at hbytes
      subst hbytes
      have hnil : parse_chain_entries false fuel [] lo lat = .ok [] := by
        cases fuel <;> simp [parse_chain_entries]
      rw [hnil]
      simp [entriesTmpOf, show run = 0 by omega]
  | cons e rest ih =>
    intro run lo seen bytes lat henc hseen hlo hrun hdata halias fuel hfuel
    match e with
    | .Empty =>
      have henc' : encode_chain_index_go rest (run + 1) lo seen = .ok bytes := henc
      rw [ih (run + 1) lo seen bytes lat henc' hseen hlo
        (by simp only [List.length_cons] at hrun; omega)
        (fun o ho => hdata o (List.mem_cons_of_mem _ ho))
        (fun t ht => halias t (List.mem_cons_of_mem _ ht)) fuel hfuel]
      simp [entriesTmpOf, List.replicate_succ', List.append_assoc]
    | .Data offset =>
      simp only [encode_chain_index_go] at henc
      have habs63 : 1 + offset < 2 ^ 63 := hdata offset (List.mem_cons_self _ _)
      split at henc
      · cases henc
      · rename_i hmono
        split at henc
        · cases henc
        · rename_i tail htail
          have htail' : encode_chain_index_go rest 0 (1 + offset) true = .ok tail := htail
          have hbytes := (Except.ok.inj henc).symm
          have hdelta : (if seen then 1 + offset - lo else 1 + offset) < 2 ^ 63 := by
            split <;> omega
          have hadd : lo + (if seen then 1 + offset - lo else 1 + offset) = 1 + offset := by
            by_cases hs : seen = true
            · have hnd : ¬ (1 + offset < lo) := fun hlt => hmono ⟨hs, hlt⟩
              simp only [hs, if_true]
              omega
            · have hb : seen = false := by
                cases seen
                · rfl
                · exact absurd rfl hs
              rw [hseen hb, hb]
              simp
          have hih : ∀ f, tail.length ≤ f →
              parse_chain_entries false f tail (1 + offset) none =
                .ok (entriesTmpOf rest) := fun f hf => by
            have := ih 0 (1 + offset) true tail none htail'
              (by simp) habs63 (by simp only [List.length_cons] at hrun; omega)
              (fun o ho => hdata o (List.mem_cons_of_mem _ ho))
              (fun t ht => halias t (List.mem_cons_of_mem _ ht)) f hf
            simpa using this
          by_cases hr : run > 0
          · rw [if_pos hr] at hbytes
            subst hbytes
            obtain ⟨f, rfl⟩ : ∃ f, fuel = f + 1 :=
              ⟨fuel - 1, by
                have := encode_varint_length_pos (run <<< 1)
                simp only [List.length_append] at hfuel
                omega⟩
            rw [List.append_assoc]
            rw [parse_step_run run _ lo lat f hr
              (by simp only [List.length_cons] at hrun; omega)]
            obtain ⟨f', rfl⟩ : ∃ f', f = f' + 1 :=
              ⟨f - 1, by
                have h1 := encode_varint_length_pos (run <<< 1)
                have h2 := encode_varint_length_pos
                  (((if seen then 1 + offset - lo else 1 + offset) <<< 1) ||| 1)
                simp only [List.length_append] at hfuel
                omega⟩
            rw [parse_step_data _ tail lo lat f' hdelta (by omega)]
            rw [hadd, hih f' (by
              have h1 := encode_varint_length_pos (run <<< 1)
              have h2 := encode_varint_length_pos
                (((if seen then 1 + offset - lo else 1 + offset) <<< 1) ||| 1)
              simp only [List.length_append] at hfuel
              omega)]
            rfl
          · rw [if_neg hr, List.nil_append] at hbytes
            subst hbytes
            have hrz : run = 0 := by omega
            subst hrz
            obtain ⟨f, rfl⟩ : ∃ f, fuel = f + 1 :=
              ⟨fuel - 1, by
                have := encode_varint_length_pos
                  (((if seen then 1 + offset - lo else 1 + offset) <<< 1) ||| 1)
                simp only [List.length_append] at hfuel
                omega⟩
            rw [parse_step_data _ tail lo lat f hdelta (by omega)]
            rw [hadd, hih f (by
              have := encode_varint_length_pos
                (((if seen then 1 + offset - lo else 1 + offset) <<< 1) ||| 1)
              simp only [List.length_append] at hfuel
              omega)]
            rfl
    | .Alias target =>
      simp only [encode_chain_index_go] at henc
      split at henc
      · cases henc
      · rename_i htz
        split at henc
        · cases henc
        · rename_i tail htail
          have htail' : encode_chain_index_go rest 0 lo seen = .ok tail := htail
          have hbytes := (Except.ok.inj henc).symm
          have ht1 : 1 ≤ target := by omega
          have ht64 : target < 2 ^ 64 := halias target (List.mem_cons_self _ _)
          have hih : ∀ f, tail.length ≤ f →
              parse_chain_entries false f tail lo (some (target - 1)) =
                .ok (entriesTmpOf rest) := fun f hf => by
            have := ih 0 lo seen tail (some (target - 1)) htail'
              hseen hlo (by simp only [List.length_cons] at hrun; omega)
              (fun o ho => hdata o (List.mem_cons_of_mem _ ho))
              (fun t ht => halias t (List.mem_cons_of_mem _ ht)) f hf
            simpa using this
          by_cases hr : run > 0
          · rw [if_pos hr] at hbytes
            subst hbytes
            obtain ⟨f, rfl⟩ : ∃ f, fuel = f + 1 :=
              ⟨fuel - 1, by
                have := encode_varint_length_pos (run <<< 1)
                simp only [List.length_append] at hfuel
                omega⟩
            rw [List.append_assoc, List.append_assoc]
            rw [parse_step_run run _ lo lat f hr
              (by simp only [List.length_cons] at hrun; omega)]
            obtain ⟨f', rfl⟩ : ∃ f', f = f' + 1 :=
              ⟨f - 1, by
                have h1 := encode_varint_length_pos (run <<< 1)
                have h2 := encode_varint_length_pos 0
                simp only [List.length_append] at hfuel
                omega⟩
            rw [parse_step_alias target tail lo lat f' ht1 ht64]
            rw [hih f' (by
              have h1 := encode_varint_length_pos (run <<< 1)
              have h2 := encode_varint_length_pos 0
              have h3 := encode_varint_length_pos target
              simp only [List.length_append] at hfuel
              omega)]
            rfl
          · rw [if_neg hr, List.nil_append] at hbytes
            subst hbytes
            have hrz : run = 0 := by omega
            subst hrz
            obtain ⟨f, rfl⟩ : ∃ f, fuel = f + 1 :=
              ⟨fuel - 1, by
                have := encode_varint_length_pos 0
                simp only [List.length_append] at hfuel
                omega⟩
            rw [List.append_assoc]
            rw [parse_step_alias target tail lo lat f ht1 ht64]
            rw [hih f (by
              have h2 := encode_varint_length_pos 0
              have h3 := encode_varint_length_pos target
              simp only [List.length_append] at hfuel
              omega)]
            rfl

/-! ### Chain-index round trip: the decoder's per-handle arrays -/

/-- Per-handle Data offsets of an entry list (the decoder's offsets array
after removal of the +1 base prefix). -/
def offsArr (entries : List ChainIndexEntry) : List (Option Nat) :=
  entries.map (fun e => match e with
    | .Data o => some o
    | _ => none)

/-- Per-handle 0-based alias targets of an entry list (the decoder's
alias_targets array). -/
def aliasArr (entries : List ChainIndexEntry) : List (Option Nat) :=
  entries.map (fun e => match e with
    | .Alias t => some (t - 1)
    | _ => none)

/-- Per-handle payload flags of an entry list (the decoder's has_payload
array). -/
def payloadArr (entries : List ChainIndexEntry) : List Bool :=
  entries.map (fun e => match e with
    | .Data _ => true
    | _ => false)

theorem getD_map_entry {β : Type} (g : ChainIndexEntry → β) (d : β)
    (hg : g .Empty = d) (entries : List ChainIndexEntry) (i : Nat) :
    (entries.map g).getD i d = g (entries.getD i .Empty) := by
  by_cases h : i < entries.length
  · rw [List.getD_eq_getElem _ _ (by simpa using h), List.getD_eq_getElem _ _ h,
      List.getElem_map]
  · rw [List.getD_eq_default _ _ (by simpa using Nat.le_of_not_lt h),
      List.getD_eq_default _ _ (Nat.le_of_not_lt h), hg]

theorem entriesTmpOf_length (entries : List ChainIndexEntry) :
    (entriesTmpOf entries).length = entries.length := by
  induction entries with
  | nil => rfl
  | cons e rest ih =>
    match e with
    | .Empty => simp [entriesTmpOf, ih]
    | .Data o => simp [entriesTmpOf, ih]
    | .Alias t => simp [entriesTmpOf, ih]

theorem tmp_alias_map (entries : List ChainIndexEntry) :
    (entriesTmpOf entries).map (fun e => match e with
      | EntryTmp.Alias t => some t
      | _ => none) = aliasArr entries := by
  induction entries with
  | nil => rfl
  | cons e rest ih =>
    match e with
    | .Empty => simpa [entriesTmpOf, aliasArr] using ih
    | .Data o => simpa [entriesTmpOf, aliasArr] using ih
    | .Alias t => simpa [entriesTmpOf, aliasArr] using ih

theorem tmp_payload_map (entries : List ChainIndexEntry) :
    (entriesTmpOf entries).map (fun e => match e with
      | EntryTmp.Data _ => true
      | _ => false) = payloadArr entries := by
  induction entries with
  | nil => rfl
  | cons e rest ih =>
    match e with
    | .Empty => simpa [entriesTmpOf, payloadArr] using ih
    | .Data o => simpa [entriesTmpOf, payloadArr] using ih
    | .Alias t => simpa [entriesTmpOf, payloadArr] using ih

/-- Every intermediate Data offset carries the +1 base prefix, so the strip
pass of decode_chain_index succeeds and recovers the original offsets. -/
theorem tmp_strip_mapM (entries : List ChainIndexEntry) :
    ((entriesTmpOf entries).map (fun e => match e with
      | EntryTmp.Data off => some off
      | _ => none)).mapM (fun o => match o with
        | some off =>
          if off < 1 then
            (.error (.decodeErr "chain offset precedes pack marker") :
              Except Err (Option Nat))
          else .ok (some (off - 1))
        | none => (.ok none : Except Err (Option Nat))) = .ok (offsArr entries) := by
  induction entries with
  | nil => rfl
  | cons e rest ih =>
    match e with
    | .Empty =>
      simp only [entriesTmpOf, List.map_cons, List.mapM_cons, ih]
      rfl
    | .Data o =>
      simp only [entriesTmpOf, List.map_cons, List.mapM_cons, ih]
      rw [if_neg (show ¬ 1 + o < 1 by omega), show 1 + o - 1 = o by omega]
      rfl
    | .Alias t =>
      simp only [entriesTmpOf, List.map_cons, List.mapM_cons, ih]
      rfl

/-! ### Chain-index round trip: the pairwise-differencing pass -/

/-- First Data offset carried by the array suffix, or the total chain length
when no Data slot follows: the upper end used in pairwise differencing. -/
def firstDataOffset (total : Nat) : List (Option Nat) → Nat
  | [] => total
  | some o :: _ => o
  | none :: rest => firstDataOffset total rest

theorem getD_set_self {α : Type} (l : List α) (i : Nat) (v d : α) (h : i < l.length) :
    (l.set i v).getD i d = v := by
  rw [List.getD_eq_getElem _ _ (by simpa using h)]
  exact List.getElem_set_self _

theorem getD_set_ne {α : Type} (l : List α) (i j : Nat) (v d : α) (h : i ≠ j) :
    (l.set i v).getD j d = l.getD j d := by
  by_cases hj : j < l.length
  · rw [List.getD_eq_getElem _ _ (by simpa using hj), List.getD_eq_getElem _ _ hj]
    exact List.getElem_set_ne h _
  · rw [List.getD_eq_default _ _ (by simpa using Nat.le_of_not_lt hj),
      List.getD_eq_default _ _ (Nat.le_of_not_lt hj)]

theorem getD_replicate {α : Type} (n i : Nat) (d : α) :
    (List.replicate n d).getD i d = d := by
  by_cases h : i < n
  · rw [List.getD_eq_getElem _ _ (by simpa using h)]
    exact List.getElem_replicate d _
  · exact List.getD_eq_default _ _ (by simpa using Nat.le_of_not_lt h)

theorem firstData_of_next (total : Nat) :
    ∀ (k : Nat) (offsets : List (Option Nat)) (j l o : Nat), l - j ≤ k → j < l →
      l < offsets.length → offsets.getD l none = some o →
      (∀ x, j < x → x < l → offsets.getD x none = none) →
      firstDataOffset total (offsets.drop (j + 1)) = o := by
  intro k
  induction k with
  | zero => intro offsets j l o hk hjl; omega
  | succ k ihk =>
    intro offsets j l o hk hjl hl hol hbetween
    by_cases hstep : j + 1 = l
    · have hdrop : offsets.drop (j + 1) = some o :: offsets.drop (l + 1) := by
        rw [List.drop_eq_getElem_cons (by omega : j + 1 < offsets.length),
          ← List.getD_eq_getElem offsets none (by omega : j + 1 < offsets.length),
          hstep, hol]
      rw [hdrop]
      rfl
    · have hmid : offsets.getD (j + 1) none = none := hbetween (j + 1) (by omega) (by omega)
      have hdrop : offsets.drop (j + 1) = none :: offsets.drop (j + 2) := by
        rw [List.drop_eq_getElem_cons (by omega : j + 1 < offsets.length),
          ← List.getD_eq_getElem offsets none (by omega : j + 1 < offsets.length), hmid]
      rw [hdrop]
      show firstDataOffset total (offsets.drop (j + 1 + 1)) = o
      exact ihk offsets (j + 1) l o (by omega) (by omega) hl hol
        (fun x hx1 hx2 => hbetween x (by omega) hx2)

theorem firstData_of_no_next (total : Nat) :
    ∀ (k : Nat) (offsets : List (Option Nat)) (j : Nat), offsets.length - j ≤ k →
      (∀ x, j < x → x < offsets.length → offsets.getD x none = none) →
      firstDataOffset total (offsets.drop (j + 1)) = total := by
  intro k
  induction k with
  | zero =>
    intro offsets j hk hnone
    rw [List.drop_eq_nil_of_le (by omega)]
    rfl
  | succ k ihk =>
    intro offsets j hk hnone
    by_cases hend : offsets.length ≤ j + 1
    · rw [List.drop_eq_nil_of_le hend]
      rfl
    · have hmid : offsets.getD (j + 1) none = none := hnone (j + 1) (by omega) (by omega)
      have hdrop : offsets.drop (j + 1) = none :: offsets.drop (j + 2) := by
        rw [List.drop_eq_getElem_cons (by omega : j + 1 < offsets.length),
          ← List.getD_eq_getElem offsets none (by omega : j + 1 < offsets.length), hmid]
      rw [hdrop]
      show firstDataOffset total (offsets.drop (j + 1 + 1)) = total
      exact ihk offsets (j + 1) (by omega) (fun x hx1 hx2 => hnone x (by omega) hx2)

/-- Invariant of the pairwise-differencing fold after the first k handles:
the running prev index is the last Data slot seen and still has no length,
every earlier Data slot already spans to its successor, everything else is
still unset. -/
theorem fill_lengths_fold_inv (offsets : List (Option Nat)) (total : Nat) :
    ∀ k, k ≤ offsets.length →
      (let st := (List.range k).foldl
        (fun (st : List (Option Nat) × Option Nat) idx =>
          match offsets.getD idx none with
          | some off =>
            ((match st.2 with
              | some prev =>
                match offsets.getD prev none with
                | some prev_off =>
                  st.1.set prev (some (u32_of_u64 (u64_wrapping_sub off prev_off)))
                | none => st.1
              | none => st.1), some idx)
          | none => st) (List.replicate offsets.length none, none)
       st.1.length = offsets.length ∧
       (∀ p, st.2 = some p → p < k ∧ (offsets.getD p none).isSome = true ∧
         st.1.getD p none = none ∧
         ∀ x, p < x → x < k → offsets.getD x none = none) ∧
       (st.2 = none → ∀ x, x < k → offsets.getD x none = none) ∧
       (∀ j o, j < k → offsets.getD j none = some o → st.2 ≠ some j →
         st.1.getD j none = some (u32_of_u64 (u64_wrapping_sub
           (firstDataOffset total (offsets.drop (j + 1))) o))) ∧
       (∀ j, (offsets.getD j none = none ∨ k ≤ j) → st.1.getD j none = none)) := by
  intro k
  induction k with
  | zero =>
    intro _
    refine ⟨by simp, ?_, ?_, ?_, ?_⟩
    · intro p hp; cases hp
    · intro _ x hx; omega
    · intro j o hj; omega
    · intro j _; exact getD_replicate _ _ _
  | succ k ihk =>
    intro hk
    have ih := ihk (by omega)
    simp only at ih ⊢
    rw [List.range_succ, List.foldl_append, List.foldl_cons, List.foldl_nil]
    set st := (List.range k).foldl
      (fun (st : List (Option Nat) × Option Nat) idx =>
        match offsets.getD idx none with
        | some off =>
          ((match st.2 with
            | some prev =>
              match offsets.getD prev none with
              | some prev_off =>
                st.1.set prev (some (u32_of_u64 (u64_wrapping_sub off prev_off)))
              | none => st.1
            | none => st.1), some idx)
        | none => st) (List.replicate offsets.length none, none) with hst
    obtain ⟨ihlen, ihprev, ihnone, ihdata, ihunset⟩ := ih
    cases hok : offsets.getD k none with
    | none =>
      simp only [hok]
      refine ⟨ihlen, ?_, ?_, ?_, ?_⟩
      · intro p hp
        obtain ⟨h1, h2, h3, h4⟩ := ihprev p hp
        exact ⟨by omega, h2, h3, fun x hx1 hx2 => by
          by_cases hxk : x = k
          · rw [hxk]; exact hok
          · exact h4 x hx1 (by omega)⟩
      · intro hp x hx
        by_cases hxk : x = k
        · rw [hxk]; exact hok
        · exact ihnone hp x (by omega)
      · intro j o hj hoj hne
        by_cases hjk : j = k
        · rw [hjk] at hoj; rw [hoj] at hok; cases hok
        · exact ihdata j o (by omega) hoj hne
      · intro j hj
        refine ihunset j ?_
        rcases hj with h | h
        · exact Or.inl h
        · by_cases hjk : j = k
          · rw [hjk]; exact Or.inl hok
          · exact Or.inr (by omega)
    | some off =>
      simp only [hok]
      cases hprev : st.2 with
      | none =>
        simp only [hprev]
        refine ⟨ihlen, ?_, ?_, ?_, ?_⟩
        · intro p hp
          have hpk : k = p := Option.some.inj hp
          refine ⟨by omega, by rw [← hpk, hok]; rfl, ihunset p (Or.inr (by omega)), ?_⟩
          intro x hx1 hx2; omega
        · intro hp; cases hp
        · intro j o hj hoj hne
          by_cases hjk : j = k
          · exact absurd (by rw [hjk]) hne
          · have hj' : j < k := by omega
            exact absurd (ihnone hprev j hj') (by rw [hoj]; simp)
        · intro j hj
          rcases hj with h | h
          · exact ihunset j (Or.inl h)
          · exact ihunset j (Or.inr (by omega))
      | some p =>
        obtain ⟨hpk, hpsome, hpnone, hpafter⟩ := ihprev p hprev
        obtain ⟨prev_off, hprev_off⟩ : ∃ v, offsets.getD p none = some v :=
          Option.isSome_iff_exists.mp hpsome
        simp only [hprev, hprev_off]
        have hplen : p < st.1.length := by omega
        refine ⟨by simpa using ihlen, ?_, ?_, ?_, ?_⟩
        · intro p' hp'
          have hpk' : k = p' := Option.some.inj hp'
          refine ⟨by omega, by rw [← hpk', hok]; rfl, ?_, ?_⟩
          · rw [getD_set_ne _ _ _ _ _ (by omega : p ≠ p')]
            exact ihunset p' (Or.inr (by omega))
          · intro x hx1 hx2; omega
        · intro hp; cases hp
        · intro j o hj hoj hne
          by_cases hjp : j = p
          · subst hjp
            rw [getD_set_self _ _ _ _ hplen]
            have hfd : firstDataOffset total (offsets.drop (j + 1)) = off :=
              firstData_of_next total (offsets.length) offsets j k off (by omega)
                (by omega) (by omega) hok hpafter
            rw [hfd]
            rw [hprev_off] at hoj
            rw [Option.some.inj hoj]
          · rw [getD_set_ne _ _ _ _ _ (fun hpj => hjp hpj.symm)]
            by_cases hjk : j = k
            · exact absurd (by rw [hjk]) hne
            · exact ihdata j o (by omega) hoj (by
                intro hsj
                rw [hprev] at hsj
                exact hjp (Option.some.inj hsj).symm)
        · intro j hj
          have hjp : j ≠ p := by
            intro hjp
            subst hjp
            rcases hj with h | h
            · rw [h] at hprev_off; cases hprev_off
            · omega
          rw [getD_set_ne _ _ _ _ _ (fun hpj => hjp hpj.symm)]
          rcases hj with h | h
          · exact ihunset j (Or.inl h)
          · exact ihunset j (Or.inr (by omega))

/-- The pairwise-differencing pass gives every Data slot the distance to the
next Data offset, the last one the distance to the end of the chain
buffer, and leaves every other slot unset. -/
theorem fill_lengths_spec (offsets : List (Option Nat)) (total : Nat) :
    (fill_lengths offsets total).length = offsets.length ∧
    ∀ j, (fill_lengths offsets total).getD j none =
      match offsets.getD j none with
      | some o =>
        some (u32_of_u64 (u64_wrapping_sub
          (firstDataOffset total (offsets.drop (j + 1))) o))
      | none => none := by
  have hinv := fill_lengths_fold_inv offsets total offsets.length (le_refl _)
  simp only at hinv
  unfold fill_lengths
  simp only
  set st := (List.range offsets.length).foldl
    (fun (st : List (Option Nat) × Option Nat) idx =>
      match offsets.getD idx none with
      | some off =>
        ((match st.2 with
          | some prev =>
            match offsets.getD prev none with
            | some prev_off =>
              st.1.set prev (some (u32_of_u64 (u64_wrapping_sub off prev_off)))
            | none => st.1
          | none => st.1), some idx)
      | none => st) (List.replicate offsets.length none, none) with hst
  obtain ⟨ihlen, ihprev, ihnone, ihdata, ihunset⟩ := hinv
  cases hprev : st.2 with
  | none =>
    simp only [hprev]
    refine ⟨ihlen, fun j => ?_⟩
    cases hoj : offsets.getD j none with
    | none => exact ihunset j (Or.inl hoj)
    | some o =>
      by_cases hj : j < offsets.length
      · exact absurd (ihnone hprev j hj) (by rw [hoj]; simp)
      · rw [List.getD_eq_default _ _ (by omega)] at hoj
        cases hoj
  | some p =>
    obtain ⟨hpk, hpsome, hpnone, hpafter⟩ := ihprev p hprev
    obtain ⟨prev_off, hprev_off⟩ : ∃ v, offsets.getD p none = some v :=
      Option.isSome_iff_exists.mp hpsome
    simp only [hprev, hprev_off]
    have hplen : p < st.1.length := by omega
    refine ⟨by simpa using ihlen, fun j => ?_⟩
    by_cases hjp : j = p
    · subst hjp
      rw [getD_set_self _ _ _ _ hplen, hprev_off]
      have hfd : firstDataOffset total (offsets.drop (j + 1)) = total :=
        firstData_of_no_next total offsets.length offsets j (by omega) hpafter
      rw [hfd]
    · rw [getD_set_ne _ _ _ _ _ (fun hpj => hjp hpj.symm)]
      cases hoj : offsets.getD j none with
      | none => exact ihunset j (Or.inl hoj)
      | some o =>
        by_cases hjk : j < offsets.length
        · exact ihdata j o hjk hoj (by
            intro hsj
            rw [hprev] at hsj
            exact hjp (Option.some.inj hsj).symm)
        · rw [List.getD_eq_default _ _ (by omega)] at hoj
          cases hoj

/-! ### Chain-index round trip: pure canonical resolution over the arrays -/

/-- One canonical-resolution step over the decoder arrays: from a handle
without payload to its in-range alias target. -/
def alias_step (aliasT : List (Option Nat)) (hasP : List Bool) (i : Nat) : Option Nat :=
  if hasP.getD i false then none
  else match aliasT.getD i none with
    | some t => if t < aliasT.length then some t else none
    | none => none

/-- k-fold iteration of alias_step. -/
def alias_iter (aliasT : List (Option Nat)) (hasP : List Bool) : Nat → Nat → Option Nat
  | 0, i => some i
  | k + 1, i =>
    match alias_step aliasT hasP i with
    | some t => alias_iter aliasT hasP k t
    | none => none

/-- Pure transitive canonical resolution: i resolves to the payload-carrying
handle d reachable from it by alias steps. -/
def CanonRel (aliasT : List (Option Nat)) (hasP : List Bool) (i d : Nat) : Prop :=
  ∃ m, alias_iter aliasT hasP m i = some d ∧ hasP.getD d false = true

theorem alias_iter_succ (aliasT : List (Option Nat)) (hasP : List Bool) (k i : Nat) :
    alias_iter aliasT hasP (k + 1) i =
      match alias_step aliasT hasP i with
      | some t => alias_iter aliasT hasP k t
      | none => none := rfl

theorem alias_iter_add (aliasT : List (Option Nat)) (hasP : List Bool) :
    ∀ (a b i : Nat), alias_iter aliasT hasP (a + b) i =
      match alias_iter aliasT hasP a i with
      | some x => alias_iter aliasT hasP b x
      | none => none := by
  intro a
  induction a with
  | zero =>
    intro b i
    rw [Nat.zero_add]
    rfl
  | succ a iha =>
    intro b i
    rw [show a + 1 + b = (a + b) + 1 from by omega, alias_iter_succ,
      alias_iter_succ]
    cases hs : alias_step aliasT hasP i with
    | none => rfl
    | some t =>
      show alias_iter aliasT hasP (a + b) t =
        match alias_iter aliasT hasP a t with
        | some x => alias_iter aliasT hasP b x
        | none => none
      exact iha b t

theorem alias_iter_isSome_of_le (aliasT : List (Option Nat)) (hasP : List Bool)
    {m i d : Nat} (h : alias_iter aliasT hasP m i = some d) :
    ∀ j, j ≤ m → (alias_iter aliasT hasP j i).isSome = true := by
  intro j hj
  have hadd := alias_iter_add aliasT hasP j (m - j) i
  rw [show j + (m - j) = m from by omega, h] at hadd
  cases hx : alias_iter aliasT hasP j i with
  | none => rw [hx] at hadd; cases hadd
  | some x => rfl

theorem alias_step_lt {aliasT : List (Option Nat)} {hasP : List Bool} {i t : Nat}
    (h : alias_step aliasT hasP i = some t) : t < aliasT.length := by
  unfold alias_step at h
  split at h
  · cases h
  · cases ha : aliasT.getD i none with
    | none =>
      simp only [ha] at h
      cases h
    | some u =>
      simp only [ha] at h
      split at h
      · rename_i hlt
        rw [← Option.some.inj h]
        exact hlt
      · cases h

theorem alias_step_src_lt {aliasT : List (Option Nat)} {hasP : List Bool} {i t : Nat}
    (h : alias_step aliasT hasP i = some t) : i < aliasT.length := by
  by_contra hge
  unfold alias_step at h
  rw [List.getD_eq_default aliasT none (show aliasT.length <= i by omega)] at h
  split at h
  · cases h
  · cases h

theorem alias_step_none_of_payload {aliasT : List (Option Nat)} {hasP : List Bool}
    {d : Nat} (hd : hasP.getD d false = true) :
    alias_step aliasT hasP d = none := by
  unfold alias_step
  rw [hd]
  rfl

theorem cycle_iter_defined (aliasT : List (Option Nat)) (hasP : List Bool)
    {k x : Nat} (hk : 1 ≤ k) (hcyc : alias_iter aliasT hasP k x = some x) :
    ∀ q, (alias_iter aliasT hasP q x).isSome = true := by
  intro q
  induction q using Nat.strong_induction_on with
  | _ q ih =>
    by_cases hq : q ≤ k
    · exact alias_iter_isSome_of_le aliasT hasP hcyc q hq
    · have hadd := alias_iter_add aliasT hasP k (q - k) x
      rw [show k + (q - k) = q from by omega, hcyc] at hadd
      rw [hadd]
      exact ih (q - k) (by omega)

/-- No handle on an alias cycle resolves to a payload slot. -/
theorem canonRel_none_of_cycle (aliasT : List (Option Nat)) (hasP : List Bool)
    {k i : Nat} (hk : 1 ≤ k) (hcyc : alias_iter aliasT hasP k i = some i) :
    ∀ d, ¬ CanonRel aliasT hasP i d := by
  rintro d ⟨m, hm, hd⟩
  have hdef := cycle_iter_defined aliasT hasP hk hcyc (m + 1)
  have h1 : alias_iter aliasT hasP (m + 1) i = alias_iter aliasT hasP 1 d := by
    have hadd := alias_iter_add aliasT hasP m 1 i
    rw [hm] at hadd
    exact hadd
  have h2 : alias_iter aliasT hasP 1 d = none := by
    rw [alias_iter_succ, alias_step_none_of_payload hd]
  rw [h1, h2] at hdef
  cases hdef

/-- Canonical resolution is deterministic: the alias chain from i is unique
and stops at its first payload slot. -/
theorem canonRel_unique {aliasT : List (Option Nat)} {hasP : List Bool} {i d d' : Nat}
    (h : CanonRel aliasT hasP i d) (h' : CanonRel aliasT hasP i d') : d = d' := by
  obtain ⟨m, hm, hd⟩ := h
  obtain ⟨m', hm', hd'⟩ := h'
  rcases Nat.le_total m m' with hle | hle
  · have hrest : alias_iter aliasT hasP (m' - m) d = some d' := by
      have hadd := alias_iter_add aliasT hasP m (m' - m) i
      rw [show m + (m' - m) = m' from by omega, hm', hm] at hadd
      exact hadd.symm
    cases hq : m' - m with
    | zero =>
      rw [hq] at hrest
      exact Option.some.inj hrest
    | succ q =>
      rw [hq] at hrest
      rw [alias_iter_succ, alias_step_none_of_payload hd] at hrest
      cases hrest
  · have hrest : alias_iter aliasT hasP (m - m') d' = some d := by
      have hadd := alias_iter_add aliasT hasP m' (m - m') i
      rw [show m' + (m - m') = m from by omega, hm, hm'] at hadd
      exact hadd.symm
    cases hq : m - m' with
    | zero =>
      rw [hq] at hrest
      exact (Option.some.inj hrest).symm
    | succ q =>
      rw [hq] at hrest
      rw [alias_iter_succ, alias_step_none_of_payload hd'] at hrest
      cases hrest

/-- Fuelled canonical-resolution function over the decoder arrays. -/
def canon_steps (aliasT : List (Option Nat)) (hasP : List Bool) : Nat → Nat → Option Nat
  | 0, _ => none
  | fuel + 1, i =>
    if hasP.getD i false then some i
    else match alias_step aliasT hasP i with
      | some t => canon_steps aliasT hasP fuel t
      | none => none

theorem canon_steps_mono (aliasT : List (Option Nat)) (hasP : List Bool) :
    ∀ (f f' i d : Nat), f ≤ f' → canon_steps aliasT hasP f i = some d →
      canon_steps aliasT hasP f' i = some d := by
  intro f
  induction f with
  | zero => intro f' i d _ h; cases h
  | succ f ihf =>
    intro f' i d hle h
    obtain ⟨g, rfl⟩ : ∃ g, f' = g + 1 := ⟨f' - 1, by omega⟩
    unfold canon_steps at h ⊢
    split at h
    · rename_i hp
      rw [if_pos hp]
      exact h
    · rename_i hp
      rw [if_neg hp]
      cases hs : alias_step aliasT hasP i with
      | none =>
        rw [hs] at h
        cases h
      | some t =>
        rw [hs] at h
        have h' : canon_steps aliasT hasP f t = some d := h
        show canon_steps aliasT hasP g t = some d
        exact ihf g t d (by omega) h'

theorem canon_steps_to_canonRel (aliasT : List (Option Nat)) (hasP : List Bool) :
    ∀ (f i d : Nat), canon_steps aliasT hasP f i = some d →
      CanonRel aliasT hasP i d := by
  intro f
  induction f with
  | zero => intro i d h; cases h
  | succ f ihf =>
    intro i d h
    unfold canon_steps at h
    split at h
    · rename_i hp
      have hid : i = d := Option.some.inj h
      subst hid
      exact ⟨0, rfl, hp⟩
    · cases hs : alias_step aliasT hasP i with
      | none => rw [hs] at h; cases h
      | some t =>
        rw [hs] at h
        obtain ⟨m, hm, hd⟩ := ihf t d h
        refine ⟨m + 1, ?_, hd⟩
        rw [alias_iter_succ, hs]
        exact hm

theorem canon_of_iter (aliasT : List (Option Nat)) (hasP : List Bool) :
    ∀ (m i d : Nat), alias_iter aliasT hasP m i = some d →
      hasP.getD d false = true →
      (∀ j x, j < m → alias_iter aliasT hasP j i = some x → hasP.getD x false = false) →
      canon_steps aliasT hasP (m + 1) i = some d := by
  intro m
  induction m with
  | zero =>
    intro i d h hd _
    have : i = d := Option.some.inj h
    subst this
    unfold canon_steps
    rw [if_pos hd]
  | succ m ihm =>
    intro i d h hd hmin
    have hpi : hasP.getD i false = false := hmin 0 i (by omega) rfl
    unfold canon_steps
    rw [if_neg (by rw [hpi]; simp)]
    rw [alias_iter_succ] at h
    cases hs : alias_step aliasT hasP i with
    | none => rw [hs] at h; cases h
    | some t =>
      rw [hs] at h
      refine ihm t d h hd ?_
      intro j x hj hx
      refine hmin (j + 1) x (by omega) ?_
      rw [alias_iter_succ, hs]
      exact hx

/-- Values along a defined alias-iteration path of positive length stay
below the array length. -/
theorem alias_iter_val_lt (aliasT : List (Option Nat)) (hasP : List Bool) :
    ∀ (j i x : Nat), 1 ≤ j → alias_iter aliasT hasP j i = some x →
      x < aliasT.length := by
  intro j
  induction j with
  | zero => intro i x h; omega
  | succ j ihj =>
    intro i x _ h
    rw [alias_iter_succ] at h
    cases hs : alias_step aliasT hasP i with
    | none => rw [hs] at h; cases h
    | some t =>
      rw [hs] at h
      have h' : alias_iter aliasT hasP j t = some x := h
      rcases Nat.eq_zero_or_pos j with hz | hpos
      · subst hz
        rw [show alias_iter aliasT hasP 0 t = some t from rfl] at h'
        rw [← Option.some.inj h']
        exact alias_step_lt hs
      · exact ihj t x hpos h'

/-- The pure canonical resolution is computed by canon_steps with fuel
length + 1: the minimal path to a payload slot is simple, hence no longer
than the number of handles. -/
theorem canonRel_to_canon_steps (aliasT : List (Option Nat)) (hasP : List Bool)
    {i d : Nat} (h : CanonRel aliasT hasP i d) :
    canon_steps aliasT hasP (aliasT.length + 1) i = some d := by
  have hP : ∃ m, (match alias_iter aliasT hasP m i with
      | some x => hasP.getD x false
      | none => false) = true := by
    obtain ⟨m, hm, hd⟩ := h
    exact ⟨m, by rw [hm]; exact hd⟩
  have hm0 := Nat.find_spec hP
  have hmin := fun j (hj : j < Nat.find hP) => Nat.find_min hP hj
  set m0 := Nat.find hP with hm0def
  obtain ⟨x0, hx0, hpx0⟩ : ∃ x0, alias_iter aliasT hasP m0 i = some x0 ∧
      hasP.getD x0 false = true := by
    cases hiter : alias_iter aliasT hasP m0 i with
    | none => rw [hiter] at hm0; cases hm0
    | some x => rw [hiter] at hm0; exact ⟨x, rfl, hm0⟩
  have hx0d : x0 = d := canonRel_unique ⟨m0, hx0, hpx0⟩ h
  subst hx0d
  have hminpay : ∀ j x, j < m0 → alias_iter aliasT hasP j i = some x →
      hasP.getD x false = false := by
    intro j x hj hx
    have := hmin j hj
    rw [hx] at this
    simpa using this
  have hm0le : m0 ≤ aliasT.length := by
    by_contra hgt
    have hm0pos : 1 ≤ m0 := by omega
    have hin : i < aliasT.length := by
      have h1 := alias_iter_isSome_of_le aliasT hasP hx0 1 (by omega)
      rw [alias_iter_succ] at h1
      cases hs : alias_step aliasT hasP i with
      | none => rw [hs] at h1; cases h1
      | some t => exact alias_step_src_lt hs
    have hvals : ∀ j, j ≤ m0 → (alias_iter aliasT hasP j i).getD 0 < aliasT.length := by
      intro j hj
      obtain ⟨x, hx⟩ := Option.isSome_iff_exists.mp (alias_iter_isSome_of_le aliasT hasP hx0 j hj)
      rw [hx]
      rcases Nat.eq_zero_or_pos j with hz | hpos
      · subst hz
        rw [show x = i from (Option.some.inj hx).symm]
        exact hin
      · exact alias_iter_val_lt aliasT hasP j i x hpos hx
    obtain ⟨a, b, hab, hgab⟩ := Fintype.exists_ne_map_eq_of_card_lt
      (fun j : Fin (m0 + 1) =>
        (⟨(alias_iter aliasT hasP j.val i).getD 0, hvals j.val (by omega)⟩ :
          Fin aliasT.length))
      (by simp; omega)
    have hne : a.val ≠ b.val := fun hv => hab (Fin.ext hv)
    have hgv : (alias_iter aliasT hasP a.val i).getD 0 =
        (alias_iter aliasT hasP b.val i).getD 0 := congrArg Fin.val hgab
    rcases Nat.lt_or_ge a.val b.val with hlt | hge
    · obtain ⟨x, hxa⟩ := Option.isSome_iff_exists.mp
        (alias_iter_isSome_of_le aliasT hasP hx0 a.val (by omega))
      obtain ⟨y, hxb⟩ := Option.isSome_iff_exists.mp
        (alias_iter_isSome_of_le aliasT hasP hx0 b.val (by omega))
      have hxy : x = y := by rw [hxa, hxb] at hgv; simpa using hgv
      subst hxy
      have hcyc : alias_iter aliasT hasP (b.val - a.val) x = some x := by
        have hadd := alias_iter_add aliasT hasP a.val (b.val - a.val) i
        rw [show a.val + (b.val - a.val) = b.val from by omega, hxa, hxb] at hadd
        exact hadd.symm
      have hdef := cycle_iter_defined aliasT hasP (by omega) hcyc
        (m0 + 1 - a.val)
      have hadd2 := alias_iter_add aliasT hasP a.val (m0 + 1 - a.val) i
      rw [show a.val + (m0 + 1 - a.val) = m0 + 1 from by omega, hxa] at hadd2
      have hnone : alias_iter aliasT hasP (m0 + 1) i = none := by
        have h1 : alias_iter aliasT hasP (m0 + 1) i = alias_iter aliasT hasP 1 x0 := by
          have hadd3 := alias_iter_add aliasT hasP m0 1 i
          rw [hx0] at hadd3
          exact hadd3
        rw [h1, alias_iter_succ, alias_step_none_of_payload hpx0]
      rw [hnone] at hadd2
      have hadd2' : alias_iter aliasT hasP (m0 + 1 - a.val) x = none := hadd2.symm
      rw [hadd2'] at hdef
      cases hdef
    · have hlt : b.val < a.val := by omega
      obtain ⟨x, hxa⟩ := Option.isSome_iff_exists.mp
        (alias_iter_isSome_of_le aliasT hasP hx0 b.val (by omega))
      obtain ⟨y, hxb⟩ := Option.isSome_iff_exists.mp
        (alias_iter_isSome_of_le aliasT hasP hx0 a.val (by omega))
      have hxy : x = y := by
        rw [hxa, hxb] at hgv
        simp only [Option.getD_some] at hgv
        exact hgv.symm
      subst hxy
      have hcyc : alias_iter aliasT hasP (a.val - b.val) x = some x := by
        have hadd := alias_iter_add aliasT hasP b.val (a.val - b.val) i
        rw [show b.val + (a.val - b.val) = a.val from by omega, hxa, hxb] at hadd
        exact hadd.symm
      have hdef := cycle_iter_defined aliasT hasP (by omega) hcyc
        (m0 + 1 - b.val)
      have hadd2 := alias_iter_add aliasT hasP b.val (m0 + 1 - b.val) i
      rw [show b.val + (m0 + 1 - b.val) = m0 + 1 from by omega, hxa] at hadd2
      have hnone : alias_iter aliasT hasP (m0 + 1) i = none := by
        have h1 : alias_iter aliasT hasP (m0 + 1) i = alias_iter aliasT hasP 1 x0 := by
          have hadd3 := alias_iter_add aliasT hasP m0 1 i
          rw [hx0] at hadd3
          exact hadd3
        rw [h1, alias_iter_succ, alias_step_none_of_payload hpx0]
      rw [hnone] at hadd2
      have hadd2' : alias_iter aliasT hasP (m0 + 1 - b.val) x = none := hadd2.symm
      rw [hadd2'] at hdef
      cases hdef
  exact canon_steps_mono aliasT hasP (m0 + 1) (aliasT.length + 1) i x0
    (by omega) (canon_of_iter aliasT hasP m0 i x0 hx0 hpx0 hminpay)

/-! ### Chain-index round trip: the memoizing offset/length resolver -/

theorem count_set_true : ∀ (V : List Bool) (i : Nat), i < V.length →
    V.getD i false = false → (V.set i true).count true = V.count true + 1 := by
  intro V
  induction V with
  | nil => intro i h; simp at h
  | cons b bs ih =>
    intro i hi hg
    cases i with
    | zero =>
      have hb : b = false := by simpa using hg
      subst hb
      simp [List.count_cons]
    | succ i =>
      have hrec := ih i (by simpa using hi) (by simpa using hg)
      simp only [List.set]
      simp only [List.count_cons, hrec]
      omega

theorem set_getD_eq_self {α : Type} : ∀ (l : List α) (i : Nat) (d : α),
    l.getD i d = d → l.set i d = l := by
  intro l
  induction l with
  | nil => intro i d _; rfl
  | cons a as ih =>
    intro i d hg
    cases i with
    | zero =>
      simp only [List.getD_cons_zero] at hg
      rw [show (a :: as).set 0 d = d :: as from rfl, hg]
    | succ i =>
      simp only [List.getD_cons_succ] at hg
      rw [show (a :: as).set (i + 1) d = a :: as.set i d from rfl, ih i d hg]

/-- Invariant of the resolver's offset/length arrays: present entries are
sound for pure canonical resolution, and the initial Data offsets and
lengths never disappear. -/
def ResolveInv (aliasT : List (Option Nat)) (hasP : List Bool)
    (offs0 lens0 O L : List (Option Nat)) : Prop :=
  O.length = aliasT.length ∧ L.length = aliasT.length ∧
  (∀ i o, O.getD i none = some o → ∃ l, L.getD i none = some l ∧
    ∃ d, CanonRel aliasT hasP i d ∧ offs0.getD d none = some o ∧
      lens0.getD d none = some l) ∧
  (∀ i l, L.getD i none = some l → ∃ o, O.getD i none = some o) ∧
  (∀ i o, offs0.getD i none = some o → O.getD i none = some o) ∧
  (∀ i l, lens0.getD i none = some l → L.getD i none = some l)

/-- Relations between the fixed arrays handed to the resolver: payload flags
mark exactly the handles with an initial Data offset, and initial offsets
and lengths are present together. -/
def ResolveStatic (aliasT : List (Option Nat)) (hasP : List Bool)
    (offs0 lens0 : List (Option Nat)) : Prop :=
  hasP.length = aliasT.length ∧
  (∀ i, hasP.getD i false = true ↔ ∃ o, offs0.getD i none = some o) ∧
  (∀ i, (∃ o, offs0.getD i none = some o) ↔ ∃ l, lens0.getD i none = some l)

theorem canonRel_none_of_step_none {aliasT : List (Option Nat)} {hasP : List Bool}
    {i : Nat} (haP : hasP.getD i false = false)
    (hs : alias_step aliasT hasP i = none) : ∀ d, ¬ CanonRel aliasT hasP i d := by
  rintro d ⟨m, hm, hd⟩
  cases m with
  | zero =>
    have : i = d := Option.some.inj hm
    subst this
    rw [haP] at hd
    cases hd
  | succ q =>
    rw [alias_iter_succ, hs] at hm
    cases hm

theorem canonRel_shift {aliasT : List (Option Nat)} {hasP : List Bool}
    {i t : Nat} (hs : alias_step aliasT hasP i = some t) :
    ∀ d, CanonRel aliasT hasP t d → CanonRel aliasT hasP i d := by
  rintro d ⟨m, hm, hd⟩
  exact ⟨m + 1, by rw [alias_iter_succ, hs]; exact hm, hd⟩

theorem canonRel_unshift {aliasT : List (Option Nat)} {hasP : List Bool}
    {i t : Nat} (haP : hasP.getD i false = false)
    (hs : alias_step aliasT hasP i = some t) :
    ∀ d, CanonRel aliasT hasP i d → CanonRel aliasT hasP t d := by
  rintro d ⟨m, hm, hd⟩
  cases m with
  | zero =>
    have : i = d := Option.some.inj hm
    subst this
    rw [haP] at hd
    cases hd
  | succ q =>
    rw [alias_iter_succ, hs] at hm
    exact ⟨q, hm, hd⟩

/-- Master lemma for the memoizing resolver: with a sound array state and a
visiting set that marks exactly a path of unresolved handles leading to idx,
resolve_slot computes the pure canonical resolution of idx, caches only
sound entries, and restores the visiting set. -/
theorem resolve_slot_spec (aliasT : List (Option Nat)) (hasP : List Bool)
    (offs0 lens0 : List (Option Nat))
    (hstat : ResolveStatic aliasT hasP offs0 lens0) :
    ∀ (fuel idx : Nat) (O L : List (Option Nat)) (V : List Bool),
      ResolveInv aliasT hasP offs0 lens0 O L →
      V.length = aliasT.length →
      idx < aliasT.length →
      aliasT.length + 1 ≤ fuel + V.count true →
      (∀ m, V.getD m false = true →
        hasP.getD m false = false ∧ O.getD m none = none ∧
        ∃ k, 1 ≤ k ∧ alias_iter aliasT hasP k m = some idx) →
      ((resolve_slot aliasT fuel idx O L V).2.2.2 = V ∧
       ResolveInv aliasT hasP offs0 lens0
         (resolve_slot aliasT fuel idx O L V).2.1
         (resolve_slot aliasT fuel idx O L V).2.2.1 ∧
       (∀ i o, O.getD i none = some o →
         (resolve_slot aliasT fuel idx O L V).2.1.getD i none = some o) ∧
       (∀ i l, L.getD i none = some l →
         (resolve_slot aliasT fuel idx O L V).2.2.1.getD i none = some l) ∧
       (∀ m, V.getD m false = true →
         (resolve_slot aliasT fuel idx O L V).2.1.getD m none = O.getD m none) ∧
       (match (resolve_slot aliasT fuel idx O L V).1 with
        | some ol => (∃ d, CanonRel aliasT hasP idx d ∧
            offs0.getD d none = some ol.1 ∧ lens0.getD d none = some ol.2) ∧
            (resolve_slot aliasT fuel idx O L V).2.1.getD idx none = some ol.1 ∧
            (resolve_slot aliasT fuel idx O L V).2.2.1.getD idx none = some ol.2
        | none => (∀ d, ¬ CanonRel aliasT hasP idx d) ∧
            (resolve_slot aliasT fuel idx O L V).2.1.getD idx none = none)) := by
  obtain ⟨hPlen, hP2O, hO2L⟩ := hstat
  intro fuel
  induction fuel with
  | zero =>
    intro idx O L V _ hVlen _ hfuel _
    have hc : V.count true ≤ V.length := List.count_le_length true V
    omega
  | succ fuel ihf =>
    intro idx O L V hInv hVlen hidx hfuel hmarks
    obtain ⟨hOlen, hLlen, hsound, hpair, hdataO, hdataL⟩ := hInv
    cases hO : O.getD idx none with
    | some off =>
      cases hL : L.getD idx none with
      | some len =>
        have hR : resolve_slot aliasT (fuel + 1) idx O L V = (some (off, len), O, L, V) := by
          simp only [resolve_slot, hO, hL]
        rw [hR]
        refine ⟨rfl, ⟨hOlen, hLlen, hsound, hpair, hdataO, hdataL⟩,
          fun i o h => h, fun i l h => h, fun m _ => rfl, ?_⟩
        obtain ⟨l, hl, d, hcanon, ho0, hl0⟩ := hsound idx off hO
        rw [hL] at hl
        have hll : l = len := (Option.some.inj hl).symm
        subst hll
        exact ⟨⟨d, hcanon, ho0, hl0⟩, hO, hL⟩
      | none =>
        obtain ⟨l, hl, _⟩ := hsound idx off hO
        rw [hL] at hl
        cases hl
    | none =>
      cases hL : L.getD idx none with
      | some len =>
        obtain ⟨o, ho⟩ := hpair idx len hL
        rw [hO] at ho
        cases ho
      | none =>
        have hPidx : hasP.getD idx false = false := by
          cases hp : hasP.getD idx false with
          | false => rfl
          | true =>
            obtain ⟨o, ho⟩ := (hP2O idx).mp hp
            rw [hdataO idx o ho] at hO
            cases hO
        cases hV : V.getD idx false with
        | true =>
          have hR : resolve_slot aliasT (fuel + 1) idx O L V = (none, O, L, V) := by
            simp only [resolve_slot, hO, hL, hV, if_true]
          rw [hR]
          obtain ⟨_, hOm, k, hk, hiter⟩ := hmarks idx hV
          refine ⟨rfl, ⟨hOlen, hLlen, hsound, hpair, hdataO, hdataL⟩,
            fun i o h => h, fun i l h => h, fun m _ => rfl, ?_⟩
          exact ⟨canonRel_none_of_cycle aliasT hasP hk hiter, hO⟩
        | false =>
          have hVres : (V.set idx true).set idx false = V := by
            rw [List.set_set]
            exact set_getD_eq_self V idx false hV
          have hV1len : (V.set idx true).length = aliasT.length := by
            rw [List.length_set]; exact hVlen
          have hV1count : (V.set idx true).count true = V.count true + 1 :=
            count_set_true V idx (by omega) hV
          have hV1get : ∀ m, (V.set idx true).getD m false = true →
              m = idx ∨ (m ≠ idx ∧ V.getD m false = true) := by
            intro m hm
            by_cases hmi : m = idx
            · exact Or.inl hmi
            · right
              refine ⟨hmi, ?_⟩
              rw [getD_set_ne _ _ _ _ _ (fun h => hmi h.symm)] at hm
              exact hm
          cases hT : aliasT.getD idx none with
          | none =>
            have hstep : alias_step aliasT hasP idx = none := by
              unfold alias_step
              rw [hPidx, hT]
              rfl
            have hR : resolve_slot aliasT (fuel + 1) idx O L V =
                (none, O, L, (V.set idx true).set idx false) := by
              simp only [resolve_slot, hO, hL, hV, hT, Bool.false_eq_true,
                if_false]
            rw [hR, hVres]
            refine ⟨rfl, ⟨hOlen, hLlen, hsound, hpair, hdataO, hdataL⟩,
              fun i o h => h, fun i l h => h, fun m _ => rfl, ?_⟩
            exact ⟨canonRel_none_of_step_none hPidx hstep, hO⟩
          | some target =>
            cases htr : decide (target < O.length) with
            | false =>
              have htr' : ¬ target < O.length := of_decide_eq_false htr
              have hstep : alias_step aliasT hasP idx = none := by
                unfold alias_step
                rw [hPidx, hT]
                simp only [Bool.false_eq_true, if_false]
                rw [if_neg (by omega)]
              have hR : resolve_slot aliasT (fuel + 1) idx O L V =
                  (none, O, L, (V.set idx true).set idx false) := by
                simp only [resolve_slot, hO, hL, hV, hT, Bool.false_eq_true,
                  if_false]
                rw [if_neg htr']
              rw [hR, hVres]
              refine ⟨rfl, ⟨hOlen, hLlen, hsound, hpair, hdataO, hdataL⟩,
                fun i o h => h, fun i l h => h, fun m _ => rfl, ?_⟩
              exact ⟨canonRel_none_of_step_none hPidx hstep, hO⟩
            | true =>
              have htr' : target < O.length := of_decide_eq_true htr
              have hstep : alias_step aliasT hasP idx = some target := by
                unfold alias_step
                rw [hPidx, hT]
                simp only [Bool.false_eq_true, if_false]
                rw [if_pos (by omega)]
              have hstep1 : alias_iter aliasT hasP 1 idx = some target := by
                rw [alias_iter_succ, hstep]
                rfl
              have hmarks1 : ∀ m, (V.set idx true).getD m false = true →
                  hasP.getD m false = false ∧ O.getD m none = none ∧
                  ∃ k, 1 ≤ k ∧ alias_iter aliasT hasP k m = some target := by
                intro m hm
                rcases hV1get m hm with hmi | ⟨hmi, hmV⟩
                · subst hmi
                  exact ⟨hPidx, hO, 1, by omega, hstep1⟩
                · obtain ⟨hp, hOm, k, hk, hiter⟩ := hmarks m hmV
                  refine ⟨hp, hOm, k + 1, by omega, ?_⟩
                  have hadd := alias_iter_add aliasT hasP k 1 m
                  rw [hiter] at hadd
                  rw [hadd]
                  exact hstep1
              have ih := ihf target O L (V.set idx true)
                ⟨hOlen, hLlen, hsound, hpair, hdataO, hdataL⟩ hV1len (by omega)
                (by omega) hmarks1
              obtain ⟨ihV, ihInv, ihgO, ihgL, ihstable, ihres⟩ := ih
              obtain ⟨ih1, ih2, ih3, ih4, ih5, ih6⟩ := ihInv
              have hOidx2 : (resolve_slot aliasT fuel target O L
                  (V.set idx true)).2.1.getD idx none = none := by
                rw [ihstable idx (by
                  rw [getD_set_self V idx true false (by omega)]), hO]
              cases hR1 : (resolve_slot aliasT fuel target O L (V.set idx true)).1 with
              | some ol =>
                have ihres' := ihres
                rw [hR1] at ihres'
                obtain ⟨⟨d, hcand, ho0d, hl0d⟩, hOt, hLt⟩ := ihres'
                have hR : resolve_slot aliasT (fuel + 1) idx O L V =
                    (some ol,
                     (resolve_slot aliasT fuel target O L (V.set idx true)).2.1.set idx
                       (some ol.1),
                     (resolve_slot aliasT fuel target O L (V.set idx true)).2.2.1.set idx
                       (some ol.2),
                     (resolve_slot aliasT fuel target O L (V.set idx true)).2.2.2.set idx
                       false) := by
                  simp only [resolve_slot, hO, hL, hV, hT, Bool.false_eq_true,
                    if_false]
                  rw [if_pos htr', hR1]
                rw [hR]
                have hOlen2 : (resolve_slot aliasT fuel target O L
                    (V.set idx true)).2.1.length = aliasT.length := ih1
                have hLlen2 : (resolve_slot aliasT fuel target O L
                    (V.set idx true)).2.2.1.length = aliasT.length := ih2
                have hcanIdx : CanonRel aliasT hasP idx d := canonRel_shift hstep d hcand
                refine ⟨?_, ?_, ?_, ?_, ?_, ?_⟩
                · show ((resolve_slot aliasT fuel target O L
                    (V.set idx true)).2.2.2.set idx false) = V
                  rw [ihV]
                  exact hVres
                · refine ⟨by rw [List.length_set]; exact ih1,
                    by rw [List.length_set]; exact ih2, ?_, ?_, ?_, ?_⟩
                  · intro i o hio
                    by_cases hii : i = idx
                    · subst hii
                      rw [getD_set_self _ _ _ _ (by omega)] at hio
                      have ho : o = ol.1 := (Option.some.inj hio).symm
                      subst ho
                      refine ⟨ol.2, by rw [getD_set_self _ _ _ _ (by omega)], d,
                        hcanIdx, ho0d, hl0d⟩
                    · rw [getD_set_ne _ _ _ _ _ (fun h => hii h.symm)] at hio
                      obtain ⟨l, hl, d', hc', ho', hl'⟩ := ih3 i o hio
                      exact ⟨l, by
                        rw [getD_set_ne _ _ _ _ _ (fun h => hii h.symm)]
                        exact hl, d', hc', ho', hl'⟩
                  · intro i l hil
                    by_cases hii : i = idx
                    · subst hii
                      exact ⟨ol.1, by rw [getD_set_self _ _ _ _ (by omega)]⟩
                    · rw [getD_set_ne _ _ _ _ _ (fun h => hii h.symm)] at hil
                      obtain ⟨o, ho⟩ := ih4 i l hil
                      exact ⟨o, by
                        rw [getD_set_ne _ _ _ _ _ (fun h => hii h.symm)]
                        exact ho⟩
                  · intro i o hio
                    by_cases hii : i = idx
                    · subst hii
                      have hcontra := (hP2O i).mpr ⟨o, hio⟩
                      rw [hPidx] at hcontra
                      cases hcontra
                    · rw [getD_set_ne _ _ _ _ _ (fun h => hii h.symm)]
                      exact ih5 i o hio
                  · intro i l hil
                    by_cases hii : i = idx
                    · subst hii
                      have hoo : ∃ o, offs0.getD i none = some o :=
                        (hO2L i).mpr ⟨l, hil⟩
                      have := (hP2O i).mpr hoo
                      rw [hPidx] at this
                      cases this
                    · rw [getD_set_ne _ _ _ _ _ (fun h => hii h.symm)]
                      exact ih6 i l hil
                · intro i o hio
                  by_cases hii : i = idx
                  · subst hii
                    rw [hO] at hio
                    cases hio
                  · rw [getD_set_ne _ _ _ _ _ (fun h => hii h.symm)]
                    exact ihgO i o hio
                · intro i l hil
                  by_cases hii : i = idx
                  · subst hii
                    rw [hL] at hil
                    cases hil
                  · rw [getD_set_ne _ _ _ _ _ (fun h => hii h.symm)]
                    exact ihgL i l hil
                · intro m hm
                  have hmi : m ≠ idx := by
                    intro hmi
                    subst hmi
                    rw [hV] at hm
                    cases hm
                  rw [getD_set_ne _ _ _ _ _ (fun h => hmi h.symm)]
                  refine Eq.trans ?_ (ihstable m (by
                    rw [getD_set_ne _ _ _ _ _ (fun h => hmi h.symm)]
                    exact hm))
                  rfl
                · exact (⟨⟨d, hcanIdx, ho0d, hl0d⟩,
                    by rw [getD_set_self _ _ _ _ (by omega)],
                    by rw [getD_set_self _ _ _ _ (by omega)]⟩ :
                    (∃ d, CanonRel aliasT hasP idx d ∧
                      offs0.getD d none = some ol.1 ∧ lens0.getD d none = some ol.2) ∧
                    ((resolve_slot aliasT fuel target O L (V.set idx true)).2.1.set idx
                      (some ol.1)).getD idx none = some ol.1 ∧
                    ((resolve_slot aliasT fuel target O L (V.set idx true)).2.2.1.set idx
                      (some ol.2)).getD idx none = some ol.2)
              | none =>
                have ihres' := ihres
                rw [hR1] at ihres'
                obtain ⟨hnocan, hOt⟩ := ihres'
                have hR : resolve_slot aliasT (fuel + 1) idx O L V =
                    (none,
                     (resolve_slot aliasT fuel target O L (V.set idx true)).2.1,
                     (resolve_slot aliasT fuel target O L (V.set idx true)).2.2.1,
                     (resolve_slot aliasT fuel target O L (V.set idx true)).2.2.2.set idx
                       false) := by
                  simp only [resolve_slot, hO, hL, hV, hT, Bool.false_eq_true,
                    if_false]
                  rw [if_pos htr', hR1]
                rw [hR]
                refine ⟨?_, ⟨ih1, ih2, ih3, ih4, ih5, ih6⟩, ihgO, ihgL, ?_, ?_⟩
                · show ((resolve_slot aliasT fuel target O L
                    (V.set idx true)).2.2.2.set idx false) = V
                  rw [ihV]
                  exact hVres
                · intro m hm
                  have hmi : m ≠ idx := by
                    intro hmi
                    subst hmi
                    rw [hV] at hm
                    cases hm
                  exact ihstable m (by
                    rw [getD_set_ne _ _ _ _ _ (fun h => hmi h.symm)]
                    exact hm)
                · refine ⟨?_, hOidx2⟩
                  intro d hc
                  exact hnocan d (canonRel_unshift hPidx hstep d hc)

/-- The resolver pass computes pure canonical resolution pointwise. -/
theorem resolve_pass_spec (aliasT : List (Option Nat)) (hasP : List Bool)
    (offs0 lens0 : List (Option Nat))
    (hstat : ResolveStatic aliasT hasP offs0 lens0)
    (hOlen : offs0.length = aliasT.length) (hLlen : lens0.length = aliasT.length) :
    (resolve_pass aliasT offs0 lens0).1.length = aliasT.length ∧
    (resolve_pass aliasT offs0 lens0).2.length = aliasT.length ∧
    (∀ i, i < aliasT.length →
      (∀ d o l, CanonRel aliasT hasP i d → offs0.getD d none = some o →
        lens0.getD d none = some l →
        (resolve_pass aliasT offs0 lens0).1.getD i none = some o ∧
        (resolve_pass aliasT offs0 lens0).2.getD i none = some l) ∧
      ((∀ d, ¬ CanonRel aliasT hasP i d) →
        (resolve_pass aliasT offs0 lens0).1.getD i none = none)) := by
  obtain ⟨hPlen, hP2O, hO2L⟩ := hstat
  have hInv0 : ResolveInv aliasT hasP offs0 lens0 offs0 lens0 := by
    refine ⟨hOlen, hLlen, ?_, ?_, fun i o h => h, fun i l h => h⟩
    · intro i o ho
      obtain ⟨l, hl⟩ := (hO2L i).mp ⟨o, ho⟩
      exact ⟨l, hl, i, ⟨0, rfl, (hP2O i).mpr ⟨o, ho⟩⟩, ho, hl⟩
    · intro i l hl
      exact (hO2L i).mpr ⟨l, hl⟩
  have hstep : ∀ k, k ≤ aliasT.length →
      (let acc := (List.range k).foldl
        (fun (acc : List (Option Nat) × List (Option Nat) × List Bool) idx =>
          if (acc.1.getD idx none).isNone then
            ((resolve_slot aliasT (acc.1.length + 1) idx acc.1 acc.2.1 acc.2.2).2.1,
             (resolve_slot aliasT (acc.1.length + 1) idx acc.1 acc.2.1 acc.2.2).2.2.1,
             (resolve_slot aliasT (acc.1.length + 1) idx acc.1 acc.2.1 acc.2.2).2.2.2)
          else acc)
        (offs0, lens0, List.replicate aliasT.length false)
       ResolveInv aliasT hasP offs0 lens0 acc.1 acc.2.1 ∧
       acc.2.2 = List.replicate aliasT.length false ∧
       (∀ i, i < k → ∀ d o l, CanonRel aliasT hasP i d →
         offs0.getD d none = some o → lens0.getD d none = some l →
         acc.1.getD i none = some o ∧ acc.2.1.getD i none = some l)) := by
    intro k
    induction k with
    | zero =>
      intro _
      exact ⟨hInv0, rfl, fun i hi => by omega⟩
    | succ k ihk =>
      intro hk
      have ih := ihk (by omega)
      simp only at ih ⊢
      rw [List.range_succ, List.foldl_append, List.foldl_cons, List.foldl_nil]
      set acc := (List.range k).foldl
        (fun (acc : List (Option Nat) × List (Option Nat) × List Bool) idx =>
          if (acc.1.getD idx none).isNone then
            ((resolve_slot aliasT (acc.1.length + 1) idx acc.1 acc.2.1 acc.2.2).2.1,
             (resolve_slot aliasT (acc.1.length + 1) idx acc.1 acc.2.1 acc.2.2).2.2.1,
             (resolve_slot aliasT (acc.1.length + 1) idx acc.1 acc.2.1 acc.2.2).2.2.2)
          else acc)
        (offs0, lens0, List.replicate aliasT.length false) with hacc
      obtain ⟨ihInv, ihV, ihcomp⟩ := ih
      have hacc1len : acc.1.length = aliasT.length := ihInv.1
      have haccVlen : acc.2.2.length = aliasT.length := by
        rw [ihV, List.length_replicate]
      have haccVcount : acc.2.2.count true = 0 := by
        rw [ihV]
        simp [List.count_replicate]
      have hmarks0 : ∀ m, acc.2.2.getD m false = true →
          hasP.getD m false = false ∧ acc.1.getD m none = none ∧
          ∃ kk, 1 ≤ kk ∧ alias_iter aliasT hasP kk m = some k := by
        intro m hm
        rw [ihV, getD_replicate] at hm
        cases hm
      cases hNone : (acc.1.getD k none).isNone with
      | false =>
        simp only [hNone, Bool.false_eq_true, if_false]
        obtain ⟨o, ho⟩ : ∃ o, acc.1.getD k none = some o := by
          cases hx : acc.1.getD k none with
          | none => rw [hx] at hNone; cases hNone
          | some o => exact ⟨o, rfl⟩
        refine ⟨ihInv, ihV, ?_⟩
        intro i hi d o' l' hcan ho' hl'
        by_cases hik : i = k
        · subst hik
          obtain ⟨l, hl, d0, hcan0, ho0, hl0⟩ := ihInv.2.2.1 i o ho
          have hd : d0 = d := canonRel_unique hcan0 hcan
          subst hd
          rw [ho0] at ho'
          rw [hl0] at hl'
          exact ⟨by rw [ho, Option.some.inj ho'], by rw [hl, Option.some.inj hl']⟩
        · exact ihcomp i (by omega) d o' l' hcan ho' hl'
      | true =>
        simp only [hNone, if_true]
        have hspec := resolve_slot_spec aliasT hasP offs0 lens0
          ⟨hPlen, hP2O, hO2L⟩ (acc.1.length + 1) k acc.1 acc.2.1 acc.2.2
          ihInv haccVlen (by omega) (by omega) hmarks0
        obtain ⟨hV', hInv', hgO, hgL, _, hres⟩ := hspec
        refine ⟨hInv', by rw [hV', ihV], ?_⟩
        intro i hi d o l hcan ho hl
        by_cases hik : i = k
        · subst hik
          cases hR1 : (resolve_slot aliasT (acc.1.length + 1) i acc.1 acc.2.1 acc.2.2).1 with
          | none =>
            rw [hR1] at hres
            exact absurd hcan (hres.1 d)
          | some ol =>
            rw [hR1] at hres
            obtain ⟨⟨d', hcan', ho', hl'⟩, hO', hL'⟩ := hres
            have hd : d' = d := canonRel_unique hcan' hcan
            subst hd
            rw [ho'] at ho
            rw [hl'] at hl
            rw [hO', hL']
            exact ⟨by rw [Option.some.inj ho], by rw [Option.some.inj hl]⟩
        · obtain ⟨hoi, hli⟩ := ihcomp i (by omega) d o l hcan ho hl
          exact ⟨hgO i o hoi, hgL i l hli⟩
  have hfin := hstep aliasT.length (le_refl _)
  simp only at hfin
  unfold resolve_pass
  simp only [hOlen]
  obtain ⟨hInvF, hVF, hcompF⟩ := hfin
  refine ⟨hInvF.1, hInvF.2.1, ?_⟩
  intro i hi
  constructor
  · intro d o l hcan ho hl
    exact hcompF i hi d o l hcan ho hl
  · intro hnone
    cases hx : (((List.range aliasT.length).foldl
        (fun (acc : List (Option Nat) × List (Option Nat) × List Bool) idx =>
          if (acc.1.getD idx none).isNone then
            ((resolve_slot aliasT (acc.1.length + 1) idx acc.1 acc.2.1 acc.2.2).2.1,
             (resolve_slot aliasT (acc.1.length + 1) idx acc.1 acc.2.1 acc.2.2).2.2.1,
             (resolve_slot aliasT (acc.1.length + 1) idx acc.1 acc.2.1 acc.2.2).2.2.2)
          else acc)
        (offs0, lens0, List.replicate aliasT.length false)).1.getD i none) with
    | none => rfl
    | some o =>
      obtain ⟨l, hl, d0, hcan0, _, _⟩ := hInvF.2.2.1 i o hx
      exact absurd hcan0 (hnone d0)

/-- Soundness invariant of the canonical-resolution memo table. -/
def MemoInv (aliasT : List (Option Nat)) (hasP : List Bool)
    (M : List (Option (Option Nat))) : Prop :=
  M.length = aliasT.length ∧
  ∀ i r, M.getD i none = some r →
    (match r with
     | some d => CanonRel aliasT hasP i d
     | none => ∀ d, ¬ CanonRel aliasT hasP i d)

/-- Master lemma for the memoized canonical resolver: it returns the pure
canonical resolution, caches only sound entries, and restores the visiting
set. -/
theorem resolve_canonical_spec (aliasT : List (Option Nat)) (hasP : List Bool) :
    ∀ (fuel idx : Nat) (M : List (Option (Option Nat))) (V : List Bool),
      MemoInv aliasT hasP M →
      V.length = aliasT.length →
      idx < aliasT.length →
      aliasT.length + 1 ≤ fuel + V.count true →
      (∀ m, V.getD m false = true →
        hasP.getD m false = false ∧
        ∃ k, 1 ≤ k ∧ alias_iter aliasT hasP k m = some idx) →
      ((resolve_canonical aliasT hasP fuel idx M V).2.2 = V ∧
       MemoInv aliasT hasP (resolve_canonical aliasT hasP fuel idx M V).2.1 ∧
       (match (resolve_canonical aliasT hasP fuel idx M V).1 with
        | some d => CanonRel aliasT hasP idx d
        | none => ∀ d, ¬ CanonRel aliasT hasP idx d)) := by
  intro fuel
  induction fuel with
  | zero =>
    intro idx M V _ hVlen _ hfuel _
    have hc : V.count true ≤ V.length := List.count_le_length true V
    omega
  | succ fuel ihf =>
    intro idx M V hMinv hVlen hidx hfuel hmarks
    obtain ⟨hMlen, hMsound⟩ := hMinv
    cases hM : M.getD idx none with
    | some cached =>
      have hR : resolve_canonical aliasT hasP (fuel + 1) idx M V = (cached, M, V) := by
        simp only [resolve_canonical, hM]
      rw [hR]
      exact ⟨rfl, ⟨hMlen, hMsound⟩, hMsound idx cached hM⟩
    | none =>
      cases hV : V.getD idx false with
      | true =>
        have hR : resolve_canonical aliasT hasP (fuel + 1) idx M V =
            (none, M.set idx (some none), V) := by
          simp only [resolve_canonical, hM, hV, if_true]
        rw [hR]
        obtain ⟨_, k, hk, hiter⟩ := hmarks idx hV
        have hnone := canonRel_none_of_cycle aliasT hasP hk hiter
        refine ⟨rfl, ⟨by rw [List.length_set]; exact hMlen, ?_⟩, hnone⟩
        intro i r hir
        by_cases hii : i = idx
        · subst hii
          by_cases hlen : i < M.length
          · rw [getD_set_self _ _ _ _ hlen] at hir
            have : r = none := (Option.some.inj hir).symm
            subst this
            exact hnone
          · rw [List.set_eq_of_length_le (by omega)] at hir
            exact hMsound i r hir
        · rw [getD_set_ne _ _ _ _ _ (fun h => hii h.symm)] at hir
          exact hMsound i r hir
      | false =>
        have hVres : (V.set idx true).set idx false = V := by
          rw [List.set_set]
          exact set_getD_eq_self V idx false hV
        have hV1len : (V.set idx true).length = aliasT.length := by
          rw [List.length_set]
          exact hVlen
        have hV1count : (V.set idx true).count true = V.count true + 1 :=
          count_set_true V idx (by omega) hV
        have hMemoSet : ∀ (M' : List (Option (Option Nat))) (res : Option Nat),
            MemoInv aliasT hasP M' →
            (match res with
             | some d => CanonRel aliasT hasP idx d
             | none => ∀ d, ¬ CanonRel aliasT hasP idx d) →
            MemoInv aliasT hasP (M'.set idx (some res)) := by
          intro M' res hM' hres
          refine ⟨by rw [List.length_set]; exact hM'.1, ?_⟩
          intro i r hir
          by_cases hii : i = idx
          · subst hii
            by_cases hlen : i < M'.length
            · rw [getD_set_self _ _ _ _ hlen] at hir
              have : r = res := (Option.some.inj hir).symm
              subst this
              exact hres
            · rw [List.set_eq_of_length_le (by omega)] at hir
              exact hM'.2 i r hir
          · rw [getD_set_ne _ _ _ _ _ (fun h => hii h.symm)] at hir
            exact hM'.2 i r hir
        cases hp : hasP.getD idx false with
        | true =>
          have hR : resolve_canonical aliasT hasP (fuel + 1) idx M V =
              (some idx, M.set idx (some (some idx)), (V.set idx true).set idx false) := by
            simp only [resolve_canonical, hM, hV, Bool.false_eq_true, if_false, hp,
              if_true]
          rw [hR, hVres]
          have hcan : CanonRel aliasT hasP idx idx := ⟨0, rfl, hp⟩
          exact ⟨rfl, hMemoSet M (some idx) ⟨hMlen, hMsound⟩ hcan, hcan⟩
        | false =>
          cases hT : aliasT.getD idx none with
          | none =>
            have hstepn : alias_step aliasT hasP idx = none := by
              unfold alias_step
              rw [hp, hT]
              rfl
            have hnone := canonRel_none_of_step_none hp hstepn
            have hR : resolve_canonical aliasT hasP (fuel + 1) idx M V =
                (none, M.set idx (some none), (V.set idx true).set idx false) := by
              simp only [resolve_canonical, hM, hV, Bool.false_eq_true, if_false, hp,
                hT]
            rw [hR, hVres]
            exact ⟨rfl, hMemoSet M none ⟨hMlen, hMsound⟩ hnone, hnone⟩
          | some target =>
            cases htr : decide (target < aliasT.length) with
            | false =>
              have htr' : ¬ target < aliasT.length := of_decide_eq_false htr
              have hstepn : alias_step aliasT hasP idx = none := by
                unfold alias_step
                rw [hp, hT]
                simp only [Bool.false_eq_true, if_false]
                rw [if_neg htr']
              have hnone := canonRel_none_of_step_none hp hstepn
              have hR : resolve_canonical aliasT hasP (fuel + 1) idx M V =
                  (none, M.set idx (some none), (V.set idx true).set idx false) := by
                simp only [resolve_canonical, hM, hV, Bool.false_eq_true, if_false, hp,
                  hT]
                rw [if_neg htr']
              rw [hR, hVres]
              exact ⟨rfl, hMemoSet M none ⟨hMlen, hMsound⟩ hnone, hnone⟩
            | true =>
              have htr' : target < aliasT.length := of_decide_eq_true htr
              have hsteps : alias_step aliasT hasP idx = some target := by
                unfold alias_step
                rw [hp, hT]
                simp only [Bool.false_eq_true, if_false]
                rw [if_pos htr']
              have hstep1 : alias_iter aliasT hasP 1 idx = some target := by
                rw [alias_iter_succ, hsteps]
                rfl
              have hmarks1 : ∀ m, (V.set idx true).getD m false = true →
                  hasP.getD m false = false ∧
                  ∃ k, 1 ≤ k ∧ alias_iter aliasT hasP k m = some target := by
                intro m hm
                by_cases hmi : m = idx
                · subst hmi
                  exact ⟨hp, 1, by omega, hstep1⟩
                · rw [getD_set_ne _ _ _ _ _ (fun h => hmi h.symm)] at hm
                  obtain ⟨hpm, k, hk, hiter⟩ := hmarks m hm
                  refine ⟨hpm, k + 1, by omega, ?_⟩
                  have hadd := alias_iter_add aliasT hasP k 1 m
                  rw [hiter] at hadd
                  rw [hadd]
                  exact hstep1
              have ih := ihf target M (V.set idx true)
                ⟨hMlen, hMsound⟩ hV1len htr' (by omega) hmarks1
              obtain ⟨ihV, ihM, ihres⟩ := ih
              have hR : resolve_canonical aliasT hasP (fuel + 1) idx M V =
                  ((resolve_canonical aliasT hasP fuel target M (V.set idx true)).1,
                   (resolve_canonical aliasT hasP fuel target M (V.set idx true)).2.1.set
                     idx (some (resolve_canonical aliasT hasP fuel target M
                       (V.set idx true)).1),
                   (resolve_canonical aliasT hasP fuel target M
                     (V.set idx true)).2.2.set idx false) := by
                simp only [resolve_canonical, hM, hV, Bool.false_eq_true, if_false, hp,
                  hT]
                rw [if_pos htr']
              rw [hR]
              have hresIdx : (match (resolve_canonical aliasT hasP fuel target M
                  (V.set idx true)).1 with
                | some d => CanonRel aliasT hasP idx d
                | none => ∀ d, ¬ CanonRel aliasT hasP idx d) := by
                cases hr1 : (resolve_canonical aliasT hasP fuel target M
                    (V.set idx true)).1 with
                | some d =>
                  rw [hr1] at ihres
                  exact canonRel_shift hsteps d ihres
                | none =>
                  rw [hr1] at ihres
                  intro d hc
                  exact ihres d (canonRel_unshift hp hsteps d hc)
              refine ⟨by rw [ihV]; exact hVres, hMemoSet _ _ ihM hresIdx, hresIdx⟩

/-- The canonical pass returns exactly the fuelled pure canonical resolution
of every handle. -/
theorem canonical_pass_spec (aliasT : List (Option Nat)) (hasP : List Bool) :
    canonical_pass aliasT hasP = (List.range aliasT.length).map
      (canon_steps aliasT hasP (aliasT.length + 1)) := by
  have hstep : ∀ k, k ≤ aliasT.length →
      (let acc := (List.range k).foldl
        (fun (acc : List (Option Nat) × List (Option (Option Nat)) × List Bool) idx =>
          ((acc.1 ++ [(resolve_canonical aliasT hasP (aliasT.length + 1) idx
              acc.2.1 acc.2.2).1]),
           (resolve_canonical aliasT hasP (aliasT.length + 1) idx acc.2.1 acc.2.2).2.1,
           (resolve_canonical aliasT hasP (aliasT.length + 1) idx acc.2.1 acc.2.2).2.2))
        ([], List.replicate aliasT.length none, List.replicate aliasT.length false)
       acc.1 = (List.range k).map (canon_steps aliasT hasP (aliasT.length + 1)) ∧
       MemoInv aliasT hasP acc.2.1 ∧
       acc.2.2 = List.replicate aliasT.length false) := by
    intro k
    induction k with
    | zero =>
      intro _
      refine ⟨rfl, ⟨by simp, ?_⟩, rfl⟩
      intro i r hir
      have hir' : (List.replicate aliasT.length (none : Option (Option Nat))).getD
          i none = some r := hir
      rw [getD_replicate] at hir'
      cases hir' 
    | succ k ihk =>
      intro hk
      have ih := ihk (by omega)
      simp only at ih ⊢
      rw [List.range_succ, List.foldl_append, List.foldl_cons, List.foldl_nil]
      set acc := (List.range k).foldl
        (fun (acc : List (Option Nat) × List (Option (Option Nat)) × List Bool) idx =>
          ((acc.1 ++ [(resolve_canonical aliasT hasP (aliasT.length + 1) idx
              acc.2.1 acc.2.2).1]),
           (resolve_canonical aliasT hasP (aliasT.length + 1) idx acc.2.1 acc.2.2).2.1,
           (resolve_canonical aliasT hasP (aliasT.length + 1) idx acc.2.1 acc.2.2).2.2))
        ([], List.replicate aliasT.length none, List.replicate aliasT.length false)
        with hacc
      obtain ⟨ihres, ihM, ihV⟩ := ih
      have hVlen : acc.2.2.length = aliasT.length := by
        rw [ihV, List.length_replicate]
      have hVcount : acc.2.2.count true = 0 := by
        rw [ihV]
        simp [List.count_replicate]
      have hmarks : ∀ m, acc.2.2.getD m false = true →
          hasP.getD m false = false ∧
          ∃ kk, 1 ≤ kk ∧ alias_iter aliasT hasP kk m = some k := by
        intro m hm
        rw [ihV, getD_replicate] at hm
        cases hm
      have hspec := resolve_canonical_spec aliasT hasP (aliasT.length + 1) k
        acc.2.1 acc.2.2 ihM hVlen (by omega) (by omega) hmarks
      obtain ⟨hV', hM', hres'⟩ := hspec
      refine ⟨?_, hM', by rw [hV', ihV]⟩
      rw [List.map_append, List.map_cons, List.map_nil, ihres]
      have hval : (resolve_canonical aliasT hasP (aliasT.length + 1) k
          acc.2.1 acc.2.2).1 = canon_steps aliasT hasP (aliasT.length + 1) k := by
        cases hr1 : (resolve_canonical aliasT hasP (aliasT.length + 1) k
            acc.2.1 acc.2.2).1 with
        | some d =>
          rw [hr1] at hres'
          exact (canonRel_to_canon_steps aliasT hasP hres').symm
        | none =>
          rw [hr1] at hres'
          cases hc : canon_steps aliasT hasP (aliasT.length + 1) k with
          | none => rfl
          | some d =>
            exact absurd (canon_steps_to_canonRel aliasT hasP _ k d hc) (hres' d)
      rw [hval]
  have hfin := hstep aliasT.length (le_refl _)
  simp only at hfin
  unfold canonical_pass
  exact hfin.1


/-! ### Chain-index round trip: spec-side slot description and assembly -/

theorem getD_drop {α : Type} (l : List α) (k j : Nat) (d : α) :
    (l.drop k).getD j d = l.getD (k + j) d := by
  by_cases h : k + j < l.length
  · rw [List.getD_eq_getElem _ _ (by rw [List.length_drop]; omega),
      List.getD_eq_getElem _ _ h]
    exact List.getElem_drop l
  · rw [List.getD_eq_default _ _ (by rw [List.length_drop]; omega),
      List.getD_eq_default _ _ (by omega)]

theorem firstDataOffset_cases (total : Nat) :
    ∀ l : List (Option Nat), firstDataOffset total l = total ∨
      ∃ j, l.getD j none = some (firstDataOffset total l) := by
  intro l
  induction l with
  | nil => exact Or.inl rfl
  | cons x rest ih =>
    cases x with
    | some o => exact Or.inr ⟨0, rfl⟩
    | none =>
      rcases ih with h | ⟨j, hj⟩
      · exact Or.inl h
      · exact Or.inr ⟨j + 1, hj⟩

theorem u32_u64_sub_exact (a b : Nat) (hba : b ≤ a) (ha32 : a < 2 ^ 32) :
    u32_of_u64 (u64_wrapping_sub a b) = a - b := by
  unfold u32_of_u64 u64_wrapping_sub
  omega

theorem mapM_ok_of_forall {α β : Type} (f : α → Except Err β) (g : α → β) :
    ∀ l : List α, (∀ a ∈ l, f a = .ok (g a)) → l.mapM f = .ok (l.map g) := by
  intro l
  induction l with
  | nil => intro _; rfl
  | cons a as ih =>
    intro h
    rw [List.map_cons, List.mapM_cons, h a (by simp),
      ih (fun x hx => h x (by simp [hx]))]
    rfl

/-- Lower and upper bounds on the pairwise-differencing upper end of a Data
slot, from non-decreasing in-range offsets. -/
theorem firstData_bounds (entries : List ChainIndexEntry) (total : Nat)
    (hsorted : ∀ i, i < entries.length → ∀ j, j < entries.length → i ≤ j →
      match (offsArr entries).getD i none, (offsArr entries).getD j none with
      | some oi, some oj => oi ≤ oj
      | _, _ => True)
    (hbound : ∀ i, i < entries.length →
      match (offsArr entries).getD i none with
      | some o => o ≤ total
      | none => True)
    (idx o : Nat) (ho : (offsArr entries).getD idx none = some o) :
    o ≤ firstDataOffset total ((offsArr entries).drop (idx + 1)) ∧
    firstDataOffset total ((offsArr entries).drop (idx + 1)) ≤ total := by
  have hOlen : (offsArr entries).length = entries.length := by
    unfold offsArr
    exact List.length_map _ _
  have hidx : idx < entries.length := by
    by_contra h
    rw [List.getD_eq_default _ _ (by omega)] at ho
    cases ho
  have hbo : o ≤ total := by
    have hb := hbound idx hidx
    rw [ho] at hb
    exact hb
  rcases firstDataOffset_cases total ((offsArr entries).drop (idx + 1)) with hfd | ⟨j, hj⟩
  · rw [hfd]
    exact ⟨hbo, le_refl _⟩
  · rw [getD_drop] at hj
    have hjlt : idx + 1 + j < entries.length := by
      by_contra h
      rw [List.getD_eq_default _ _ (by omega)] at hj
      cases hj
    constructor
    · have hs := hsorted idx hidx (idx + 1 + j) hjlt (by omega)
      rw [ho, hj] at hs
      exact hs
    · have hb := hbound (idx + 1 + j) hjlt
      rw [hj] at hb
      exact hb

/-- Spec-side transitive canonical lookup, transcribed from the claim text:
the canonical handle of an entry is itself for a Data entry, the canonical
handle of the (0-based) target for an Alias entry, and none for an Empty
entry or when the lookup does not terminate within the fuel (a cycle). -/
def canonicalOf (entries : List ChainIndexEntry) : Nat → Nat → Option Nat
  | 0, _ => none
  | fuel + 1, i =>
    match entries.getD i .Empty with
    | .Data _ => some i
    | .Alias t => canonicalOf entries fuel (t - 1)
    | .Empty => none

theorem canonicalOf_out_of_range (entries : List ChainIndexEntry) :
    ∀ fuel j, entries.length ≤ j → canonicalOf entries fuel j = none := by
  intro fuel j hj
  cases fuel with
  | zero => rfl
  | succ fuel =>
    unfold canonicalOf
    rw [List.getD_eq_default _ _ hj]

/-- The spec-side canonical lookup agrees with the fuelled canonical
resolution over the decoder's per-handle arrays. -/
theorem canonicalOf_eq_canon_steps (entries : List ChainIndexEntry) :
    ∀ fuel i, canonicalOf entries fuel i =
      canon_steps (aliasArr entries) (payloadArr entries) fuel i := by
  intro fuel
  induction fuel with
  | zero => intro i; rfl
  | succ fuel ih =>
    intro i
    have hAlen : (aliasArr entries).length = entries.length := by
      unfold aliasArr
      exact List.length_map _ _
    have hP : (payloadArr entries).getD i false =
        (match entries.getD i .Empty with
         | ChainIndexEntry.Data _ => true
         | _ => false) := by
      unfold payloadArr
      exact getD_map_entry _ _ rfl entries i
    have hA : (aliasArr entries).getD i none =
        (match entries.getD i .Empty with
         | ChainIndexEntry.Alias t => some (t - 1)
         | _ => none) := by
      unfold aliasArr
      exact getD_map_entry _ _ rfl entries i
    cases hE : entries.getD i .Empty with
    | Data o =>
      rw [hE] at hP
      simp only [canonicalOf, canon_steps, hE, hP, if_true]
    | Empty =>
      rw [hE] at hP hA
      simp only [canonicalOf, canon_steps, alias_step, hE, hP, hA,
        Bool.false_eq_true, if_false]
    | Alias t =>
      rw [hE] at hP hA
      by_cases ht : t - 1 < entries.length
      · simp only [canonicalOf, canon_steps, alias_step, hE, hP, hA,
          Bool.false_eq_true, if_false, hAlen, if_pos ht]
        exact ih (t - 1)
      · simp only [canonicalOf, canon_steps, alias_step, hE, hP, hA,
          Bool.false_eq_true, if_false, hAlen, if_neg ht]
        exact canonicalOf_out_of_range entries fuel (t - 1) (by omega)

/-- Spec-side per-handle slot, transcribed from the claim text: a Data entry
keeps its own offset (made absolute from chain_start) with the pairwise
difference to the next Data offset as length (the last Data slot spans to
the end of the chain buffer); an Alias entry adopts the offset and length of
its canonical target and records the 1-based canonical handle; Empty entries
and unresolved aliases give no slot. -/
def chainSlotSpec (entries : List ChainIndexEntry) (chain_start chain_end : Nat)
    (i : Nat) : Option ChainSlot :=
  match entries.getD i .Empty with
  | .Data o =>
    some ⟨chain_start + o,
      firstDataOffset (chain_end - chain_start) ((offsArr entries).drop (i + 1)) - o,
      none⟩
  | .Alias _ =>
    match canonicalOf entries (entries.length + 1) i with
    | some d =>
      match (offsArr entries).getD d none with
      | some od =>
        some ⟨chain_start + od,
          firstDataOffset (chain_end - chain_start) ((offsArr entries).drop (d + 1)) - od,
          some (d + 1)⟩
      | none => none
    | none => none
  | .Empty => none

/-- Spec-side decoded slot table: one slot per entry, padded with none up to
max_handle_hint + 1 entries. -/
def chainIndexSlotsSpec (entries : List ChainIndexEntry)
    (max_handle_hint chain_start chain_end : Nat) : List (Option ChainSlot) :=
  let slots := (List.range entries.length).map
    (chainSlotSpec entries chain_start chain_end)
  if slots.length < max_handle_hint + 1 then
    slots ++ List.replicate (max_handle_hint + 1 - slots.length) none
  else slots


/-- C6: chain-index round trip. For every entry list whose Data offsets are
non-decreasing in handle order and within the chain buffer, decoding the
bytes produced by encode_chain_index as a v1 dynamic-alias block
reconstructs one slot per entry: Data entries carry their original offsets
(the +1 base prefix removed, made absolute from chain_start) with lengths
given by pairwise differencing of consecutive Data offsets and the last Data
slot spanning to the end of the chain buffer; Alias entries adopt their
canonical target's offset and length by transitive lookup and record the
1-based canonical handle; Empty entries and aliases that resolve to no Data
slot (including cycles) become empty slots. -/
theorem chain_index_roundtrip (entries : List ChainIndexEntry) (bytes : List Nat)
    (max_handle_hint chain_start chain_end : Nat)
    (henc : encode_chain_index entries = Except.ok bytes)
    (hsorted : ∀ i, i < entries.length → ∀ j, j < entries.length → i ≤ j →
      match (offsArr entries).getD i none, (offsArr entries).getD j none with
      | some oi, some oj => oi ≤ oj
      | _, _ => True)
    (hbound : ∀ i, i < entries.length →
      match (offsArr entries).getD i none with
      | some o => o ≤ chain_end - chain_start
      | none => True)
    (halias : ∀ i, i < entries.length →
      match entries.getD i ChainIndexEntry.Empty with
      | ChainIndexEntry.Alias t => t < 2 ^ 64
      | _ => True)
    (hn : entries.length < 2 ^ 32)
    (hrange : chain_start ≤ chain_end)
    (hce : chain_end < 2 ^ 64)
    (htotal : chain_end - chain_start < 2 ^ 32) :
    decode_chain_index BlockType.VcDataDynAlias bytes max_handle_hint
      chain_start chain_end =
      Except.ok (chainIndexSlotsSpec entries max_handle_hint chain_start chain_end) := by
  have hOlen : (offsArr entries).length = entries.length := by
    unfold offsArr
    exact List.length_map _ _
  have hAlen : (aliasArr entries).length = entries.length := by
    unfold aliasArr
    exact List.length_map _ _
  have hPlen2 : (payloadArr entries).length = entries.length := by
    unfold payloadArr
    exact List.length_map _ _
  have hOd : ∀ i, (offsArr entries).getD i none =
      (match entries.getD i ChainIndexEntry.Empty with
       | ChainIndexEntry.Data o => some o
       | _ => none) := fun i => by
    unfold offsArr
    exact getD_map_entry _ _ rfl entries i
  have hPd : ∀ i, (payloadArr entries).getD i false =
      (match entries.getD i ChainIndexEntry.Empty with
       | ChainIndexEntry.Data _ => true
       | _ => false) := fun i => by
    unfold payloadArr
    exact getD_map_entry _ _ rfl entries i
  have hAd : ∀ i, (aliasArr entries).getD i none =
      (match entries.getD i ChainIndexEntry.Empty with
       | ChainIndexEntry.Alias t => some (t - 1)
       | _ => none) := fun i => by
    unfold aliasArr
    exact getD_map_entry _ _ rfl entries i
  have hdata63 : ∀ o, ChainIndexEntry.Data o ∈ entries → 1 + o < 2 ^ 63 := by
    intro o hmem
    obtain ⟨i, hi, hei⟩ := List.getElem_of_mem hmem
    have hgd : entries.getD i ChainIndexEntry.Empty = ChainIndexEntry.Data o := by
      rw [List.getD_eq_getElem _ _ hi, hei]
    have hO : (offsArr entries).getD i none = some o := by rw [hOd i, hgd]
    have hb := hbound i hi
    rw [hO] at hb
    omega
  have halias64 : ∀ t, ChainIndexEntry.Alias t ∈ entries → t < 2 ^ 64 := by
    intro t hmem
    obtain ⟨i, hi, hei⟩ := List.getElem_of_mem hmem
    have hgd : entries.getD i ChainIndexEntry.Empty = ChainIndexEntry.Alias t := by
      rw [List.getD_eq_getElem _ _ hi, hei]
    have ha := halias i hi
    rw [hgd] at ha
    exact ha
  have hencgo : encode_chain_index_go entries 0 0 false = Except.ok bytes := henc
  have hparse := parse_encode_chain_go entries 0 0 false bytes none hencgo
    (fun _ => rfl) (by omega) (by omega) hdata63 halias64 bytes.length (le_refl _)
  have hparse2 : parse_chain_entries
      (decide (BlockType.VcDataDynAlias = BlockType.VcDataDynAlias2))
      bytes.length bytes 0 none = Except.ok (entriesTmpOf entries) := by
    rw [show (decide (BlockType.VcDataDynAlias = BlockType.VcDataDynAlias2)) = false
      from rfl]
    rw [hparse]
    simp
  have hLspec := fill_lengths_spec (offsArr entries) (chain_end - chain_start)
  have hstatic : ResolveStatic (aliasArr entries) (payloadArr entries)
      (offsArr entries) (fill_lengths (offsArr entries) (chain_end - chain_start)) := by
    refine ⟨by rw [hPlen2, hAlen], ?_, ?_⟩
    · intro i
      rw [hPd i, hOd i]
      cases entries.getD i ChainIndexEntry.Empty <;> simp
    · intro i
      rw [hLspec.2 i]
      cases hOi : (offsArr entries).getD i none <;> simp
  obtain ⟨hR1len, hR2len, hptw⟩ := resolve_pass_spec (aliasArr entries)
    (payloadArr entries) (offsArr entries)
    (fill_lengths (offsArr entries) (chain_end - chain_start))
    hstatic (by rw [hOlen, hAlen]) (by rw [hLspec.1, hOlen, hAlen])
  have hCd : ∀ i, i < entries.length →
      (canonical_pass (aliasArr entries) (payloadArr entries)).getD i none =
        canon_steps (aliasArr entries) (payloadArr entries)
          ((aliasArr entries).length + 1) i := by
    intro i hi
    rw [canonical_pass_spec (aliasArr entries) (payloadArr entries)]
    rw [List.getD_eq_getElem _ _
      (by rw [List.length_map, List.length_range, hAlen]; omega)]
    rw [List.getElem_map, List.getElem_range]
  have hassemble : assemble_slots
      (resolve_pass (aliasArr entries) (offsArr entries)
        (fill_lengths (offsArr entries) (chain_end - chain_start))).1
      (resolve_pass (aliasArr entries) (offsArr entries)
        (fill_lengths (offsArr entries) (chain_end - chain_start))).2
      (payloadArr entries)
      (canonical_pass (aliasArr entries) (payloadArr entries)) chain_start =
      Except.ok ((List.range entries.length).map
        (chainSlotSpec entries chain_start chain_end)) := by
    unfold assemble_slots
    rw [show (resolve_pass (aliasArr entries) (offsArr entries)
        (fill_lengths (offsArr entries) (chain_end - chain_start))).1.length =
        entries.length from by rw [hR1len, hAlen]]
    refine mapM_ok_of_forall _ _ _ ?_
    intro idx hidx
    have hidxn : idx < entries.length := List.mem_range.mp hidx
    cases hE : entries.getD idx ChainIndexEntry.Empty with
    | Data o =>
      have hOidx : (offsArr entries).getD idx none = some o := by rw [hOd idx, hE]
      have hPidx : (payloadArr entries).getD idx false = true := by rw [hPd idx, hE]
      have hfb := firstData_bounds entries (chain_end - chain_start) hsorted hbound
        idx o hOidx
      have hLidx : (fill_lengths (offsArr entries)
          (chain_end - chain_start)).getD idx none =
          some (firstDataOffset (chain_end - chain_start)
            ((offsArr entries).drop (idx + 1)) - o) := by
        simp only [hLspec.2 idx, hOidx]
        rw [u32_u64_sub_exact _ _ hfb.1 (by omega)]
      have hcan : CanonRel (aliasArr entries) (payloadArr entries) idx idx :=
        ⟨0, rfl, hPidx⟩
      obtain ⟨hR1, hR2⟩ := (hptw idx (by rw [hAlen]; omega)).1 idx o _ hcan hOidx hLidx
      simp only [hR1, hR2]
      rw [if_pos (show chain_start + o < 2 ^ 64 by omega)]
      simp only [hPidx, if_true]
      simp only [chainSlotSpec, hE]
    | Empty =>
      have hPidx : (payloadArr entries).getD idx false = false := by rw [hPd idx, hE]
      have hAidx : (aliasArr entries).getD idx none = none := by rw [hAd idx, hE]
      have hstepn : alias_step (aliasArr entries) (payloadArr entries) idx = none := by
        unfold alias_step
        rw [hPidx, hAidx]
        exact rfl
      have hR1 := (hptw idx (by rw [hAlen]; omega)).2
        (canonRel_none_of_step_none hPidx hstepn)
      simp only [hR1]
      simp only [chainSlotSpec, hE]
    | Alias t =>
      have hPidx : (payloadArr entries).getD idx false = false := by rw [hPd idx, hE]
      have hCidx := hCd idx hidxn
      cases hcs : canon_steps (aliasArr entries) (payloadArr entries)
          ((aliasArr entries).length + 1) idx with
      | some d =>
        have hcan := canon_steps_to_canonRel (aliasArr entries) (payloadArr entries)
          _ idx d hcs
        obtain ⟨m, hmIter, hPdt⟩ := id hcan
        have hdn : d < entries.length := by
          by_contra h
          rw [List.getD_eq_default _ _ (by omega)] at hPdt
          cases hPdt
        have hmatch : (match entries.getD d ChainIndexEntry.Empty with
            | ChainIndexEntry.Data _ => true
            | _ => false) = true := by
          rw [← hPd d]
          exact hPdt
        obtain ⟨od, hEd⟩ : ∃ od,
            entries.getD d ChainIndexEntry.Empty = ChainIndexEntry.Data od := by
          cases hEd2 : entries.getD d ChainIndexEntry.Empty with
          | Data o2 => exact ⟨o2, rfl⟩
          | Empty => rw [hEd2] at hmatch; cases hmatch
          | Alias t2 => rw [hEd2] at hmatch; cases hmatch
        have hOidxd : (offsArr entries).getD d none = some od := by rw [hOd d, hEd]
        have hfb := firstData_bounds entries (chain_end - chain_start) hsorted hbound
          d od hOidxd
        have hLd : (fill_lengths (offsArr entries)
            (chain_end - chain_start)).getD d none =
            some (firstDataOffset (chain_end - chain_start)
              ((offsArr entries).drop (d + 1)) - od) := by
          simp only [hLspec.2 d, hOidxd]
          rw [u32_u64_sub_exact _ _ hfb.1 (by omega)]
        obtain ⟨hR1, hR2⟩ := (hptw idx (by rw [hAlen]; omega)).1 d od _ hcan hOidxd hLd
        have hcs2 := hcs
        rw [hAlen] at hcs2
        simp only [hR1, hR2]
        rw [if_pos (show chain_start + od < 2 ^ 64 by omega)]
        simp only [hPidx, Bool.false_eq_true, if_false, hCidx, hcs]
        rw [if_pos (show d + 1 < 2 ^ 32 by omega)]
        simp only [chainSlotSpec, hE, canonicalOf_eq_canon_steps, hcs2, hOidxd]
      | none =>
        have hnone : ∀ d2, ¬ CanonRel (aliasArr entries) (payloadArr entries) idx d2 := by
          intro d2 hc
          have hsome := canonRel_to_canon_steps (aliasArr entries) (payloadArr entries) hc
          rw [hcs] at hsome
          cases hsome
        have hR1 := (hptw idx (by rw [hAlen]; omega)).2 hnone
        have hcs2 := hcs
        rw [hAlen] at hcs2
        simp only [hR1]
        simp only [chainSlotSpec, hE, canonicalOf_eq_canon_steps, hcs2]
  unfold decode_chain_index
  simp only [hparse2]
  rw [if_neg (show ¬ chain_start > chain_end by omega)]
  simp only [tmp_alias_map, tmp_payload_map, tmp_strip_mapM]
  simp only [hassemble]
  rfl


/-- Concrete instantiation of the chain-index round trip: two Data entries,
an alias to the second, an empty handle, a further Data entry and an alias
to the first. -/
theorem chain_index_roundtrip_witness :
    decode_chain_index BlockType.VcDataDynAlias [3, 5, 0, 2, 2, 7, 0, 1] 7 100 110 =
      Except.ok (chainIndexSlotsSpec
        [ChainIndexEntry.Data 0, ChainIndexEntry.Data 2, ChainIndexEntry.Alias 2,
         ChainIndexEntry.Empty, ChainIndexEntry.Data 5, ChainIndexEntry.Alias 1]
        7 100 110) :=
  chain_index_roundtrip
    [ChainIndexEntry.Data 0, ChainIndexEntry.Data 2, ChainIndexEntry.Alias 2,
     ChainIndexEntry.Empty, ChainIndexEntry.Data 5, ChainIndexEntry.Alias 1]
    [3, 5, 0, 2, 2, 7, 0, 1] 7 100 110
    (by rfl)
    (by
      intro i hi j hj hij
      have hi6 : i < 6 := hi
      have hj6 : j < 6 := hj
      interval_cases i <;> interval_cases j <;> simp [offsArr])
    (by
      intro i hi
      have hi6 : i < 6 := hi
      interval_cases i <;> simp [offsArr])
    (by
      intro i hi
      have hi6 : i < 6 := hi
      interval_cases i <;> simp)
    (by norm_num) (by norm_num) (by norm_num) (by norm_num)


/-! ### Reader: value-change block parsing and the change iterator
(src/src/reader/vc.rs parse_vc_block and build_chains, src/src/block/vc.rs
FrameSection/TimeTable, src/src/block/geom.rs GeomInfo,
src/src/reader/change.rs VcBlockChanges; claims C1 and C2).  Files are byte
lists and the reader position is an explicit index; read_exact EOF failures
become Err.ioErr. -/

/-- u64::from_be_bytes over a big-endian byte list. -/
def beBytesToNat (bytes : List Nat) : Nat :=
  bytes.foldl (fun acc b => acc * 256 + b % 256) 0

/-- read_u64_be at a file position. -/
def read_u64_be_at (file : List Nat) (pos : Nat) : Except Err Nat :=
  if pos + 8 ≤ file.length then .ok (beBytesToNat ((file.drop pos).take 8))
  else .error .ioErr

/-- read_varint_from_reader at a file position: the reader loop consumes the
same bytes and yields the same value as decode_varint_with_len on the byte
suffix. -/
def read_varint_at (file : List Nat) (pos : Nat) : Except Err (Nat × Nat) :=
  decode_varint_with_len (file.drop pos)

/-- Frame preamble section (FrameSection). -/
structure FrameSection where
  data : List Nat
  max_handle : Nat
deriving DecidableEq, Repr

/-- FrameSection::decode: raw when the lengths agree, zlib-decompressed
otherwise, always checked against the uncompressed length. -/
def frame_section_decode (codec : Codec) (uncompressed_len compressed_len : Nat)
    (bytes : List Nat) (max_handle : Nat) : Except Err FrameSection :=
  if compressed_len = uncompressed_len then
    if bytes.length ≠ uncompressed_len then
      .error (.decodeErr "frame payload length mismatch")
    else .ok ⟨bytes, max_handle⟩
  else
    let decoded := codec.zlibDecompress bytes
    if decoded.length ≠ uncompressed_len then
      .error (.decodeErr "frame decompression length mismatch")
    else .ok ⟨decoded, max_handle⟩

/-- Expanded time table (TimeTable). -/
structure TimeTable where
  deltas : List Nat
  timestamps : List Nat
deriving DecidableEq, Repr

/-- Delta-reading loop of TimeTable::decode: reads varints while bytes remain
and fewer than item_count deltas were taken.  Every iteration consumes at
least one byte, so fuel = the byte count always suffices. -/
def read_time_deltas : Nat → List Nat → Nat → Except Err (List Nat)
  | 0, bytes, want =>
    if bytes = [] ∨ want = 0 then .ok []
    else .error (.decodeErr "time delta loop fuel exhausted")
  | fuel + 1, bytes, want =>
    if bytes = [] ∨ want = 0 then .ok []
    else
      match decode_varint_with_len bytes with
      | .error e => .error e
      | .ok (value, consumed) =>
        match read_time_deltas fuel (bytes.drop consumed) (want - 1) with
        | .error e => .error e
        | .ok rest => .ok (value :: rest)

/-- Accumulation loop of TimeTable::decode: absolute timestamps as running
sums of the deltas, with the u64 checked_add overflow error. -/
def accumulate_timestamps : List Nat → Nat → Except Err (List Nat)
  | [], _ => .ok []
  | d :: rest, acc =>
    if acc + d ≥ 2 ^ 64 then
      .error (.decodeErr "time delta accumulation overflow")
    else
      match accumulate_timestamps rest (acc + d) with
      | .error e => .error e
      | .ok tl => .ok ((acc + d) :: tl)

/-- TimeTable::decode. -/
def time_table_decode (codec : Codec) (uncompressed_len compressed_len item_count : Nat)
    (bytes : List Nat) : Except Err TimeTable :=
  match (if compressed_len = uncompressed_len then
      (if bytes.length ≠ uncompressed_len then
        .error (.decodeErr "time section length mismatch")
      else .ok bytes)
    else
      (let decoded := codec.zlibDecompress bytes
       if decoded.length ≠ uncompressed_len then
         .error (.decodeErr "time section decompression mismatch")
       else (.ok decoded : Except Err (List Nat)))) with
  | .error e => .error e
  | .ok raw =>
    match read_time_deltas raw.length raw item_count with
    | .error e => .error e
    | .ok deltas =>
      if deltas.length ≠ item_count then
        .error (.decodeErr "time section item count mismatch")
      else
        match accumulate_timestamps deltas 0 with
        | .error e => .error e
        | .ok timestamps => .ok ⟨deltas, timestamps⟩

/-- One handle's materialized change stream (ChainData, with
ChainPayload::Borrowed ranges resolved to their bytes). -/
structure ChainData where
  handle : Nat
  stored_len : Nat
  payload : List Nat
  alias_of : Option Nat
deriving DecidableEq, Repr

/-- decompress_chain_payload: raw chains must match the expected length
exactly; the compressed forms run the abstracted backend and check the
decoded length. -/
def decompress_chain_payload (codec : Codec) (pack_type : PackType)
    (input : List Nat) (expected_len : Nat) : Except Err (List Nat) :=
  match pack_type with
  | .None =>
    if input.length ≠ expected_len then .error (.decodeErr "chain length mismatch")
    else .ok input
  | .Zlib =>
    let out := codec.zlibDecompress input
    if out.length ≠ expected_len then .error (.decodeErr "chain zlib length mismatch")
    else .ok out
  | .Lz4 =>
    let out := codec.lz4Decompress input expected_len
    if out.length ≠ expected_len then .error (.decodeErr "chain lz4 length mismatch")
    else .ok out
  | .FastLz =>
    let out := codec.fastlzDecompress input expected_len
    if out.length ≠ expected_len then .error (.decodeErr "chain fastlz length mismatch")
    else .ok out

/-- Per-slot loop of build_chains: a zero stored-length prefix keeps the raw
bytes after the prefix, otherwise the payload is decompressed to stored_len
bytes. -/
def build_chains_go (codec : Codec) (buffer : List Nat) (chain_start : Nat)
    (pack_type : PackType) :
    List (Option ChainSlot) → Nat → Except Err (List (Option ChainData))
  | [], _ => .ok []
  | none :: rest, idx =>
    match build_chains_go codec buffer chain_start pack_type rest (idx + 1) with
    | .error e => .error e
    | .ok tl => .ok (none :: tl)
  | some slot :: rest, idx =>
    let rel_offset := slot.offset - chain_start
    let endPos := rel_offset + slot.length
    if endPos > buffer.length then
      .error (.decodeErr "chain slot exceeds buffer bounds")
    else
      let slice := (buffer.drop rel_offset).take slot.length
      match decode_varint_with_len slice with
      | .error e => .error e
      | .ok (stored_len, consumed) =>
        if consumed > slice.length then
          .error (.decodeErr "chain stored length prefix out of bounds")
        else
          let payload_bytes := slice.drop consumed
          if stored_len = 0 then
            match build_chains_go codec buffer chain_start pack_type rest (idx + 1) with
            | .error e => .error e
            | .ok tl =>
              .ok (some ⟨idx, slot.length - consumed, payload_bytes,
                slot.alias_of⟩ :: tl)
          else
            match decompress_chain_payload codec pack_type payload_bytes stored_len with
            | .error e => .error e
            | .ok data =>
              if stored_len ≥ 2 ^ 32 then
                .error (.decodeErr "chain stored length exceeds u32 range")
              else
                match build_chains_go codec buffer chain_start pack_type rest (idx + 1) with
                | .error e => .error e
                | .ok tl => .ok (some ⟨idx, stored_len, data, slot.alias_of⟩ :: tl)

/-- build_chains. -/
def build_chains (codec : Codec) (buffer : List Nat) (chain_start : Nat)
    (slots : List (Option ChainSlot)) (pack_type : PackType) :
    Except Err (List (Option ChainData)) :=
  build_chains_go codec buffer chain_start pack_type slots 0

/-- GeomEntry::from_raw: 0 is Real, 0xFFFF_FFFF Variable, anything else a
fixed width checked against the u32 range. -/
def GeomEntry.from_raw (value : Nat) : Except Err GeomEntry :=
  if value = 0 then .ok .Real
  else if value = 0xFFFFFFFF then .ok .Variable
  else if value ≥ 2 ^ 32 then
    .error (.invalid "geometry entry length exceeds u32 range")
  else .ok (.Fixed value)

/-- Aggregated geometry information (GeomInfo). -/
structure GeomInfo where
  max_handle : Nat
  entries : List GeomEntry
deriving DecidableEq, Repr

/-- GeomInfo::entry for a 1-based handle. -/
def GeomInfo.entry (g : GeomInfo) (handle : Nat) : Option GeomEntry :=
  if handle = 0 then none else g.entries.get? (handle - 1)

/-- Varint loop of GeomInfo::decode_block: max_handle entries, each decoded
with GeomEntry::from_raw; returns the remaining bytes for the trailing-data
check. -/
def geom_entries_parse : Nat → List Nat → Except Err (List GeomEntry × List Nat)
  | 0, bytes => .ok ([], bytes)
  | n + 1, bytes =>
    match decode_varint_with_len bytes with
    | .error e => .error e
    | .ok (value, consumed) =>
      match GeomEntry.from_raw value with
      | .error e => .error e
      | .ok entry =>
        match geom_entries_parse n (bytes.drop consumed) with
        | .error e => .error e
        | .ok (tl, rest) => .ok (entry :: tl, rest)

/-- GeomInfo::decode_block at a file position (the reader is positioned just
after the tag byte and the 8-byte section length). -/
def geom_decode_block (codec : Codec) (file : List Nat) (pos : Nat)
    (section_length : Nat) : Except Err GeomInfo :=
  if section_length < 24 then
    .error (.invalid "geometry section shorter than required metadata")
  else
    let payload_len := section_length - 8
    if payload_len < 16 then
      .error (.invalid "geometry payload shorter than metadata fields")
    else
      match read_u64_be_at file pos with
      | .error e => .error e
      | .ok uncompressed_len =>
        match read_u64_be_at file (pos + 8) with
        | .error e => .error e
        | .ok max_handle =>
          let compressed_len := payload_len - 16
          if pos + 16 + compressed_len > file.length then .error .ioErr
          else
            let payload := (file.drop (pos + 16)).take compressed_len
            match (if compressed_len = uncompressed_len then
                (if payload.length ≠ uncompressed_len then
                  .error (.decodeErr "geometry uncompressed length mismatch with payload")
                else .ok payload)
              else
                (let decoded := codec.zlibDecompress payload
                 if decoded.length ≠ uncompressed_len then
                   .error (.decodeErr "geometry decompression length mismatch with header")
                 else (.ok decoded : Except Err (List Nat)))) with
            | .error e => .error e
            | .ok raw =>
              match geom_entries_parse max_handle raw with
              | .error e => .error e
              | .ok (entries, rest) =>
                if rest ≠ [] then
                  .error (.decodeErr "geometry payload contains trailing data")
                else .ok ⟨max_handle, entries⟩


/-- Fully decoded value-change block metadata (VcBlockMeta, keeping the
fields the change iterator consumes). -/
structure VcBlockMeta where
  begin_time : Nat
  end_time : Nat
  required_memory : Nat
  vc_max_handle : Nat
  pack_type : PackType
  frame : FrameSection
  chain_buffer : List Nat
  chains : List (Option ChainData)
  time_table : TimeTable
  index_slots : List (Option ChainSlot)
  index_length : Nat
deriving Repr

/-- parse_vc_block: header words and frame, the pack marker, then the
backward-located trailer (24-byte time trailer, time data, 8-byte index
length, index), the chain index, the time table and the chain buffer, and
finally the per-handle chains. -/
def parse_vc_block (codec : Codec) (file : List Nat) (block_type : BlockType)
    (section_start payload_len : Nat) : Except Err VcBlockMeta :=
  match read_u64_be_at file section_start with
  | .error e => .error e
  | .ok begin_time =>
  match read_u64_be_at file (section_start + 8) with
  | .error e => .error e
  | .ok end_time =>
  match read_u64_be_at file (section_start + 16) with
  | .error e => .error e
  | .ok required_memory =>
  match read_varint_at file (section_start + 24) with
  | .error e => .error e
  | .ok (frame_uncompressed_len, n1) =>
  match read_varint_at file (section_start + 24 + n1) with
  | .error e => .error e
  | .ok (frame_compressed_len, n2) =>
  match read_varint_at file (section_start + 24 + n1 + n2) with
  | .error e => .error e
  | .ok (frame_max_handle, n3) =>
  let frame_pos := section_start + 24 + n1 + n2 + n3
  if frame_pos + frame_compressed_len > file.length then .error .ioErr
  else
  let frame_bytes := (file.drop frame_pos).take frame_compressed_len
  match frame_section_decode codec frame_uncompressed_len frame_compressed_len
      frame_bytes frame_max_handle with
  | .error e => .error e
  | .ok frame =>
  match read_varint_at file (frame_pos + frame_compressed_len) with
  | .error e => .error e
  | .ok (vc_max_handle, n4) =>
  let pack_pos := frame_pos + frame_compressed_len + n4
  if pack_pos + 1 > file.length then .error .ioErr
  else
  match PackType.from_marker (file.getD pack_pos 0) with
  | none => .error (.decodeErr "unknown pack marker")
  | some pack_type =>
  let chain_start := pack_pos + 1
  if section_start + payload_len ≥ 2 ^ 64 then
    .error (.invalid "value-change block exceeds file bounds")
  else
  let block_end := section_start + payload_len
  if payload_len < 32 then
    .error (.invalid "value-change payload shorter than required trailer")
  else if block_end < 24 then
    .error (.invalid "value-change trailer underflow")
  else
  let time_trailer_start := block_end - 24
  match read_u64_be_at file time_trailer_start with
  | .error e => .error e
  | .ok time_uncompressed_len =>
  match read_u64_be_at file (time_trailer_start + 8) with
  | .error e => .error e
  | .ok time_compressed_len =>
  match read_u64_be_at file (time_trailer_start + 16) with
  | .error e => .error e
  | .ok time_item_count =>
  if time_trailer_start < time_compressed_len then
    .error (.invalid "invalid time section lengths")
  else
  let time_data_start := time_trailer_start - time_compressed_len
  if time_data_start < 8 then
    .error (.invalid "missing index length trailer")
  else
  let index_length_pos := time_data_start - 8
  match read_u64_be_at file index_length_pos with
  | .error e => .error e
  | .ok index_length =>
  if index_length_pos < index_length then
    .error (.invalid "index length exceeds block bounds")
  else
  let index_start := index_length_pos - index_length
  let chain_end := index_start
  if index_start + index_length > file.length then .error .ioErr
  else
  match decode_chain_index block_type ((file.drop index_start).take index_length)
      vc_max_handle chain_start chain_end with
  | .error e => .error e
  | .ok slots =>
  if time_data_start + time_compressed_len > file.length then .error .ioErr
  else
  let time_bytes := (file.drop time_data_start).take time_compressed_len
  match time_table_decode codec time_uncompressed_len time_compressed_len
      time_item_count time_bytes with
  | .error e => .error e
  | .ok time_table =>
  if chain_end < chain_start then .error (.invalid "negative chain range")
  else
  let chain_span := chain_end - chain_start
  if chain_start + chain_span > file.length then .error .ioErr
  else
  let chain_buffer := (file.drop chain_start).take chain_span
  match build_chains codec chain_buffer chain_start slots pack_type with
  | .error e => .error e
  | .ok chains =>
  .ok ⟨begin_time, end_time, required_memory, vc_max_handle, pack_type, frame,
    chain_buffer, chains, time_table, slots, index_length⟩

/-- The block loop of FstReader::next_vc_block: value-change tags parse the
block, the zlib-wrapper tag is rejected as unsupported, a duplicate header
tag is invalid, and the metadata tags (geometry, blackout, hierarchy, skip)
advance to the next block; the metadata those arms store aside is decoded
separately (geom_decode_block). -/
def next_vc_block_go (codec : Codec) (file : List Nat) :
    Nat → Nat → Except Err (Option VcBlockMeta)
  | 0, _ => .error (.decodeErr "block loop fuel exhausted")
  | fuel + 1, pos =>
    match (file.drop pos).head? with
    | none => .ok none
    | some tag =>
      match BlockType.from_u8 tag with
      | none => .error (.invalid "unknown block type")
      | some bt =>
        match bt with
        | .VcData | .VcDataDynAlias | .VcDataDynAlias2 =>
          (match read_u64_be_at file (pos + 1) with
          | .error e => .error e
          | .ok section_length =>
            if section_length < 8 then
              .error (.invalid "section length shorter than required header")
            else
              match parse_vc_block codec file bt (pos + 9) (section_length - 8) with
              | .error e => .error e
              | .ok meta => .ok (some meta))
        | .ZWrapper => .error (.unsupported "zlib wrapper blocks are not yet supported")
        | .Header => .error (.invalid "duplicate header block encountered")
        | _ =>
          match read_u64_be_at file (pos + 1) with
          | .error e => .error e
          | .ok section_length =>
            if section_length < 8 then
              .error (.invalid "section length shorter than required header")
            else
              next_vc_block_go codec file fuel (pos + 9 + (section_length - 8))

/-- Decoded value-change event (ValueChange). -/
structure ValueChangeEvt where
  timestamp : Nat
  handle : Nat
  alias_of : Option Nat
  value : SignalValue
deriving DecidableEq, Repr

/-- Iterator state of VcBlockChanges. -/
structure VcChangesState where
  cursors : List ChainCursor
  schedule : List (List Nat)
  current_handles : List Nat
  pending_aliases : List ValueChangeEvt
  alias_map : List (List Nat)
  time_index : Nat
  time_zero : Nat
  timestamps : List Nat
deriving Repr

/-- Cursor-construction loop of VcBlockChanges::new: every non-alias chain
with a geometry entry becomes a cursor for handle idx + 1. -/
def build_cursors (geometry : GeomInfo) :
    List (Option ChainData) → Nat → Except Err (List ChainCursor)
  | [], _ => .ok []
  | none :: rest, idx => build_cursors geometry rest (idx + 1)
  | some chain :: rest, idx =>
    if (chain.alias_of).isSome then build_cursors geometry rest (idx + 1)
    else
      match geometry.entry (idx + 1) with
      | none => .error (.invalid "missing geometry entry for handle")
      | some ge =>
        match SignalKind.from_geom ge with
        | .error e => .error e
        | .ok kind =>
          match build_cursors geometry rest (idx + 1) with
          | .error e => .error e
          | .ok cs => .ok (⟨idx + 1, kind, chain.payload, 0, 0⟩ :: cs)


/-- Initial-scheduling loop of VcBlockChanges::new: each cursor's first time
delta places it into the schedule bucket for that time index. -/
def schedule_fill (time_len : Nat) :
    List ChainCursor → Nat → List (List Nat) → Except Err (List (List Nat))
  | [], _, sched => .ok sched
  | c :: rest, i, sched =>
    match c.peek_delta with
    | .error e => .error e
    | .ok none => schedule_fill time_len rest (i + 1) sched
    | .ok (some delta) =>
      if delta ≥ time_len then
        .error (.decodeErr "initial chain delta exceeds time table")
      else
        schedule_fill time_len rest (i + 1)
          (sched.set delta (sched.getD delta [] ++ [i]))

/-- The sort_unstable_by_key over cursor handles used by VcBlockChanges:
cursor handles are distinct, so the stable insertion sort computes the same
ordering. -/
def sortByHandle (cursors : List ChainCursor) (l : List Nat) : List Nat :=
  stableSort (fun a b =>
    decide ((cursors.getD a ⟨0, .Bit, [], 0, 0⟩).handle ≤
      (cursors.getD b ⟨0, .Bit, [], 0, 0⟩).handle)) l

/-- Alias-map loop of VcBlockChanges::new: every aliased index slot records
its 1-based handle under its canonical handle. -/
def alias_map_fill :
    List (Option ChainSlot) → Nat → List (List Nat) → List (List Nat)
  | [], _, am => am
  | none :: rest, i, am => alias_map_fill rest (i + 1) am
  | some slot :: rest, i, am =>
    match slot.alias_of with
    | some canon =>
      alias_map_fill rest (i + 1) (am.set canon (am.getD canon [] ++ [i + 1]))
    | none => alias_map_fill rest (i + 1) am

/-- VcBlockChanges::new: builds the cursors, the initial schedule (each
bucket sorted by handle), and the alias map. -/
def vc_changes_new (chains : List (Option ChainData)) (geometry : GeomInfo)
    (slots : List (Option ChainSlot)) (timestamps : List Nat) (time_zero : Nat) :
    Except Err VcChangesState :=
  match build_cursors geometry chains 0 with
  | .error e => .error e
  | .ok cursors =>
    match schedule_fill timestamps.length cursors 0
        (List.replicate timestamps.length []) with
    | .error e => .error e
    | .ok sched =>
      let sched := sched.map (sortByHandle cursors)
      let am := alias_map_fill slots 0 (List.replicate (slots.length + 1) [])
      .ok ⟨cursors, sched, [], [], am, 0, time_zero, timestamps⟩

/-- VcBlockChanges::next_canonical: pending alias events drain first; at each
time index the due handles are sorted ascending by handle and then popped
from the END of the list, so ties at one timestamp come out with the highest
canonical handle first; each emitted canonical event queues its alias
duplicates in registration order and reschedules the cursor at its next
delta.  Every loop iteration either returns, consumes a scheduled handle or
advances the time index, so fuel bounds the loop. -/
def next_canonical (st : VcChangesState) :
    Nat → Except Err (Option ValueChangeEvt × VcChangesState)
  | 0 => .error (.decodeErr "change iterator fuel exhausted")
  | fuel + 1 =>
    match st.pending_aliases with
    | v :: restP => .ok (some v, { st with pending_aliases := restP })
    | [] =>
      if st.time_index ≥ st.timestamps.length then .ok (none, st)
      else
        let st1 :=
          if st.current_handles.isEmpty then
            { st with
              current_handles :=
                sortByHandle st.cursors (st.schedule.getD st.time_index [])
              schedule := st.schedule.set st.time_index [] }
          else st
        match st1.current_handles.getLast? with
        | none => next_canonical { st1 with time_index := st1.time_index + 1 } fuel
        | some cursor_idx =>
          let st2 := { st1 with current_handles := st1.current_handles.dropLast }
          if st2.timestamps.getD st2.time_index 0 + st2.time_zero ≥ 2 ^ 64 then
            .error (.decodeErr "timestamp overflow")
          else
            let timestamp := st2.timestamps.getD st2.time_index 0 + st2.time_zero
            match (st2.cursors.getD cursor_idx ⟨0, .Bit, [], 0, 0⟩).read_value
                st2.time_index with
            | .error e => .error e
            | .ok (none, c2) =>
              next_canonical { st2 with cursors := st2.cursors.set cursor_idx c2 } fuel
            | .ok (some value, c2) =>
              let st3 := { st2 with cursors := st2.cursors.set cursor_idx c2 }
              match c2.peek_delta with
              | .error e => .error e
              | .ok (some next_delta) =>
                let next_time := st3.time_index + next_delta
                if next_time ≥ st3.schedule.length then
                  .error (.decodeErr "chain delta exceeds time table")
                else
                  let sched2 :=
                    st3.schedule.set next_time
                      (st3.schedule.getD next_time [] ++ [cursor_idx])
                  let st4 := { st3 with schedule := sched2 }
                  let handle := c2.handle
                  let aliases := st4.alias_map.getD handle []
                  let pend :=
                    st4.pending_aliases ++
                      aliases.map (fun a => ⟨timestamp, a, some handle, value⟩)
                  .ok (some ⟨timestamp, handle, none, value⟩,
                    { st4 with pending_aliases := pend })
              | .ok none =>
                let handle := c2.handle
                let aliases := st3.alias_map.getD handle []
                let pend :=
                  st3.pending_aliases ++
                    aliases.map (fun a => ⟨timestamp, a, some handle, value⟩)
                .ok (some ⟨timestamp, handle, none, value⟩,
                  { st3 with pending_aliases := pend })

/-- Drains the change iterator (the reader's Iterator::next loop over
next_canonical). -/
def collect_changes : Nat → VcChangesState → Except Err (List ValueChangeEvt)
  | 0, _ => .error (.decodeErr "change iterator fuel exhausted")
  | fuel + 1, st =>
    match next_canonical st (fuel + 1) with
    | .error e => .error e
    | .ok (none, _) => .ok []
    | .ok (some v, st2) =>
      match collect_changes fuel st2 with
      | .error e => .error e
      | .ok rest => .ok (v :: rest)


/-! ### Claims C1 and C2: order of change events within one block -/

/-- Writer with one scope holding two Fixed(1) variables (handles 1 and 2),
header written, and one change per handle emitted at timestamp 0 in handle
order 1 then 2. -/
def c1Pre : WriterState :=
  (do
    let s1 ← begin_scope (WriterState.init ⟨-9, .Raw, .Raw, false⟩)
      0 [116, 111, 112] none
    let (_, s2) ← add_variable s1 16 0 [97] (.Fixed 1)
    let (_, s3) ← add_variable s2 16 0 [98] (.Fixed 1)
    let s4 ← end_scope s3
    let s5 ← write_header s4 { HeaderW.default with end_time := 0, vc_section_count := 1 }
    let s6 ← emit_change s5 0 1 (.Bit 49)
    emit_change s6 0 2 (.Bit 49)
  ).toOption.getD (WriterState.init ⟨-9, .Raw, .Raw, false⟩)

/-- The same writer after flushing the pending changes into a value-change
block (the file bytes hold the header, geometry, hierarchy and VC blocks). -/
def c1Writer : WriterState :=
  (flush_value_changes idCodec c1Pre).toOption.getD c1Pre

/-- Reading the flushed file back: the block loop starts after the 330-byte
header block, parses the value-change block, the geometry block payload at
its file position (tag at 330, payload at 339, section length 26), and
drains the change iterator. -/
def c1ReadEvents : Except Err (List ValueChangeEvt) :=
  match next_vc_block_go idCodec c1Writer.outBytes 8 330 with
  | .error e => .error e
  | .ok none => .error (.decodeErr "no value-change block found")
  | .ok (some meta) =>
    match geom_decode_block idCodec c1Writer.outBytes 339 26 with
    | .error e => .error e
    | .ok geom =>
      match vc_changes_new meta.chains geom meta.index_slots
          meta.time_table.timestamps 0 with
      | .error e => .error e
      | .ok st => collect_changes 8 st

set_option maxRecDepth 400000 in
/-- C1 (code bug): the writer emits changes for handles 1 and 2 at the same
timestamp 0 in that order, but reading the produced file back yields the
events with handle 2 first — the read-back sequence is not the emitted
sequence in (time, canonical_handle) order, because
VcBlockChanges::next_canonical pops the ascending-sorted due-handle list
from its end. -/
theorem roundtrip_read_order_inverted :
    c1Pre.pending_changes.map (fun c => (c.timestamp, c.handle)) =
      [(0, 1), (0, 2)] ∧
    c1ReadEvents =
      .ok [⟨0, 2, none, .Bit 49⟩, ⟨0, 1, none, .Bit 49⟩] :=
  ⟨rfl, rfl⟩

/-- C2 (code bug): with two single-bit chains both due at time index 0,
next_canonical emits the canonical events at that timestamp in decreasing
handle order (handle 2 before handle 1), not the increasing order the spec
describes: the due-handle list is sorted ascending by handle and then popped
from the end. -/
theorem next_canonical_tie_descending :
    (match vc_changes_new
        [some ⟨0, 1, [2], none⟩, some ⟨1, 1, [2], none⟩]
        ⟨2, [GeomEntry.Fixed 1, GeomEntry.Fixed 1]⟩
        [some ⟨100, 2, none⟩, some ⟨102, 2, none⟩] [0] 0 with
      | .ok st => collect_changes 8 st
      | .error e => .error e) =
      .ok [⟨0, 2, none, .Bit 49⟩, ⟨0, 1, none, .Bit 49⟩] := rfl


/-! ### Claim C5: the gzip file wrapper and the reader (src/src/block/header.rs
Header::read, src/src/writer/mod.rs OutputBackend::into_inner,
src/src/reader/mod.rs next_vc_block) -/

/-- read_cstring at a file position: len bytes, cut at the first NUL (the
lossy UTF-8 conversion is modelled as the raw byte prefix). -/
def read_cstring_at (file : List Nat) (pos len : Nat) : Except Err (List Nat) :=
  if pos + len ≤ file.length then
    .ok (((file.drop pos).take len).takeWhile (fun b => b ≠ 0))
  else .error .ioErr

/-- validate_endian on the raw bit pattern: the bits of f64 e, in either byte
order. -/
def validate_endian_bits (bits : Nat) : Except Err Unit :=
  if bits = 0x4005BF0A8B145769 ∨ bits = 0x6957148B0ABF0540 then .ok ()
  else .error (.invalid "unexpected endian test marker")

/-- Parsed FST header (Header); timescale_exponent keeps the raw byte and
the version/date strings keep their bytes. -/
structure Header where
  section_length : Nat
  start_time : Nat
  end_time : Nat
  memory_used : Nat
  scope_count : Nat
  var_count : Nat
  max_handle : Nat
  vc_section_count : Nat
  timescale_exponent : Nat
  version : List Nat
  date : List Nat
  file_type : Nat
  time_zero : Nat
deriving DecidableEq, Repr

/-- Header::read: the first byte must be the header tag (0) — any other
known block type, including the zlib wrapper tag 254, is rejected with an
invalid-data error — followed by the fixed-layout header fields. -/
def Header.read (file : List Nat) : Except Err Header :=
  match file.head? with
  | none => .error .ioErr
  | some b =>
    match BlockType.from_u8 b with
    | none => .error (.invalid "unexpected first block type")
    | some bt =>
      if bt ≠ BlockType.Header then
        .error (.invalid "expected header block (0)")
      else
        match read_u64_be_at file 1 with
        | .error e => .error e
        | .ok section_length =>
        match read_u64_be_at file 9 with
        | .error e => .error e
        | .ok start_time =>
        match read_u64_be_at file 17 with
        | .error e => .error e
        | .ok end_time =>
        match read_u64_be_at file 25 with
        | .error e => .error e
        | .ok endian_bits =>
        match validate_endian_bits endian_bits with
        | .error e => .error e
        | .ok _ =>
        match read_u64_be_at file 33 with
        | .error e => .error e
        | .ok memory_used =>
        match read_u64_be_at file 41 with
        | .error e => .error e
        | .ok scope_count =>
        match read_u64_be_at file 49 with
        | .error e => .error e
        | .ok var_count =>
        match read_u64_be_at file 57 with
        | .error e => .error e
        | .ok max_handle =>
        match read_u64_be_at file 65 with
        | .error e => .error e
        | .ok vc_section_count =>
        if 73 + 1 > file.length then .error .ioErr
        else
        let timescale := file.getD 73 0
        match read_cstring_at file 74 128 with
        | .error e => .error e
        | .ok version =>
        match read_cstring_at file 202 119 with
        | .error e => .error e
        | .ok date =>
        if 321 + 1 > file.length then .error .ioErr
        else
        let file_type := file.getD 321 0
        match read_u64_be_at file 322 with
        | .error e => .error e
        | .ok time_zero =>
        .ok ⟨section_length, start_time, end_time, memory_used, scope_count,
          var_count, max_handle, vc_section_count, timescale, version, date,
          file_type, time_zero⟩

/-- The wrapped file splits as a fixed 25-byte prefix followed by the gzip
payload. -/
theorem wrap_file_payload (codec : Codec) (inner : List Nat) :
    (wrap_file codec inner).drop 25 = codec.gzipCompress inner := rfl

/-- C5 (amended): a file written with the outer gzip wrapper starts with the
tag byte 0xFE and gunzipping the wrapper payload recovers the unwrapped
file's bytes, but the reader cannot read the outer file at all: Header::read
rejects the wrapper tag as an invalid first block, and the block loop of
next_vc_block rejects it as unsupported — it does not transparently yield
the unwrapped file's change events. -/
theorem wrapped_file_structure (codec : Codec) (inner : List Nat) (fuel : Nat)
    (hround : codec.gzipDecompress (codec.gzipCompress inner) = inner) :
    (wrap_file codec inner).head? = some 254 ∧
    codec.gzipDecompress ((wrap_file codec inner).drop 25) = inner ∧
    Header.read (wrap_file codec inner) =
      .error (.invalid "expected header block (0)") ∧
    next_vc_block_go codec (wrap_file codec inner) (fuel + 1) 0 =
      .error (.unsupported "zlib wrapper blocks are not yet supported") := by
  refine ⟨rfl, ?_, rfl, rfl⟩
  rw [wrap_file_payload]
  exact hround

/-- Closed instantiation of the wrapped-file facts at the identity backend. -/
theorem wrapped_file_structure_witness :
    (wrap_file idCodec [7, 8, 9]).head? = some 254 ∧
    idCodec.gzipDecompress ((wrap_file idCodec [7, 8, 9]).drop 25) = [7, 8, 9] ∧
    Header.read (wrap_file idCodec [7, 8, 9]) =
      .error (.invalid "expected header block (0)") ∧
    next_vc_block_go idCodec (wrap_file idCodec [7, 8, 9]) 1 0 =
      .error (.unsupported "zlib wrapper blocks are not yet supported") :=
  wrapped_file_structure idCodec [7, 8, 9] 0 rfl

/-- C5 counterexample: wrapping the concrete two-variable file of c1Writer,
the reader fails on the wrapped bytes instead of transparently yielding the
same change events — Header::read rejects the first block and the block loop
reports the wrapper as unsupported. -/
theorem wrapped_file_not_read_transparently :
    Header.read (wrap_file idCodec c1Writer.outBytes) =
      .error (.invalid "expected header block (0)") ∧
    next_vc_block_go idCodec (wrap_file idCodec c1Writer.outBytes) 1 0 =
      .error (.unsupported "zlib wrapper blocks are not yet supported") :=
  ⟨rfl, rfl⟩

end Wavefst
